import Mathlib

/-!
# Verification of the Sail VS Code language server (`Timmmm/sail_vscode`)

Shallow embedding of the server's source-analysis pipeline and proofs about it.

Modelling conventions:

* Rust `String` buffers (UTF-8) are modelled as `List Char` (the list of Unicode
  scalar values).  Byte offsets are recovered through `Char.utf8Size`: an offset
  is the byte length of a prefix of the character list.  This is faithful
  because the Rust code only ever inspects bytes `b'\n'`/`b'\r'` (which, in
  valid UTF-8, occur exactly as the single-byte encodings of the characters
  `'\n'`/`'\r'`; continuation and lead bytes of multi-byte characters are
  `>= 0x80`), and only ever slices the buffer at byte offsets.
* Rust operations that can panic (string slicing at a non-character-boundary or
  out of range, `Vec` range indexing out of bounds, `usize` underflow,
  `assert!`) are modelled as `Option`-returning functions where `none` means
  the original code panics.
* VSCode "characters" are UTF-16 code units (`char::len_utf16`).
-/

namespace SailVscode

/-- UTF-16 length of a character, as Rust's `char::len_utf16`:
1 code unit for BMP scalars, 2 for supplementary-plane scalars. -/
def utf16Size (c : Char) : Nat :=
  if c.val < 0x10000 then 1 else 2

/-- Byte length of a buffer (sum of UTF-8 sizes), i.e. Rust `str::len`. -/
def byteLen : List Char → Nat
  | [] => 0
  | c :: rest => c.utf8Size + byteLen rest

/-- UTF-16 length of a buffer (sum of UTF-16 sizes). -/
def utf16Len : List Char → Nat
  | [] => 0
  | c :: rest => utf16Size c + utf16Len rest

/-- Take the first `n` *bytes* of a buffer.  `none` when `n` is not at a
character boundary or exceeds the buffer length — the cases where a Rust
byte-slice `&s[..n]` panics. -/
def takeBytes? : List Char → Nat → Option (List Char)
  | _, 0 => some []
  | [], _ + 1 => none
  | c :: rest, n + 1 =>
    if c.utf8Size ≤ n + 1 then (takeBytes? rest (n + 1 - c.utf8Size)).map (c :: ·) else none

/-- Drop the first `n` *bytes* of a buffer; `none` models the panid cases
exactly as in `takeBytes?`. -/
def dropBytes? : List Char → Nat → Option (List Char)
  | l, 0 => some l
  | [], _ + 1 => none
  | c :: rest, n + 1 =>
    if c.utf8Size ≤ n + 1 then dropBytes? rest (n + 1 - c.utf8Size) else none

/-- The byte slice `&s[a..b]` of a Rust `str`: `none` exactly when the Rust
slice panics (when `a > b`, `b > s.len()`, or `a`/`b` is not a character
boundary). -/
def sliceBytes? (l : List Char) (a b : Nat) : Option (List Char) :=
  if a ≤ b then (dropBytes? l a).bind (fun tail => takeBytes? tail (b - a)) else none

/-- Splice `repl` over the byte range `a..b` of `l`: Rust
`String::replace_range(a..b, repl)`.  `none` exactly when `replace_range`
panics. -/
def spliceBytes? (l : List Char) (a b : Nat) (repl : List Char) : Option (List Char) :=
  if a ≤ b then
    (takeBytes? l a).bind fun front =>
      (dropBytes? l b).map fun back => front ++ repl ++ back
  else none

/-- `b` is a byte offset at a UTF-8 character boundary of `l`
(including `0` and `byteLen l`). -/
def IsBoundary (l : List Char) (b : Nat) : Prop :=
  ∃ k, k ≤ l.length ∧ b = byteLen (l.take k)

instance (l : List Char) (b : Nat) : Decidable (IsBoundary l b) :=
  decidable_of_iff ((List.range (l.length + 1)).any fun k => b == byteLen (l.take k)) (by
    simp [List.any_eq_true, IsBoundary, Nat.lt_succ_iff])

/-! ## Text document model — `sail_server/src/text_document.rs` -/

/-- LSP position: 0-based line, 0-based UTF-16 code-unit column
(`tower_lsp::lsp_types::Position`; the source stores these as `u32`,
we use `Nat`). -/
structure LspPosition where
  line : Nat
  character : Nat
deriving DecidableEq, Repr

/-- LSP range.  The source field `end` is a Lean keyword, so it is named
`endPos` here. -/
structure LspRange where
  start : LspPosition
  endPos : LspPosition
deriving DecidableEq, Repr

/-- `TextDocumentContentChangeEvent`.  The `range_length` field of the LSP
type is never read by the source, so it is omitted. -/
structure TextDocumentContentChangeEvent where
  range : Option LspRange
  text : List Char
deriving DecidableEq, Repr

/-- Scanning part of `compute_line_offsets`: the loop over the bytes of
`text`.  `pos` is the absolute byte offset (`text_offset + i`) of the head
character.  The Rust code scans raw bytes; `\n`/`\r` bytes in valid UTF-8 are
exactly the characters `'\n'`/`'\r'`, and `text.get(i + 1) == Some(&b'\n')`
holds iff the next character is `'\n'`. -/
def compute_line_offsets_scan : List Char → Nat → List Nat
  | [], _ => []
  | c :: rest, pos =>
    if c = '\n' then (pos + 1) :: compute_line_offsets_scan rest (pos + 1)
    else if c = '\r' then
      -- a new line *unless* the next byte is \n
      if rest.head? = some '\n' then compute_line_offsets_scan rest (pos + 1)
      else (pos + 1) :: compute_line_offsets_scan rest (pos + 1)
    else compute_line_offsets_scan rest (pos + c.utf8Size)

/-- `compute_line_offsets` from `text_document.rs`. -/
def compute_line_offsets (text : List Char) (is_at_line_start : Bool) (text_offset : Nat) :
    List Nat :=
  (if is_at_line_start then [text_offset] else []) ++ compute_line_offsets_scan text text_offset

/-- `TextDocument`: the text plus the start of each line in bytes. -/
structure TextDocument where
  content : List Char
  line_offsets : List Nat
deriving DecidableEq, Repr

/-- `TextDocument::new`. -/
def TextDocument.new (content : List Char) : TextDocument :=
  ⟨content, compute_line_offsets content true 0⟩

/-- `TextDocument::line_start`: `line_offsets.get(i)` or the buffer length. -/
def TextDocument.line_start (doc : TextDocument) (line_index : Nat) : Nat :=
  (doc.line_offsets.get? line_index).getD (byteLen doc.content)

/-- Loop of `character_to_line_offset` (`line.char_indices()` with a running
UTF-16 count; at the end of the list `byte_pos` equals `line.len()`, the
function's fall-through result). -/
def character_to_line_offset_aux : List Char → Nat → Nat → Nat → Nat
  | [], _, _, byte_pos => byte_pos
  | c :: rest, character, utf16_pos, byte_pos =>
    if utf16_pos = character then byte_pos
    else character_to_line_offset_aux rest character (utf16_pos + utf16Size c)
      (byte_pos + c.utf8Size)

/-- `character_to_line_offset` from `text_document.rs`. -/
def character_to_line_offset (line : List Char) (character : Nat) : Nat :=
  character_to_line_offset_aux line character 0 0

/-- `TextDocument::offset_at`.  `none` models the panic of the byte slice
`&self.content[line_begin..line_end]`. -/
def TextDocument.offset_at? (doc : TextDocument) (position : LspPosition) : Option Nat :=
  (sliceBytes? doc.content (doc.line_start position.line)
      (doc.line_start (position.line + 1))).map
    (fun line => doc.line_start position.line + character_to_line_offset line position.character)

/-- Rust `slice::binary_search` on `line_offsets`.  The source only searches
its (strictly sorted) `line_offsets`, on which `binary_search` returns
`Ok(index-of-x)` or `Err(number-of-elements-less-than-x)`; this model computes
those directly. -/
def binary_search (l : List Nat) (x : Nat) : Sum Nat Nat :=
  if x ∈ l then Sum.inl (l.countP (fun y => decide (y < x)))
  else Sum.inr (l.countP (fun y => decide (y < x)))

/-- `TextDocument::position_at_line`.  `none` models the panics: the indexing
`self.line_offsets[line]`, the `assert!(line_start <= offset)` and the slice
`&self.content[line_start..offset]`. -/
def TextDocument.position_at_line? (doc : TextDocument) (line : Nat) (offset : Nat) :
    Option Nat :=
  match doc.line_offsets.get? line with
  | none => none
  | some ls =>
    if ls ≤ offset then (sliceBytes? doc.content ls offset).map utf16Len
    else none

/-- `TextDocument::position_at`.  `none` models a panic: either the `usize`
underflow `line - 1` when the binary search returns `Err(0)`, or a panic
inside `position_at_line`. -/
def TextDocument.position_at? (doc : TextDocument) (offset : Nat) : Option LspPosition :=
  match binary_search doc.line_offsets (min offset (byteLen doc.content)) with
  | Sum.inl line => some ⟨line, 0⟩
  | Sum.inr line =>
    if line = 0 then none
    else (doc.position_at_line? (line - 1) (min offset (byteLen doc.content))).map
      (fun character => ⟨line - 1, character⟩)

/-- `TextDocument::update`.  `none` models the panics of `replace_range`,
of the slice indexing `self.line_offsets[delete_line_offset_end..]` and of
`Vec::splice` (the source performs them in a different order, which is
irrelevant to the `some`/`none` outcome).  The shift `o + len_after -
len_before` mirrors `*offset += len_after; *offset -= len_before` (on the
valid inputs treated by the theorems below it never underflows). -/
def TextDocument.update? (doc : TextDocument) (change : TextDocumentContentChangeEvent) :
    Option TextDocument :=
  match change.range with
  | some range =>
    (doc.offset_at? range.start).bind fun byte_begin =>
    (doc.offset_at? range.endPos).bind fun byte_end =>
    (spliceBytes? doc.content byte_begin byte_end change.text).bind fun content =>
      let added_line_offsets := compute_line_offsets change.text false byte_begin
      let delete_line_offset_begin := range.start.line + 1
      let delete_line_offset_end := range.endPos.line + 1
      let len_before := byte_end - byte_begin
      let len_after := byteLen change.text
      if delete_line_offset_begin ≤ delete_line_offset_end ∧
          delete_line_offset_end ≤ doc.line_offsets.length then
        let shifted := doc.line_offsets.take delete_line_offset_end ++
          (doc.line_offsets.drop delete_line_offset_end).map
            (fun o => o + len_after - len_before)
        some ⟨content, shifted.take delete_line_offset_begin ++ added_line_offsets ++
          shifted.drop delete_line_offset_end⟩
      else none
  | none => some ⟨change.text, compute_line_offsets change.text true 0⟩

/-- Apply a sequence of changes (the loop in `File::update`). -/
def TextDocument.applyChanges? (doc : TextDocument)
    (changes : List TextDocumentContentChangeEvent) : Option TextDocument :=
  match changes with
  | [] => some doc
  | c :: cs => (doc.update? c).bind fun d => d.applyChanges? cs

/-! ## Lemmas about byte lengths and byte slicing -/

theorem utf16Size_pos (c : Char) : 0 < utf16Size c := by
  unfold utf16Size; split <;> omega

theorem byteLen_append (a b : List Char) : byteLen (a ++ b) = byteLen a + byteLen b := by
  induction a with
  | nil => simp [byteLen]
  | cons c rest ih => simp [byteLen, ih]; omega

theorem utf16Len_append (a b : List Char) : utf16Len (a ++ b) = utf16Len a + utf16Len b := by
  induction a with
  | nil => simp [utf16Len]
  | cons c rest ih => simp [utf16Len, ih]; omega

theorem byteLen_take_le (l : List Char) (k : Nat) : byteLen (l.take k) ≤ byteLen l := by
  conv_rhs => rw [← List.take_append_drop k l]
  rw [byteLen_append]; omega

theorem byteLen_take_mono (l : List Char) {k k' : Nat} (h : k ≤ k') :
    byteLen (l.take k) ≤ byteLen (l.take k') := by
  have heq : l.take k = (l.take k').take k := by
    rw [List.take_take, Nat.min_eq_left h]
  rw [heq]
  exact byteLen_take_le _ _

theorem utf16Len_take_le (l : List Char) (k : Nat) : utf16Len (l.take k) ≤ utf16Len l := by
  conv_rhs => rw [← List.take_append_drop k l]
  rw [utf16Len_append]; omega

theorem utf16Len_take_mono (l : List Char) {k k' : Nat} (h : k ≤ k') :
    utf16Len (l.take k) ≤ utf16Len (l.take k') := by
  have heq : l.take k = (l.take k').take k := by
    rw [List.take_take, Nat.min_eq_left h]
  rw [heq]
  exact utf16Len_take_le _ _

theorem byteLen_take_lt (l : List Char) {k k' : Nat} (h : k < k') (h' : k < l.length) :
    byteLen (l.take k) < byteLen (l.take k') := by
  have h1 : byteLen (l.take (k + 1)) ≤ byteLen (l.take k') := byteLen_take_mono l h
  have h2 : byteLen (l.take k) < byteLen (l.take (k + 1)) := by
    rw [List.take_succ, List.getElem?_eq_getElem h']
    have := (l[k]).utf8Size_pos
    simp only [Option.toList_some, byteLen_append, byteLen]
    omega
  omega

theorem utf16Len_take_lt (l : List Char) {k k' : Nat} (h : k < k') (h' : k < l.length) :
    utf16Len (l.take k) < utf16Len (l.take k') := by
  have h1 : utf16Len (l.take (k + 1)) ≤ utf16Len (l.take k') := utf16Len_take_mono l h
  have h2 : utf16Len (l.take k) < utf16Len (l.take (k + 1)) := by
    rw [List.take_succ, List.getElem?_eq_getElem h']
    have := utf16Size_pos (l[k])
    simp only [Option.toList_some, utf16Len_append, utf16Len]
    omega
  omega

/-- `byteLen ∘ take` is strictly monotone below the length, so comparison of
prefix byte lengths reflects comparison of the indices. -/
theorem take_le_of_byteLen_le (l : List Char) {k k' : Nat} (_hk : k ≤ l.length)
    (h : byteLen (l.take k') ≤ byteLen (l.take k)) (hk' : k' ≤ l.length) : k' ≤ k := by
  by_contra hlt
  push_neg at hlt
  have := byteLen_take_lt l hlt (lt_of_lt_of_le hlt hk')
  omega

theorem take_le_of_utf16Len_le (l : List Char) {k k' : Nat} (_hk : k ≤ l.length)
    (h : utf16Len (l.take k') ≤ utf16Len (l.take k)) (hk' : k' ≤ l.length) : k' ≤ k := by
  by_contra hlt
  push_neg at hlt
  have := utf16Len_take_lt l hlt (lt_of_lt_of_le hlt hk')
  omega

theorem takeBytes?_of_take (l : List Char) {k : Nat} (hk : k ≤ l.length) :
    takeBytes? l (byteLen (l.take k)) = some (l.take k) := by
  induction l generalizing k with
  | nil => simp at hk; subst hk; simp [byteLen, takeBytes?]
  | cons c rest ih =>
    cases k with
    | zero => simp [byteLen, takeBytes?]
    | succ j =>
      have hs := c.utf8Size_pos
      have hj : j ≤ rest.length := by simpa using hk
      simp only [List.take_succ_cons, byteLen]
      have htot : c.utf8Size + byteLen (rest.take j) = (c.utf8Size + byteLen (rest.take j) - 1) + 1 := by
        omega
      rw [htot]
      unfold takeBytes?
      have hle : c.utf8Size ≤ (c.utf8Size + byteLen (rest.take j) - 1) + 1 := by omega
      rw [if_pos hle]
      have : (c.utf8Size + byteLen (rest.take j) - 1) + 1 - c.utf8Size = byteLen (rest.take j) := by
        omega
      rw [this, ih hj]
      rfl

theorem dropBytes?_of_take (l : List Char) {k : Nat} (hk : k ≤ l.length) :
    dropBytes? l (byteLen (l.take k)) = some (l.drop k) := by
  induction l generalizing k with
  | nil => simp at hk; subst hk; simp [byteLen, dropBytes?]
  | cons c rest ih =>
    cases k with
    | zero => simp [byteLen, dropBytes?]
    | succ j =>
      have hs := c.utf8Size_pos
      have hj : j ≤ rest.length := by simpa using hk
      simp only [List.take_succ_cons, byteLen, List.drop_succ_cons]
      have htot : c.utf8Size + byteLen (rest.take j) = (c.utf8Size + byteLen (rest.take j) - 1) + 1 := by
        omega
      rw [htot]
      unfold dropBytes?
      have hle : c.utf8Size ≤ (c.utf8Size + byteLen (rest.take j) - 1) + 1 := by omega
      rw [if_pos hle]
      have : (c.utf8Size + byteLen (rest.take j) - 1) + 1 - c.utf8Size = byteLen (rest.take j) := by
        omega
      rw [this, ih hj]

theorem sliceBytes?_of_take (l : List Char) {k1 k2 : Nat} (h12 : k1 ≤ k2)
    (hk2 : k2 ≤ l.length) :
    sliceBytes? l (byteLen (l.take k1)) (byteLen (l.take k2)) =
      some ((l.drop k1).take (k2 - k1)) := by
  have hk1 : k1 ≤ l.length := le_trans h12 hk2
  unfold sliceBytes?
  rw [if_pos (byteLen_take_mono l h12), dropBytes?_of_take l hk1]
  have hseg : (l.drop k1).take (k2 - k1) = (l.take k2).drop k1 := by
    rw [List.drop_take]
  have hlen : byteLen (l.take k2) - byteLen (l.take k1) = byteLen ((l.drop k1).take (k2 - k1)) := by
    have hd : l.take k2 = l.take k1 ++ (l.take k2).drop k1 := by
      conv_lhs => rw [← List.take_append_drop k1 (l.take k2)]
      rw [List.take_take, Nat.min_eq_left h12]
    conv_lhs => rw [hd]
    rw [byteLen_append, hseg]; omega
  simp only [Option.some_bind]
  rw [hlen, takeBytes?_of_take (l.drop k1) (by simp; omega)]

theorem IsBoundary.le {l : List Char} {b : Nat} (h : IsBoundary l b) : b ≤ byteLen l := by
  obtain ⟨k, _, rfl⟩ := h
  exact byteLen_take_le l k

theorem isBoundary_zero (l : List Char) : IsBoundary l 0 :=
  ⟨0, Nat.zero_le _, rfl⟩

theorem isBoundary_byteLen (l : List Char) : IsBoundary l (byteLen l) :=
  ⟨l.length, le_refl _, by rw [List.take_length]⟩

/-! ## The `character_to_line_offset` characterisation -/

theorem character_to_line_offset_aux_spec (line : List Char) (k u b : Nat)
    (hk : k ≤ line.length) :
    character_to_line_offset_aux line (u + utf16Len (line.take k)) u b =
      b + byteLen (line.take k) := by
  induction line generalizing k u b with
  | nil =>
    simp at hk; subst hk
    simp [character_to_line_offset_aux, utf16Len, byteLen]
  | cons c rest ih =>
    cases k with
    | zero => simp [character_to_line_offset_aux, utf16Len, byteLen]
    | succ j =>
      have hj : j ≤ rest.length := by simpa using hk
      have hpos := utf16Size_pos c
      simp only [List.take_succ_cons, utf16Len, byteLen, character_to_line_offset_aux]
      rw [if_neg (by omega)]
      have : u + (utf16Size c + utf16Len (rest.take j)) = (u + utf16Size c) + utf16Len (rest.take j) := by
        omega
      rw [this, ih j (u + utf16Size c) (b + c.utf8Size) hj]
      omega

theorem character_to_line_offset_spec (line : List Char) (k : Nat) (hk : k ≤ line.length) :
    character_to_line_offset line (utf16Len (line.take k)) = byteLen (line.take k) := by
  have := character_to_line_offset_aux_spec line k 0 0 hk
  simpa [character_to_line_offset] using this

theorem character_to_line_offset_zero (line : List Char) :
    character_to_line_offset line 0 = 0 := by
  have := character_to_line_offset_spec line 0 (Nat.zero_le _)
  simpa [utf16Len, byteLen] using this

theorem byteLen_take_drop (l : List Char) {k1 k2 : Nat} (h : k1 ≤ k2) :
    byteLen ((l.take k2).drop k1) = byteLen (l.take k2) - byteLen (l.take k1) := by
  have hd : l.take k2 = l.take k1 ++ (l.take k2).drop k1 := by
    conv_lhs => rw [← List.take_append_drop k1 (l.take k2)]
    rw [List.take_take, Nat.min_eq_left h]
  conv_rhs => rw [hd]
  rw [byteLen_append]; omega

/-! ## Invariants of `compute_line_offsets` -/

theorem scan_mem_gt (text : List Char) (pos : Nat) :
    ∀ x ∈ compute_line_offsets_scan text pos, pos < x := by
  induction text generalizing pos with
  | nil => simp [compute_line_offsets_scan]
  | cons c rest ih =>
    intro x hx
    simp only [compute_line_offsets_scan] at hx
    split at hx
    · rcases List.mem_cons.mp hx with rfl | hx'
      · omega
      · have := ih (pos + 1) x hx'; omega
    · split at hx
      · split at hx
        · have := ih (pos + 1) x hx; omega
        · rcases List.mem_cons.mp hx with rfl | hx'
          · omega
          · have := ih (pos + 1) x hx'; omega
      · have h1 := ih (pos + c.utf8Size) x hx
        have h2 := c.utf8Size_pos
        omega

theorem utf8Size_newline : ('\n').utf8Size = 1 := by decide

theorem utf8Size_cr : ('\r').utf8Size = 1 := by decide

theorem scan_mem_boundary (text : List Char) (pos : Nat) :
    ∀ x ∈ compute_line_offsets_scan text pos,
      ∃ k, 1 ≤ k ∧ k ≤ text.length ∧ x = pos + byteLen (text.take k) := by
  induction text generalizing pos with
  | nil => simp [compute_line_offsets_scan]
  | cons c rest ih =>
    intro x hx
    simp only [compute_line_offsets_scan] at hx
    have hstep : ∀ pos', pos' = pos + c.utf8Size →
        x ∈ compute_line_offsets_scan rest pos' →
        ∃ k, 1 ≤ k ∧ k ≤ (c :: rest).length ∧ x = pos + byteLen ((c :: rest).take k) := by
      intro pos' hpos' hx'
      obtain ⟨k, hk1, hk2, hk3⟩ := ih pos' x hx'
      exact ⟨k + 1, by omega, by simpa using hk2, by simp [byteLen, hk3, hpos']; omega⟩
    split at hx
    next hc =>
      subst hc
      rcases List.mem_cons.mp hx with rfl | hx'
      · exact ⟨1, le_refl _, by simp, by simp [byteLen, utf8Size_newline]⟩
      · exact hstep (pos + 1) (by rw [utf8Size_newline]) hx'
    next hc1 =>
      split at hx
      next hc =>
        subst hc
        split at hx
        · exact hstep (pos + 1) (by rw [utf8Size_cr]) hx
        · rcases List.mem_cons.mp hx with rfl | hx'
          · exact ⟨1, le_refl _, by simp, by simp [byteLen, utf8Size_cr]⟩
          · exact hstep (pos + 1) (by rw [utf8Size_cr]) hx'
      · exact hstep (pos + c.utf8Size) rfl hx

theorem scan_chain (text : List Char) (pos : Nat) :
    List.Chain' (· < ·) (compute_line_offsets_scan text pos) := by
  induction text generalizing pos with
  | nil => simp [compute_line_offsets_scan]
  | cons c rest ih =>
    have hcons : ∀ p, List.Chain' (· < ·) ((p + 1) :: compute_line_offsets_scan rest (p + 1)) := by
      intro p
      refine List.chain'_cons'.mpr ⟨?_, ih (p + 1)⟩
      intro y hy
      exact scan_mem_gt rest (p + 1) y (List.mem_of_mem_head? hy)
    simp only [compute_line_offsets_scan]
    split
    · exact hcons pos
    · split
      · split
        · exact ih (pos + 1)
        · exact hcons pos
      · exact ih (pos + c.utf8Size)

/-- Well-formedness of a `TextDocument`: the `line_offsets` invariants that
`compute_line_offsets` establishes (nonempty, starting at `0`, strictly
increasing, every entry at a character boundary of the buffer). -/
def TextDocument.WF (doc : TextDocument) : Prop :=
  doc.line_offsets ≠ [] ∧
  doc.line_offsets.head? = some 0 ∧
  List.Chain' (· < ·) doc.line_offsets ∧
  ∀ b ∈ doc.line_offsets, IsBoundary doc.content b

theorem TextDocument.wf_of_line_offsets_eq (doc : TextDocument)
    (h : doc.line_offsets = compute_line_offsets doc.content true 0) : doc.WF := by
  refine ⟨?_, ?_, ?_, ?_⟩ <;> rw [h] <;>
    simp only [compute_line_offsets, if_pos, List.singleton_append]
  · simp
  · simp
  · refine List.chain'_cons'.mpr ⟨?_, scan_chain _ _⟩
    intro y hy
    exact scan_mem_gt doc.content 0 y (List.mem_of_mem_head? hy)
  · intro b hb
    rcases List.mem_cons.mp hb with rfl | hb'
    · exact isBoundary_zero _
    · obtain ⟨k, _, hk2, hk3⟩ := scan_mem_boundary doc.content 0 b hb'
      exact ⟨k, hk2, by omega⟩

theorem TextDocument.wf_new (content : List Char) : (TextDocument.new content).WF :=
  TextDocument.wf_of_line_offsets_eq _ rfl

/-! ## Sorted-list facts used for `binary_search` -/

theorem pairwise_countP_get? {L : List Nat} (hs : List.Pairwise (· < ·) L) (x : Nat) :
    ∀ i v, L.get? i = some v →
      (v < x ↔ i < L.countP (fun y => decide (y < x))) := by
  induction L with
  | nil => intro i v hv; simp at hv
  | cons a L' ih =>
    obtain ⟨ha, hp'⟩ := List.pairwise_cons.mp hs
    have hzero : ¬ a < x → L'.countP (fun y => decide (y < x)) = 0 := by
      intro hax
      rw [List.countP_eq_zero]
      intro b hb
      have := ha b hb
      simp only [decide_eq_true_eq]
      omega
    intro i v hv
    rw [List.countP_cons]
    cases i with
    | zero =>
      rw [List.get?_cons_zero] at hv
      injection hv with hveq
      cases hveq
      by_cases hax : a < x
      · rw [if_pos (by simpa using hax)]
        exact ⟨fun _ => by omega, fun _ => hax⟩
      · rw [if_neg (by simpa using hax), hzero hax]
        exact ⟨fun h => absurd h hax, fun h => by omega⟩
    | succ i =>
      rw [List.get?_cons_succ] at hv
      by_cases hax : a < x
      · rw [if_pos (by simpa using hax)]
        have hiff := ih hp' i v hv
        exact ⟨fun h => by have := hiff.mp h; omega, fun h => hiff.mpr (by omega)⟩
      · rw [if_neg (by simpa using hax), hzero hax]
        have hvmem : v ∈ L' := List.get?_mem hv
        have hav := ha v hvmem
        exact ⟨fun h => by omega, fun h => by omega⟩

theorem pairwise_get?_countP_self {L : List Nat} (hs : List.Pairwise (· < ·) L) {x : Nat}
    (hx : x ∈ L) : L.get? (L.countP (fun y => decide (y < x))) = some x := by
  obtain ⟨i, hi⟩ := List.get?_of_mem hx
  set c := L.countP (fun y => decide (y < x)) with hc
  have hilen : i < L.length := by
    by_contra hcon
    rw [List.get?_eq_none.mpr (by omega)] at hi
    exact Option.noConfusion hi
  have hnotlt : ¬ i < c := by
    intro hlt
    have := (pairwise_countP_get? hs x i x hi).mpr hlt
    omega
  rcases Nat.lt_or_ge c i with hci | hci
  · exfalso
    have hclen : c < L.length := by omega
    obtain ⟨w, hw⟩ : ∃ w, L.get? c = some w := by
      cases hg : L.get? c with
      | none => exact absurd (List.get?_eq_none.mp hg) (by omega)
      | some w => exact ⟨w, rfl⟩
    have hwx : ¬ w < x := by
      intro hlt
      have := (pairwise_countP_get? hs x c w hw).mp hlt
      omega
    have hmono := List.pairwise_iff_get.mp hs ⟨c, hclen⟩ ⟨i, hilen⟩ hci
    rw [List.get?_eq_some.mpr ⟨hclen, rfl⟩] at hw
    injection hw with hw
    rw [List.get?_eq_some.mpr ⟨hilen, rfl⟩] at hi
    injection hi with hi
    rw [hw, hi] at hmono
    omega
  · have : c = i := by omega
    rw [this]
    exact hi

/-! ## Well-formedness consequences -/

theorem TextDocument.WF.pairwise {doc : TextDocument} (h : doc.WF) :
    List.Pairwise (· < ·) doc.line_offsets :=
  List.chain'_iff_pairwise.mp h.2.2.1

theorem TextDocument.WF.zero_mem {doc : TextDocument} (h : doc.WF) :
    0 ∈ doc.line_offsets := by
  have h0 : doc.line_offsets.head? = some 0 := h.2.1
  exact List.mem_of_mem_head? (by rw [h0]; rfl)

theorem TextDocument.line_start_le_byteLen {doc : TextDocument} (h : doc.WF) (i : Nat) :
    doc.line_start i ≤ byteLen doc.content := by
  unfold TextDocument.line_start
  cases hg : doc.line_offsets.get? i with
  | none => simp
  | some v =>
    simp only [Option.getD_some]
    exact (h.2.2.2 v (List.get?_mem hg)).le

theorem TextDocument.line_start_boundary {doc : TextDocument} (h : doc.WF) (i : Nat) :
    IsBoundary doc.content (doc.line_start i) := by
  unfold TextDocument.line_start
  cases hg : doc.line_offsets.get? i with
  | none => simpa using isBoundary_byteLen doc.content
  | some v =>
    simp only [Option.getD_some]
    exact h.2.2.2 v (List.get?_mem hg)

theorem TextDocument.line_start_mono {doc : TextDocument} (h : doc.WF) {i j : Nat}
    (hij : i ≤ j) : doc.line_start i ≤ doc.line_start j := by
  unfold TextDocument.line_start
  cases hgj : doc.line_offsets.get? j with
  | none =>
    simp only [Option.getD_none]
    cases hgi : doc.line_offsets.get? i with
    | none => simp
    | some v =>
      simp only [Option.getD_some]
      exact (h.2.2.2 v (List.get?_mem hgi)).le
  | some w =>
    have hjlen : j < doc.line_offsets.length := by
      by_contra hcon
      rw [List.get?_eq_none.mpr (by omega)] at hgj
      exact Option.noConfusion hgj
    have hilen : i < doc.line_offsets.length := by omega
    obtain ⟨v, hgi⟩ : ∃ v, doc.line_offsets.get? i = some v := by
      cases hgi : doc.line_offsets.get? i with
      | none => exact absurd (List.get?_eq_none.mp hgi) (by omega)
      | some v => exact ⟨v, rfl⟩
    rw [hgi]
    simp only [Option.getD_some]
    rcases Nat.eq_or_lt_of_le hij with rfl | hlt
    · rw [hgj] at hgi; injection hgi with e; omega
    · have hmono := List.pairwise_iff_get.mp h.pairwise ⟨i, hilen⟩ ⟨j, hjlen⟩ hlt
      rw [List.get?_eq_some.mpr ⟨hilen, rfl⟩] at hgi
      rw [List.get?_eq_some.mpr ⟨hjlen, rfl⟩] at hgj
      injection hgi with e1; injection hgj with e2
      omega

theorem sliceBytes?_of_boundaries {l : List Char} {b1 b2 : Nat} (h12 : b1 ≤ b2)
    (hb1 : IsBoundary l b1) (hb2 : IsBoundary l b2) :
    ∃ k1 k2, k1 ≤ k2 ∧ k2 ≤ l.length ∧ b1 = byteLen (l.take k1) ∧ b2 = byteLen (l.take k2) ∧
      sliceBytes? l b1 b2 = some ((l.drop k1).take (k2 - k1)) := by
  obtain ⟨k1, hk1, rfl⟩ := hb1
  obtain ⟨k2, hk2, rfl⟩ := hb2
  have hkk : k1 ≤ k2 := take_le_of_byteLen_le l hk2 h12 hk1
  exact ⟨k1, k2, hkk, hk2, rfl, rfl, sliceBytes?_of_take l hkk hk2⟩

/-- The central property behind C2/C10: on a well-formed document, for an
in-bounds character-boundary offset `o`, `position_at` succeeds and
`offset_at` maps the resulting position back to `o`. -/
theorem roundtrip_offset {doc : TextDocument} (h : doc.WF) {o : Nat}
    (ho : o ≤ byteLen doc.content) (hb : IsBoundary doc.content o) :
    ∃ p, doc.position_at? o = some p ∧ doc.offset_at? p = some o := by
  have hmin : min o (byteLen doc.content) = o := min_eq_left ho
  by_cases hmem : o ∈ doc.line_offsets
  · -- `binary_search` returns `Ok`; the position is `(index-of-o, 0)`.
    set c := doc.line_offsets.countP (fun y => decide (y < o)) with hc
    refine ⟨⟨c, 0⟩, ?_, ?_⟩
    · simp only [TextDocument.position_at?, hmin, binary_search, if_pos hmem]
    · have hgc : doc.line_offsets.get? c = some o := pairwise_get?_countP_self h.pairwise hmem
      have hls : doc.line_start c = o := by
        unfold TextDocument.line_start; rw [hgc]; rfl
      have hmono : doc.line_start c ≤ doc.line_start (c + 1) :=
        doc.line_start_mono h (by omega)
      obtain ⟨k1, k2, hkk, hk2, he1, he2, hslice⟩ :=
        sliceBytes?_of_boundaries (l := doc.content) (hls ▸ hmono)
          (hls ▸ doc.line_start_boundary h c) (doc.line_start_boundary h (c + 1))
      simp only [TextDocument.offset_at?, hls, hslice, Option.map_some']
      rw [character_to_line_offset_zero]
      simp
  · -- `binary_search` returns `Err`.
    set c := doc.line_offsets.countP (fun y => decide (y < o)) with hc
    have hopos : 0 < o := by
      rcases Nat.eq_zero_or_pos o with rfl | hpos
      · exact absurd h.zero_mem hmem
      · exact hpos
    have hcpos : 0 < c := by
      rw [hc, List.countP_pos_iff]
      exact ⟨0, h.zero_mem, by simpa using hopos⟩
    have hclen : c ≤ doc.line_offsets.length := List.countP_le_length _
    obtain ⟨v, hgv⟩ : ∃ v, doc.line_offsets.get? (c - 1) = some v := by
      cases hg : doc.line_offsets.get? (c - 1) with
      | none => exact absurd (List.get?_eq_none.mp hg) (by omega)
      | some v => exact ⟨v, rfl⟩
    have hvo : v < o := (pairwise_countP_get? h.pairwise o (c - 1) v hgv).mpr (by omega)
    have hvb : IsBoundary doc.content v := h.2.2.2 v (List.get?_mem hgv)
    -- the next line offset (if any) is strictly greater than `o`
    have hnext : o ≤ doc.line_start c := by
      unfold TextDocument.line_start
      cases hg : doc.line_offsets.get? c with
      | none => simpa using ho
      | some w =>
        simp only [Option.getD_some]
        have hwo : ¬ w < o := by
          intro hlt
          have := (pairwise_countP_get? h.pairwise o c w hg).mp hlt
          omega
        omega
    obtain ⟨k1, ko, hkko, hko, he1, he2, hslice⟩ :=
      sliceBytes?_of_boundaries (le_of_lt hvo) hvb hb
    have hpal : doc.position_at_line? (c - 1) o =
        some (utf16Len ((doc.content.drop k1).take (ko - k1))) := by
      unfold TextDocument.position_at_line?
      rw [hgv]
      simp only [if_pos (le_of_lt hvo), hslice, Option.map_some']
    refine ⟨⟨c - 1, utf16Len ((doc.content.drop k1).take (ko - k1))⟩, ?_, ?_⟩
    · simp only [TextDocument.position_at?, hmin, binary_search, if_neg hmem]
      rw [if_neg (by omega), hpal]
      rfl
    · -- `offset_at` of the resulting position
      have hls1 : doc.line_start (c - 1) = v := by
        unfold TextDocument.line_start; rw [hgv]; rfl
      have hcc : c - 1 + 1 = c := by omega
      have hmono : doc.line_start (c - 1) ≤ doc.line_start c :=
        doc.line_start_mono h (by omega)
      obtain ⟨k1', ke, hkke, hke, he1', he2', hslice'⟩ :=
        sliceBytes?_of_boundaries (l := doc.content) hmono
          (doc.line_start_boundary h (c - 1)) (doc.line_start_boundary h c)
      rw [hls1] at he1' hslice'
      -- identify the two boundary indices of `v`
      have hk11 : k1' = k1 := by
        have h1 : k1' ≤ k1 := take_le_of_byteLen_le doc.content (by omega) (by omega) (by omega)
        have h2 : k1 ≤ k1' := take_le_of_byteLen_le doc.content (by omega) (by omega) (by omega)
        omega
      rw [hk11] at hkke he1' hslice'
      -- `o`'s boundary index is between the line's two boundary indices
      have hkoke : ko ≤ ke := by
        refine take_le_of_byteLen_le doc.content hke ?_ hko
        rw [← he2, ← he2']
        exact hnext
      simp only [TextDocument.offset_at?, hcc, hls1, hslice', Option.map_some']
      have hseg : (doc.content.drop k1).take (ko - k1) =
          ((doc.content.drop k1).take (ke - k1)).take (ko - k1) := by
        rw [List.take_take, Nat.min_eq_left (by omega)]
      have hlen_inner : ko - k1 ≤ ((doc.content.drop k1).take (ke - k1)).length := by
        rw [List.length_take, List.length_drop]
        omega
      rw [hseg, character_to_line_offset_spec _ _ hlen_inner, ← hseg]
      have hbl : byteLen ((doc.content.drop k1).take (ko - k1)) = o - v := by
        have hdt : (doc.content.drop k1).take (ko - k1) = (doc.content.take ko).drop k1 := by
          rw [List.drop_take]
        rw [hdt, byteLen_take_drop doc.content hkko, ← he2, ← he1]
      rw [hbl]
      congr 1
      omega

theorem get?_some_of_lt {α : Type} {L : List α} {j : Nat} (h : j < L.length) :
    ∃ v, L.get? j = some v := by
  cases hg : L.get? j with
  | none => exact absurd (List.get?_eq_none.mp hg) (by omega)
  | some v => exact ⟨v, rfl⟩

theorem length_of_get?_some {α : Type} {L : List α} {j : Nat} {v : α}
    (h : L.get? j = some v) : j < L.length := by
  by_contra hcon
  rw [List.get?_eq_none.mpr (by omega)] at h
  exact Option.noConfusion h

theorem pairwise_get?_lt {L : List Nat} (hs : List.Pairwise (· < ·) L) {i j : Nat} {v w : Nat}
    (hij : i < j) (hi : L.get? i = some v) (hj : L.get? j = some w) : v < w := by
  have hjlen : j < L.length := length_of_get?_some hj
  have hilen : i < L.length := by omega
  have hmono := List.pairwise_iff_get.mp hs ⟨i, hilen⟩ ⟨j, hjlen⟩ hij
  rw [List.get?_eq_some.mpr ⟨hilen, rfl⟩] at hi
  rw [List.get?_eq_some.mpr ⟨hjlen, rfl⟩] at hj
  injection hi with e1; injection hj with e2
  omega

theorem pairwise_countP_eq_index {L : List Nat} (hs : List.Pairwise (· < ·) L) {i v : Nat}
    (hgv : L.get? i = some v) : L.countP (fun y => decide (y < v)) = i := by
  have hle : L.countP (fun y => decide (y < v)) ≤ i := by
    by_contra hcon
    push_neg at hcon
    have := (pairwise_countP_get? hs v i v hgv).mpr hcon
    omega
  have hge : i ≤ L.countP (fun y => decide (y < v)) := by
    cases i with
    | zero => omega
    | succ j =>
      have hjlen : j < L.length := by
        have := length_of_get?_some hgv
        omega
      obtain ⟨w, hw⟩ := get?_some_of_lt hjlen
      have hwv : w < v := pairwise_get?_lt hs (by omega) hw hgv
      have := (pairwise_countP_get? hs v j w hw).mp hwv
      omega
  omega

/-- The other direction of the round trip: at a valid position (a UTF-16
boundary `character` within the line, not pointing past the final character of
a non-final line), `offset_at` succeeds and `position_at` maps the resulting
byte offset back to the same position. -/
theorem roundtrip_position {doc : TextDocument} (h : doc.WF) {p : LspPosition}
    {seg : List Char} {k : Nat}
    (hline : p.line < doc.line_offsets.length)
    (hseg : sliceBytes? doc.content (doc.line_start p.line)
      (doc.line_start (p.line + 1)) = some seg)
    (hk : k ≤ seg.length)
    (hchar : p.character = utf16Len (seg.take k))
    (hlast : k < seg.length ∨ p.line + 1 = doc.line_offsets.length) :
    ∃ b, doc.offset_at? p = some b ∧ doc.position_at? b = some p := by
  obtain ⟨v, hgv⟩ := get?_some_of_lt hline
  have hls : doc.line_start p.line = v := by
    unfold TextDocument.line_start; rw [hgv]; rfl
  have hmono : doc.line_start p.line ≤ doc.line_start (p.line + 1) :=
    doc.line_start_mono h (by omega)
  obtain ⟨k1, k2, hkk, hk2, he1, he2, hslice2⟩ :=
    sliceBytes?_of_boundaries (l := doc.content) hmono
      (doc.line_start_boundary h p.line) (doc.line_start_boundary h (p.line + 1))
  rw [hseg] at hslice2
  injection hslice2 with hsegeq
  have hv1 : v = byteLen (doc.content.take k1) := by rw [← hls, he1]
  have hseglen : seg.length = k2 - k1 := by
    rw [hsegeq, List.length_take, List.length_drop]
    omega
  have hk1k : k1 + k ≤ k2 := by omega
  -- `seg.take k` is the slice between the boundary indices `k1` and `k1 + k`
  have hsegtake : seg.take k = (doc.content.drop k1).take k := by
    rw [hsegeq, List.take_take, Nat.min_eq_left (by omega)]
  have hsegtake' : seg.take k = (doc.content.take (k1 + k)).drop k1 := by
    rw [hsegtake, List.drop_take]
    congr 1
    omega
  have hblen : byteLen (seg.take k) =
      byteLen (doc.content.take (k1 + k)) - byteLen (doc.content.take k1) := by
    rw [hsegtake', byteLen_take_drop doc.content (by omega)]
  have hctlo : character_to_line_offset seg p.character = byteLen (seg.take k) := by
    rw [hchar]
    exact character_to_line_offset_spec seg k hk
  obtain ⟨b, hbval⟩ : ∃ b, b = byteLen (doc.content.take (k1 + k)) := ⟨_, rfl⟩
  have hmono1 : byteLen (doc.content.take k1) ≤ byteLen (doc.content.take (k1 + k)) :=
    byteLen_take_mono doc.content (by omega)
  have hofv : doc.line_start p.line + character_to_line_offset seg p.character = b := by
    rw [hctlo, he1, hblen, hbval]
    omega
  have hoff : doc.offset_at? p = some b := by
    simp only [TextDocument.offset_at?, hseg, Option.map_some', hofv]
  refine ⟨b, hoff, ?_⟩
  have hble : b ≤ byteLen doc.content := by
    rw [hbval]
    exact byteLen_take_le _ _
  have hmin : min b (byteLen doc.content) = b := min_eq_left hble
  rcases Nat.eq_zero_or_pos k with rfl | hkpos
  · -- `k = 0`: the offset is exactly the line start, `binary_search` finds it
    have hb0 : b = v := by
      rw [hbval, hv1, Nat.add_zero]
    have hmem : b ∈ doc.line_offsets := hb0 ▸ List.get?_mem hgv
    have hcnt : doc.line_offsets.countP (fun y => decide (y < b)) = p.line := by
      rw [hb0]
      exact pairwise_countP_eq_index h.pairwise hgv
    simp only [TextDocument.position_at?, hmin, binary_search, if_pos hmem, hcnt]
    have hchar0 : p.character = 0 := by
      simpa [utf16Len] using hchar
    cases p with
    | mk pl pc =>
      simp only at hchar0
      subst hchar0
      rfl
  · -- `k > 0`: the offset is strictly inside the line (or at the very end of
    -- the final line); `binary_search` misses and reports the insertion point
    have hk1len : k1 < doc.content.length := by omega
    have hvltb : v < b := by
      rw [hv1, hbval]
      exact byteLen_take_lt doc.content (by omega) hk1len
    have hbe : b ≤ doc.line_start (p.line + 1) := by
      rw [hbval, he2]
      exact byteLen_take_mono doc.content hk1k
    have hnotmem : b ∉ doc.line_offsets := by
      intro hmem
      obtain ⟨j, hj⟩ := List.get?_of_mem hmem
      have hjlen : j < doc.line_offsets.length := length_of_get?_some hj
      rcases le_or_lt j p.line with hjp | hjp
      · -- entries up to the line start are at most `v < b`
        rcases Nat.eq_or_lt_of_le hjp with rfl | hjlt
        · rw [hj] at hgv; injection hgv with e; omega
        · have := pairwise_get?_lt h.pairwise hjlt hj hgv
          omega
      · -- entries after the line are at least the next line start `> b`
        have hnl : p.line + 1 < doc.line_offsets.length := by omega
        have hklt : k < seg.length := by
          rcases hlast with hklt | habs
          · exact hklt
          · omega
        obtain ⟨e, hge⟩ := get?_some_of_lt hnl
        have hee : doc.line_start (p.line + 1) = e := by
          unfold TextDocument.line_start; rw [hge]; rfl
        have hblt : b < e := by
          rw [← hee, hbval, he2]
          exact byteLen_take_lt doc.content (by omega) (by omega)
        rcases Nat.eq_or_lt_of_le (by omega : p.line + 1 ≤ j) with rfl | hjgt
        · rw [hj] at hge; injection hge with e'; omega
        · have := pairwise_get?_lt h.pairwise hjgt hge hj
          omega
    have hcnt : doc.line_offsets.countP (fun y => decide (y < b)) = p.line + 1 := by
      have hge : p.line + 1 ≤ doc.line_offsets.countP (fun y => decide (y < b)) := by
        have := (pairwise_countP_get? h.pairwise b p.line v hgv).mp hvltb
        omega
      have hle : doc.line_offsets.countP (fun y => decide (y < b)) ≤ p.line + 1 := by
        by_contra hcon
        push_neg at hcon
        have hnl : p.line + 1 < doc.line_offsets.length := by
          have := List.countP_le_length (l := doc.line_offsets) (fun y => decide (y < b))
          omega
        obtain ⟨e, hge⟩ := get?_some_of_lt hnl
        have hee : doc.line_start (p.line + 1) = e := by
          unfold TextDocument.line_start; rw [hge]; rfl
        have heb : e < b := (pairwise_countP_get? h.pairwise b (p.line + 1) e hge).mpr hcon
        omega
      omega
    have hpal : doc.position_at_line? (p.line + 1 - 1) b = some p.character := by
      simp only [TextDocument.position_at_line?, Nat.add_sub_cancel, hgv]
      rw [if_pos (by omega : v ≤ b)]
      have hsl : sliceBytes? doc.content v b = some (seg.take k) := by
        rw [hv1, hbval]
        rw [sliceBytes?_of_take doc.content (show k1 ≤ k1 + k by omega) (by omega)]
        rw [hsegtake]
        congr 2
        omega
      rw [hsl, Option.map_some', hchar]
    simp only [TextDocument.position_at?, hmin, binary_search, if_neg hnotmem, hcnt]
    rw [if_neg (by omega), hpal]
    simp only [Option.map_some', Nat.add_sub_cancel]

/-! ## Line segmentation of a CR-free buffer.

For the incremental-update correctness statement (spec §8, "line offsets
correctness") we decompose a buffer into its lines.  `splitNl` splits after
every `'\n'`, keeping the terminator attached to its line; a trailing
terminator yields a final empty line, matching `compute_line_offsets`. -/

/-- The buffer contains no carriage return. -/
def CRFree (l : List Char) : Prop := '\r' ∉ l

instance (l : List Char) : Decidable (CRFree l) :=
  decidable_of_iff ('\r' ∉ l) Iff.rfl

def splitNl : List Char → List (List Char)
  | [] => [[]]
  | c :: rest =>
    if c = '\n' then ['\n'] :: splitNl rest
    else
      match splitNl rest with
      | [] => [[c]]
      | s :: ss => (c :: s) :: ss

/-- Shape invariant of `splitNl`: every line but the last is a `'\n'`-free
body followed by the terminator; the last line is `'\n'`-free. -/
inductive SegsOk : List (List Char) → Prop
  | last : ∀ s : List Char, '\n' ∉ s → SegsOk [s]
  | cons : ∀ (p : List Char) (rest : List (List Char)),
      '\n' ∉ p → SegsOk rest → SegsOk ((p ++ ['\n']) :: rest)

theorem SegsOk.ne_nil {segs : List (List Char)} (h : SegsOk segs) : segs ≠ [] := by
  cases h <;> simp

theorem splitNl_ne_nil (c : List Char) : splitNl c ≠ [] := by
  induction c with
  | nil => simp [splitNl]
  | cons a rest ih =>
    simp only [splitNl]
    split
    · simp
    · cases hsp : splitNl rest with
      | nil => simp
      | cons s ss => simp

theorem flatten_splitNl (c : List Char) : (splitNl c).flatten = c := by
  induction c with
  | nil => simp [splitNl]
  | cons a rest ih =>
    simp only [splitNl]
    split
    next ha =>
      subst ha
      simp [List.flatten, ih]
    next ha =>
      cases hsp : splitNl rest with
      | nil => exact absurd hsp (splitNl_ne_nil rest)
      | cons s ss =>
        rw [hsp] at ih
        simp only [List.flatten_cons, List.cons_append]
        rw [← List.flatten_cons, ih]

theorem segsOk_cons_elim {s0 : List Char} {ss : List (List Char)}
    (h : SegsOk (s0 :: ss)) :
    (ss = [] ∧ '\n' ∉ s0) ∨ (∃ p, s0 = p ++ ['\n'] ∧ '\n' ∉ p ∧ SegsOk ss) := by
  cases h
  next hns => exact Or.inl ⟨rfl, hns⟩
  next p hp hok => exact Or.inr ⟨p, rfl, hp, hok⟩

theorem segsOk_splitNl (c : List Char) : SegsOk (splitNl c) := by
  induction c with
  | nil => exact SegsOk.last [] (by simp)
  | cons a rest ih =>
    simp only [splitNl]
    split
    next ha =>
      subst ha
      exact SegsOk.cons [] (splitNl rest) (by simp) ih
    next ha =>
      cases hsp : splitNl rest with
      | nil => exact absurd hsp (splitNl_ne_nil rest)
      | cons s ss =>
        rw [hsp] at ih
        rcases segsOk_cons_elim ih with ⟨rfl, hns⟩ | ⟨p, rfl, hp, hok⟩
        · refine SegsOk.last (a :: s) ?_
          intro hmem
          rcases List.mem_cons.mp hmem with h | h
          · exact ha h.symm
          · exact hns h
        · refine SegsOk.cons (a :: p) ss ?_ hok
          intro hmem
          rcases List.mem_cons.mp hmem with h | h
          · exact ha h.symm
          · exact hp h

/-- The body of a line (the line without its trailing terminator, if any). -/
def stripNl (s : List Char) : List Char :=
  if s.getLast? = some '\n' then s.dropLast else s

theorem stripNl_append_newline (p : List Char) : stripNl (p ++ ['\n']) = p := by
  simp [stripNl, List.getLast?_append]

theorem stripNl_of_no_newline {s : List Char} (h : '\n' ∉ s) : stripNl s = s := by
  unfold stripNl
  split
  next hl =>
    exact absurd (List.mem_of_mem_getLast? hl) h
  next hl => rfl

theorem stripNl_length_le (s : List Char) : (stripNl s).length ≤ s.length := by
  unfold stripNl
  split
  · simp [List.length_dropLast]
  · exact le_refl _

theorem stripNl_take {s : List Char} {k : Nat} (hk : k ≤ (stripNl s).length) :
    s.take k = (stripNl s).take k := by
  unfold stripNl at *
  split at hk
  next hl =>
    rw [if_pos hl, List.dropLast_eq_take, List.take_take]
    · congr 1
      simp only [List.dropLast_eq_take, List.length_take] at hk
      omega
  next hl =>
    rw [if_neg hl]

theorem segsOk_no_newline_strip {segs : List (List Char)} (h : SegsOk segs) :
    ∀ l, l < segs.length → '\n' ∉ stripNl (segs.getD l []) := by
  induction h with
  | last s hns =>
    intro l hl
    have hl0 : l = 0 := by
      simp only [List.length_singleton] at hl
      omega
    subst hl0
    simpa [stripNl_of_no_newline hns] using hns
  | cons p rest hp hok ih =>
    intro l hl
    cases l with
    | zero => simpa [stripNl_append_newline] using hp
    | succ j =>
      have := ih j (by simpa using hl)
      simpa using this

/-- Byte offset of the start of line `i` (saturating beyond the last line). -/
def cumB (segs : List (List Char)) (i : Nat) : Nat :=
  byteLen (segs.take i).flatten

/-- The line-offset table of a segmented buffer. -/
def lineOffsetsOf (segs : List (List Char)) : List Nat :=
  (List.range segs.length).map (fun i => cumB segs i)

theorem cumB_zero (segs : List (List Char)) : cumB segs 0 = 0 := rfl

theorem cumB_succ {segs : List (List Char)} {l : Nat} (hl : l < segs.length) :
    cumB segs (l + 1) = cumB segs l + byteLen (segs.getD l []) := by
  unfold cumB
  rw [List.take_succ, List.flatten_append, byteLen_append]
  congr 1
  rw [List.getElem?_eq_getElem hl]
  simp [List.getD_eq_getElem?_getD, List.getElem?_eq_getElem hl]

theorem cumB_cons (s : List Char) (rest : List (List Char)) (i : Nat) :
    cumB (s :: rest) (i + 1) = byteLen s + cumB rest i := by
  unfold cumB
  simp [List.take_succ_cons, byteLen_append]

theorem cumB_mono (segs : List (List Char)) {i j : Nat} (hij : i ≤ j) :
    cumB segs i ≤ cumB segs j := by
  unfold cumB
  have : segs.take i = (segs.take j).take i := by
    rw [List.take_take, Nat.min_eq_left hij]
  rw [this]
  conv_rhs => rw [← List.take_append_drop i (segs.take j), List.flatten_append, byteLen_append]
  omega

theorem cumB_of_ge {segs : List (List Char)} {i : Nat} (hi : segs.length ≤ i) :
    cumB segs i = byteLen segs.flatten := by
  unfold cumB
  rw [List.take_of_length_le hi]

theorem length_lineOffsetsOf (segs : List (List Char)) :
    (lineOffsetsOf segs).length = segs.length := by
  simp [lineOffsetsOf]

theorem get?_lineOffsetsOf {segs : List (List Char)} {i : Nat} (hi : i < segs.length) :
    (lineOffsetsOf segs).get? i = some (cumB segs i) := by
  unfold lineOffsetsOf
  rw [List.get?_map, List.get?_range hi]
  rfl

/-! ## `compute_line_offsets` on a segmented CR-free buffer -/

theorem scan_cons_newline (L : List Char) (pos : Nat) :
    compute_line_offsets_scan ('\n' :: L) pos =
      (pos + 1) :: compute_line_offsets_scan L (pos + 1) := by
  simp [compute_line_offsets_scan]

theorem scan_cons_other {c : Char} (h1 : c ≠ '\n') (h2 : c ≠ '\r') (L : List Char)
    (pos : Nat) :
    compute_line_offsets_scan (c :: L) pos =
      compute_line_offsets_scan L (pos + c.utf8Size) := by
  simp [compute_line_offsets_scan, h1, h2]

theorem scan_append : ∀ (X Y : List Char) (pos : Nat), CRFree X →
    compute_line_offsets_scan (X ++ Y) pos =
      compute_line_offsets_scan X pos ++ compute_line_offsets_scan Y (pos + byteLen X)
  | [], Y, pos, _ => by simp [compute_line_offsets_scan, byteLen]
  | c :: X', Y, pos, hX => by
    have hc : c ≠ '\r' := fun h => hX (h ▸ List.mem_cons_self c X')
    have hX' : CRFree X' := fun h => hX (List.mem_cons_of_mem c h)
    rw [List.cons_append]
    by_cases h1 : c = '\n'
    · subst h1
      rw [scan_cons_newline, scan_cons_newline, scan_append X' Y (pos + 1) hX',
        show pos + byteLen ('\n' :: X') = pos + 1 + byteLen X' by
          simp only [byteLen, utf8Size_newline]; omega,
        List.cons_append]
    · rw [scan_cons_other h1 hc, scan_cons_other h1 hc,
        scan_append X' Y (pos + c.utf8Size) hX',
        show pos + byteLen (c :: X') = pos + c.utf8Size + byteLen X' by
          simp only [byteLen]; omega]

theorem scan_shift : ∀ (X : List Char) (pos : Nat),
    compute_line_offsets_scan X pos = (compute_line_offsets_scan X 0).map (· + pos)
  | [], pos => by simp [compute_line_offsets_scan]
  | c :: X', pos => by
    have hmm : ∀ a : Nat, (compute_line_offsets_scan X' a).map (· + pos) =
        compute_line_offsets_scan X' (a + pos) := by
      intro a
      rw [scan_shift X' (a + pos), scan_shift X' a, List.map_map]
      apply List.map_congr_left
      intro x _
      simp only [Function.comp_apply]
      omega
    by_cases h1 : c = '\n'
    · simp only [compute_line_offsets_scan, if_pos h1, List.map_cons]
      rw [hmm (0 + 1), show (0 : Nat) + 1 + pos = pos + 1 by omega]
    · by_cases h2 : c = '\r'
      · by_cases hh : X'.head? = some '\n'
        · simp only [compute_line_offsets_scan, if_neg h1, if_pos h2, if_pos hh]
          rw [hmm (0 + 1), show (0 : Nat) + 1 + pos = pos + 1 by omega]
        · simp only [compute_line_offsets_scan, if_neg h1, if_pos h2, if_neg hh,
            List.map_cons]
          rw [hmm (0 + 1), show (0 : Nat) + 1 + pos = pos + 1 by omega]
      · simp only [compute_line_offsets_scan, if_neg h1, if_neg h2]
        rw [hmm (0 + c.utf8Size),
          show (0 : Nat) + c.utf8Size + pos = pos + c.utf8Size by omega]

theorem scan_clean : ∀ (X : List Char), '\n' ∉ X → CRFree X → ∀ pos : Nat,
    compute_line_offsets_scan X pos = []
  | [], _, _, _ => rfl
  | c :: X', hn, hr, pos => by
    have hcn : c ≠ '\n' := fun h => hn (h ▸ List.mem_cons_self c X')
    have hcr : c ≠ '\r' := fun h => hr (h ▸ List.mem_cons_self c X')
    simp only [compute_line_offsets_scan, if_neg hcn, if_neg hcr]
    exact scan_clean X' (fun h => hn (List.mem_cons_of_mem c h))
      (fun h => hr (List.mem_cons_of_mem c h)) (pos + c.utf8Size)

theorem scan_full_line {p : List Char} (pos : Nat) (hn : '\n' ∉ p) (hr : CRFree p) :
    compute_line_offsets_scan (p ++ ['\n']) pos = [pos + byteLen p + 1] := by
  rw [scan_append p ['\n'] pos hr, scan_clean p hn hr pos]
  simp [compute_line_offsets_scan]

theorem crFree_flatten_taker {segs : List (List Char)} (hcr : CRFree segs.flatten)
    {s : List Char} (hs : s ∈ segs) : CRFree s := by
  intro hmem
  exact hcr (List.mem_flatten.mpr ⟨s, hs, hmem⟩)

theorem byteLen_body_line (p : List Char) : byteLen (p ++ ['\n']) = byteLen p + 1 := by
  rw [byteLen_append]
  simp [byteLen, utf8Size_newline]

theorem scan_join_take {segs : List (List Char)} (hok : SegsOk segs)
    (hcr : CRFree segs.flatten) :
    ∀ sl, sl < segs.length → ∀ pos,
      compute_line_offsets_scan (segs.take sl).flatten pos =
        (List.range sl).map (fun i => pos + cumB segs (i + 1)) := by
  induction hok with
  | last s hns =>
    intro sl hsl pos
    have hsl0 : sl = 0 := by
      simp only [List.length_singleton] at hsl
      omega
    subst hsl0
    simp [compute_line_offsets_scan]
  | cons p rest hp hok ih =>
    intro sl hsl pos
    cases sl with
    | zero => simp [compute_line_offsets_scan]
    | succ j =>
      have hcrp : CRFree (p ++ ['\n']) :=
        crFree_flatten_taker hcr (List.mem_cons_self _ _)
      have hcrr : CRFree rest.flatten := by
        intro hmem
        obtain ⟨s, hs, hm⟩ := List.mem_flatten.mp hmem
        exact crFree_flatten_taker hcr (List.mem_cons_of_mem _ hs) hm
      have hcrp' : CRFree p := fun h => hcrp (by simp [h])
      have hj : j < rest.length := by
        simpa using hsl
      rw [List.take_succ_cons, List.flatten_cons,
        scan_append _ _ pos hcrp,
        scan_full_line pos hp hcrp', ih hcrr j hj, List.singleton_append,
        List.range_succ_eq_map, List.map_cons, List.map_map]
      congr 1
      · rw [cumB_cons, cumB_zero, byteLen_body_line]
        omega
      · apply List.map_congr_left
        intro i _
        simp only [Function.comp_apply, Nat.succ_eq_add_one]
        rw [cumB_cons, byteLen_body_line]
        omega

theorem scan_join {segs : List (List Char)} (hok : SegsOk segs)
    (hcr : CRFree segs.flatten) : ∀ pos : Nat,
    compute_line_offsets_scan segs.flatten pos =
      (List.range (segs.length - 1)).map (fun i => pos + cumB segs (i + 1)) := by
  induction hok with
  | last s hns =>
    intro pos
    simp only [List.flatten_cons, List.flatten_nil, List.append_nil,
      List.length_singleton]
    rw [scan_clean s hns (by simpa using hcr) pos]
    simp
  | cons p rest hp hok ih =>
    intro pos
    have hcrp : CRFree (p ++ ['\n']) :=
      crFree_flatten_taker hcr (List.mem_cons_self _ _)
    have hcrr : CRFree rest.flatten := by
      intro hmem
      obtain ⟨s, hs, hm⟩ := List.mem_flatten.mp hmem
      exact crFree_flatten_taker hcr (List.mem_cons_of_mem _ hs) hm
    have hcrp' : CRFree p := fun h => hcrp (by simp [h])
    have hrest : rest ≠ [] := hok.ne_nil
    have hlen : ((p ++ ['\n']) :: rest).length - 1 = (rest.length - 1) + 1 := by
      have : 0 < rest.length := List.length_pos.mpr hrest
      simp only [List.length_cons]
      omega
    rw [List.flatten_cons, scan_append _ _ pos hcrp, scan_full_line pos hp hcrp',
      ih hcrr (pos + byteLen (p ++ ['\n'])), List.singleton_append, hlen,
      List.range_succ_eq_map, List.map_cons, List.map_map]
    congr 1
    · rw [cumB_cons, cumB_zero, byteLen_body_line]
      omega
    · apply List.map_congr_left
      intro i _
      simp only [Function.comp_apply, Nat.succ_eq_add_one]
      rw [cumB_cons, byteLen_body_line]
      omega

theorem compute_eq_lineOffsetsOf {segs : List (List Char)} (hok : SegsOk segs)
    (hcr : CRFree segs.flatten) :
    compute_line_offsets segs.flatten true 0 = lineOffsetsOf segs := by
  unfold compute_line_offsets lineOffsetsOf
  rw [if_pos rfl, List.singleton_append, scan_join hok hcr 0]
  obtain ⟨m, hm⟩ : ∃ m, segs.length = m + 1 := by
    cases hlen : segs.length with
    | zero =>
      exact absurd (List.length_eq_zero.mp hlen) hok.ne_nil
    | succ m => exact ⟨m, rfl⟩
  rw [hm]
  rw [List.range_succ_eq_map, List.map_cons, List.map_map]
  simp only [Nat.add_sub_cancel]
  congr 1
  apply List.map_congr_left
  intro i _
  simp only [Function.comp_apply, Nat.succ_eq_add_one]
  omega

/-- `compute_line_offsets` on a CR-free buffer equals the line-offset table of
its segmentation. -/
theorem compute_eq_lineOffsetsOf_splitNl {c : List Char} (hcr : CRFree c) :
    compute_line_offsets c true 0 = lineOffsetsOf (splitNl c) := by
  have h1 := compute_eq_lineOffsetsOf (segsOk_splitNl c)
    (by rw [flatten_splitNl]; exact hcr)
  rw [flatten_splitNl] at h1
  exact h1

/-! ## Byte offsets and slices of a segmented buffer -/

theorem flatten_decomp {segs : List (List Char)} {l : Nat} (hl : l < segs.length) :
    segs.flatten = (segs.take l).flatten ++
      (segs.getD l [] ++ (segs.drop (l + 1)).flatten) := by
  conv_lhs => rw [← List.take_append_drop l segs]
  rw [List.flatten_append]
  congr 1
  rw [List.drop_eq_getElem_cons hl, List.flatten_cons]
  congr 1
  simp [List.getD_eq_getElem?_getD, List.getElem?_eq_getElem hl]

theorem getD_length_le {segs : List (List Char)} {l : Nat} (hl : l < segs.length) :
    ((segs.take l).flatten).length + (segs.getD l []).length ≤ segs.flatten.length := by
  rw [flatten_decomp hl]
  simp only [List.length_append]
  omega

theorem cumB_take_chars (segs : List (List Char)) (l : Nat) :
    segs.flatten.take ((segs.take l).flatten.length) = (segs.take l).flatten := by
  have hd : segs.flatten = (segs.take l).flatten ++ (segs.drop l).flatten := by
    conv_lhs => rw [← List.take_append_drop l segs]
    rw [List.flatten_append]
  rw [hd, List.take_left]

theorem cumB_eq_byteLen_take (segs : List (List Char)) (l : Nat) :
    cumB segs l = byteLen (segs.flatten.take ((segs.take l).flatten.length)) := by
  rw [cumB_take_chars]
  rfl

theorem offset_take_chars {segs : List (List Char)} {l k : Nat} (hl : l < segs.length)
    (hk : k ≤ (segs.getD l []).length) :
    segs.flatten.take ((segs.take l).flatten.length + k) =
      (segs.take l).flatten ++ (segs.getD l []).take k := by
  conv_lhs => rw [flatten_decomp hl]
  rw [List.take_append]
  congr 1
  exact List.take_append_of_le_length hk

theorem offset_drop_chars {segs : List (List Char)} {l k : Nat} (hl : l < segs.length)
    (hk : k ≤ (segs.getD l []).length) :
    segs.flatten.drop ((segs.take l).flatten.length + k) =
      (segs.getD l []).drop k ++ (segs.drop (l + 1)).flatten := by
  conv_lhs => rw [flatten_decomp hl]
  rw [List.drop_append]
  exact List.drop_append_of_le_length hk

theorem offset_byteLen {segs : List (List Char)} {l k : Nat} (hl : l < segs.length)
    (hk : k ≤ (segs.getD l []).length) :
    byteLen (segs.flatten.take ((segs.take l).flatten.length + k)) =
      cumB segs l + byteLen ((segs.getD l []).take k) := by
  rw [offset_take_chars hl hk, byteLen_append]
  rfl

/-- The byte slice of the document between line start `l` and line start
`l + 1` is exactly segment `l`. -/
theorem line_slice {segs : List (List Char)} {l : Nat} (hl : l < segs.length) :
    sliceBytes? segs.flatten (cumB segs l) (cumB segs (l + 1)) =
      some (segs.getD l []) := by
  have hsucc := cumB_succ hl
  have h0 := cumB_eq_byteLen_take segs l
  have h1 : cumB segs (l + 1) =
      byteLen (segs.flatten.take ((segs.take l).flatten.length + (segs.getD l []).length)) := by
    rw [offset_byteLen hl (le_refl _), List.take_length, hsucc]
  have hlen := getD_length_le hl
  rw [h0, h1, sliceBytes?_of_take segs.flatten (by omega) (by omega)]
  congr 1
  rw [Nat.add_sub_cancel_left]
  have hdrop : segs.flatten.drop ((segs.take l).flatten.length) =
      segs.getD l [] ++ (segs.drop (l + 1)).flatten := by
    conv_lhs => rw [flatten_decomp hl]
    exact List.drop_left _ _
  rw [hdrop]
  exact List.take_append_of_le_length (le_refl _) |>.trans (List.take_length _)

theorem line_start_lineOffsetsOf {doc : TextDocument} {segs : List (List Char)}
    (hc : doc.content = segs.flatten) (ho : doc.line_offsets = lineOffsetsOf segs)
    (i : Nat) : doc.line_start i = cumB segs i := by
  unfold TextDocument.line_start
  rw [ho, hc]
  by_cases hi : i < segs.length
  · rw [get?_lineOffsetsOf hi]
    rfl
  · rw [List.get?_eq_none.mpr (by rw [length_lineOffsetsOf]; omega)]
    simp only [Option.getD_none]
    exact (cumB_of_ge (by omega)).symm

/-- `offset_at` at a valid position of a segmented document. -/
theorem offset_at?_valid {doc : TextDocument} {segs : List (List Char)}
    {p : LspPosition} {k : Nat}
    (hc : doc.content = segs.flatten) (ho : doc.line_offsets = lineOffsetsOf segs)
    (hl : p.line < segs.length) (hk : k ≤ (segs.getD p.line []).length)
    (hch : p.character = utf16Len ((segs.getD p.line []).take k)) :
    doc.offset_at? p = some (cumB segs p.line + byteLen ((segs.getD p.line []).take k)) := by
  have h1 := line_start_lineOffsetsOf hc ho p.line
  have h2 := line_start_lineOffsetsOf hc ho (p.line + 1)
  simp only [TextDocument.offset_at?, h1, h2, hc, line_slice hl, Option.map_some']
  rw [hch, character_to_line_offset_spec _ _ hk]

/-! ## Structure of individual segments -/

theorem segsOk_last_no_newline {segs : List (List Char)} (h : SegsOk segs) :
    '\n' ∉ segs.getD (segs.length - 1) [] := by
  induction h with
  | last s hns => simpa using hns
  | cons p rest hp hok ih =>
    have hrest : rest ≠ [] := hok.ne_nil
    have hlen : 0 < rest.length := List.length_pos.mpr hrest
    have : ((p ++ ['\n']) :: rest).length - 1 = (rest.length - 1) + 1 := by
      simp only [List.length_cons]
      omega
    rw [this]
    simpa using ih

theorem segsOk_inner_line {segs : List (List Char)} (h : SegsOk segs) :
    ∀ l, l + 1 < segs.length →
      ∃ p, segs.getD l [] = p ++ ['\n'] ∧ '\n' ∉ p := by
  induction h with
  | last s hns =>
    intro l hl
    simp only [List.length_singleton] at hl
    omega
  | cons p rest hp hok ih =>
    intro l hl
    cases l with
    | zero => exact ⟨p, by simp, hp⟩
    | succ j =>
      have := ih j (by simpa using hl)
      simpa using this

theorem map_add_right_cancel {B V : List Nat} {c : Nat}
    (h : B.map (· + c) = V) : B = V.map (· - c) := by
  subst h
  rw [List.map_map]
  conv_lhs => rw [← List.map_id B]
  apply List.map_congr_left
  intro a _
  simp only [Function.comp_apply, id]
  omega

/-! ## The three pieces of the incremental line-offset update -/

theorem byteLen_drop (X : List Char) (n : Nat) :
    byteLen (X.drop n) = byteLen X - byteLen (X.take n) := by
  have h : byteLen X = byteLen (X.take n) + byteLen (X.drop n) := by
    conv_lhs => rw [← List.take_append_drop n X]
    rw [byteLen_append]
  omega

theorem getD_mem {segs : List (List Char)} {l : Nat} (hl : l < segs.length) :
    segs.getD l [] ∈ segs := by
  rw [List.getD_eq_getElem segs [] hl]
  exact List.getElem_mem hl

theorem crFree_sub {X Y : List Char} (hcr : CRFree Y) (hsub : ∀ x ∈ X, x ∈ Y) :
    CRFree X :=
  fun h => hcr (hsub _ h)

theorem crFree_take_flatten {segs : List (List Char)} (hcr : CRFree segs.flatten)
    (l : Nat) : CRFree (segs.take l).flatten := by
  refine crFree_sub hcr ?_
  intro x hx
  obtain ⟨s, hs, hm⟩ := List.mem_flatten.mp hx
  exact List.mem_flatten.mpr ⟨s, List.mem_of_mem_take hs, hm⟩

theorem crFree_drop_flatten {segs : List (List Char)} (hcr : CRFree segs.flatten)
    (l : Nat) : CRFree (segs.drop l).flatten := by
  refine crFree_sub hcr ?_
  intro x hx
  obtain ⟨s, hs, hm⟩ := List.mem_flatten.mp hx
  exact List.mem_flatten.mpr ⟨s, List.mem_of_mem_drop hs, hm⟩

theorem crFree_seg {segs : List (List Char)} (hcr : CRFree segs.flatten) {l : Nat}
    (hl : l < segs.length) : CRFree (segs.getD l []) :=
  crFree_flatten_taker hcr (getD_mem hl)

theorem no_newline_take_seg {segs : List (List Char)} (hok : SegsOk segs) {l k : Nat}
    (hl : l < segs.length) (hk : k ≤ (stripNl (segs.getD l [])).length) :
    '\n' ∉ (segs.getD l []).take k := by
  rw [stripNl_take hk]
  intro hmem
  exact segsOk_no_newline_strip hok l hl (List.mem_of_mem_take hmem)

/-- Simplification of the `Vec::splice` expression in `update`
(`shifted.take dlb ++ added ++ shifted.drop dle`). -/
theorem splice_offsets_simp (L : List Nat) (f : Nat → Nat) (added : List Nat)
    {dlb dle : Nat} (h1 : dlb ≤ dle) (h2 : dle ≤ L.length) :
    (L.take dle ++ (L.drop dle).map f).take dlb ++ added ++
      (L.take dle ++ (L.drop dle).map f).drop dle =
    L.take dlb ++ added ++ (L.drop dle).map f := by
  have hlen : (L.take dle).length = dle := by
    rw [List.length_take]
    omega
  congr 1
  · congr 1
    rw [List.take_append_of_le_length (by omega), List.take_take, Nat.min_eq_left h1]
  · exact List.drop_left' hlen

/-- Piece 1: the retained line offsets before the edit are exactly what the
scan of the new prefix produces. -/
theorem take_offsets_eq_scan_P {segs : List (List Char)} (hok : SegsOk segs)
    (hcr : CRFree segs.flatten) {sl ks : Nat} (hsl : sl < segs.length)
    (hks : ks ≤ (stripNl (segs.getD sl [])).length) :
    (lineOffsetsOf segs).take (sl + 1) =
      0 :: compute_line_offsets_scan
        ((segs.take sl).flatten ++ (segs.getD sl []).take ks) 0 := by
  have hcrA : CRFree (segs.take sl).flatten := crFree_take_flatten hcr sl
  have hcrs : CRFree ((segs.getD sl []).take ks) :=
    crFree_sub (crFree_seg hcr hsl) (fun x hx => List.mem_of_mem_take hx)
  rw [scan_append _ _ 0 hcrA,
    scan_clean _ (no_newline_take_seg hok hsl hks) hcrs _, List.append_nil,
    scan_join_take hok hcr sl hsl 0]
  unfold lineOffsetsOf
  rw [← List.map_take, List.take_range, Nat.min_eq_left (by omega),
    List.range_succ_eq_map, List.map_cons, List.map_map]
  congr 1
  apply List.map_congr_left
  intro i _
  simp only [Function.comp_apply, Nat.succ_eq_add_one]
  omega

/-- Piece 3: the shifted line offsets after the edit are exactly what the scan
of the new suffix produces. -/
theorem drop_offsets_eq_scan_S {segs : List (List Char)} (hok : SegsOk segs)
    (hcr : CRFree segs.flatten) {el ke : Nat} (hel : el < segs.length)
    (hke : ke ≤ (stripNl (segs.getD el [])).length) (B0 lenT : Nat)
    (hB0 : B0 ≤ cumB segs el + byteLen ((segs.getD el []).take ke)) :
    ((lineOffsetsOf segs).drop (el + 1)).map
        (fun o => o + lenT - (cumB segs el + byteLen ((segs.getD el []).take ke) - B0)) =
      compute_line_offsets_scan
        ((segs.getD el []).drop ke ++ (segs.drop (el + 1)).flatten) (B0 + lenT) := by
  rcases Nat.lt_or_ge (el + 1) segs.length with hlt | hge
  case inr =>
    -- `el` is the final line: nothing after it on either side
    have hLdrop : (lineOffsetsOf segs).drop (el + 1) = [] :=
      List.drop_eq_nil_of_le (by rw [length_lineOffsetsOf]; omega)
    have hnl : '\n' ∉ segs.getD el [] := by
      have : el = segs.length - 1 := by omega
      rw [this]
      exact segsOk_last_no_newline hok
    have hsegdrop : (segs.drop (el + 1)).flatten = [] := by
      rw [List.drop_eq_nil_of_le (by omega)]
      rfl
    rw [hLdrop, hsegdrop, List.append_nil, List.map_nil,
      scan_clean _ (fun h => hnl (List.mem_of_mem_drop h))
        (crFree_sub (crFree_seg hcr hel) (fun x hx => List.mem_of_mem_drop hx)) _]
  case inl =>
    obtain ⟨p2, hs2, hp2⟩ := segsOk_inner_line hok el hlt
    have hstrip : stripNl (segs.getD el []) = p2 := by
      rw [hs2, stripNl_append_newline]
    have hkep : ke ≤ p2.length := by
      rw [hstrip] at hke
      exact hke
    have hdropke : (segs.getD el []).drop ke = p2.drop ke ++ ['\n'] := by
      rw [hs2, List.drop_append_of_le_length hkep]
    have htakeke : (segs.getD el []).take ke = p2.take ke := by
      rw [hs2, List.take_append_of_le_length hkep]
    have hcrp2 : CRFree p2 := by
      have := crFree_seg hcr hel
      rw [hs2] at this
      exact crFree_sub this (fun x hx => by simp [hx])
    have hnp2 : '\n' ∉ p2.drop ke := fun h => hp2 (List.mem_of_mem_drop h)
    have hcrp2' : CRFree (p2.drop ke) :=
      crFree_sub hcrp2 (fun x hx => List.mem_of_mem_drop hx)
    have hcrdke : CRFree (p2.drop ke ++ ['\n']) := by
      rw [← hdropke]
      exact crFree_sub (crFree_seg hcr hel) (fun x hx => List.mem_of_mem_drop hx)
    -- the scan of the suffix of the original document, anchored at its offset
    have hglobal : compute_line_offsets_scan (segs.drop (el + 1)).flatten
        (0 + cumB segs (el + 1)) =
        ((List.range (segs.length - 1)).map (fun i => 0 + cumB segs (i + 1))).drop
          (el + 1) := by
      have hA : compute_line_offsets_scan (segs.take (el + 1)).flatten 0 =
          (List.range (el + 1)).map (fun i => 0 + cumB segs (i + 1)) :=
        scan_join_take hok hcr (el + 1) hlt 0
      have hsplit : compute_line_offsets_scan segs.flatten 0 =
          compute_line_offsets_scan (segs.take (el + 1)).flatten 0 ++
            compute_line_offsets_scan (segs.drop (el + 1)).flatten
              (0 + byteLen (segs.take (el + 1)).flatten) := by
        conv_lhs => rw [← List.take_append_drop (el + 1) segs, List.flatten_append]
        exact scan_append _ _ 0 (crFree_take_flatten hcr (el + 1))
      rw [scan_join hok hcr 0, hA] at hsplit
      have hlenA : ((List.range (el + 1)).map (fun i => 0 + cumB segs (i + 1))).length
          = el + 1 := by
        rw [List.length_map, List.length_range]
      have hdg := congrArg (fun t => List.drop (el + 1) t) hsplit
      simp only at hdg
      rw [List.drop_left' hlenA] at hdg
      exact hdg.symm
    -- index bookkeeping
    obtain ⟨q, hq⟩ : ∃ q, segs.length - (el + 1) = q + 1 := ⟨segs.length - el - 2, by omega⟩
    have hidxL : (List.range segs.length).drop (el + 1) =
        (List.range (q + 1)).map (fun t => el + 1 + t) := by
      rw [show segs.length = (el + 1) + (q + 1) by omega, List.range_add,
        List.drop_left' (List.length_range _)]
    have hidxV : (List.range (segs.length - 1)).drop (el + 1) =
        (List.range q).map (fun t => el + 1 + t) := by
      rw [show segs.length - 1 = (el + 1) + q by omega, List.range_add,
        List.drop_left' (List.length_range _)]
    -- move the scan of the suffix to base offset 0
    have hshift0 := scan_shift (segs.drop (el + 1)).flatten (0 + cumB segs (el + 1))
    have hbase : compute_line_offsets_scan (segs.drop (el + 1)).flatten 0 =
        (((List.range (segs.length - 1)).map (fun i => 0 + cumB segs (i + 1))).drop
          (el + 1)).map (· - (0 + cumB segs (el + 1))) := by
      apply map_add_right_cancel
      rw [← hshift0, hglobal]
    rw [← List.map_drop, hidxV] at hbase
    -- evaluate the right-hand side
    rw [hdropke, scan_append _ _ _ hcrdke, scan_full_line _ hnp2 hcrp2',
      scan_shift (segs.drop (el + 1)).flatten, hbase, List.singleton_append]
    -- evaluate the left-hand side
    have hLdrop : (lineOffsetsOf segs).drop (el + 1) =
        ((List.range (q + 1)).map (fun t => el + 1 + t)).map (fun i => cumB segs i) := by
      unfold lineOffsetsOf
      rw [← List.map_drop, hidxL]
    rw [hLdrop]
    simp only [List.map_map]
    rw [List.range_succ_eq_map, List.map_cons, List.map_map]
    -- facts for the arithmetic
    have hcum1 : cumB segs (el + 1) = cumB segs el + byteLen (segs.getD el []) :=
      cumB_succ hel
    have htle : byteLen ((segs.getD el []).take ke) ≤ byteLen (segs.getD el []) :=
      byteLen_take_le _ _
    have hdropB : byteLen ((segs.getD el []).drop ke) =
        byteLen (segs.getD el []) - byteLen ((segs.getD el []).take ke) :=
      byteLen_drop _ _
    have hbody : byteLen ((segs.getD el []).drop ke) = byteLen (p2.drop ke) + 1 := by
      rw [hdropke, byteLen_body_line]
    have hbody2 : byteLen (p2.drop ke ++ ['\n']) = byteLen (p2.drop ke) + 1 :=
      byteLen_body_line _
    congr 1
    · -- heads
      simp only [Function.comp_apply, Nat.add_zero]
      omega
    · -- tails
      apply List.map_congr_left
      intro i _
      simp only [Function.comp_apply, Nat.succ_eq_add_one]
      have hmid : el + 1 + (i + 1) = el + 1 + i + 1 := by omega
      rw [hmid]
      have hmono : cumB segs (el + 1) ≤ cumB segs (el + 1 + i + 1) :=
        cumB_mono segs (by omega)
      omega

/-! ## The incremental update theorem -/

theorem crFree_append {a b : List Char} (ha : CRFree a) (hb : CRFree b) :
    CRFree (a ++ b) := by
  intro h
  rcases List.mem_append.mp h with h | h
  · exact ha h
  · exact hb h

/-- A single `update` with a valid CR-free change on a CR-free document whose
`line_offsets` are in segmented form produces exactly the freshly recomputed
document (`TextDocument::new` of the spliced text). -/
theorem update_core {segs : List (List Char)} (hok : SegsOk segs)
    (hcr : CRFree segs.flatten) {sl ks el ke : Nat} {T : List Char} (hcrT : CRFree T)
    (hsl : sl < segs.length) (hel : el < segs.length)
    (hks : ks ≤ (stripNl (segs.getD sl [])).length)
    (hke : ke ≤ (stripNl (segs.getD el [])).length)
    (hsle : sl ≤ el)
    (hble : cumB segs sl + byteLen ((segs.getD sl []).take ks) ≤
            cumB segs el + byteLen ((segs.getD el []).take ke)) :
    TextDocument.update? ⟨segs.flatten, lineOffsetsOf segs⟩
        ⟨some ⟨⟨sl, utf16Len ((segs.getD sl []).take ks)⟩,
               ⟨el, utf16Len ((segs.getD el []).take ke)⟩⟩, T⟩ =
      some (TextDocument.new
        (((segs.take sl).flatten ++ (segs.getD sl []).take ks) ++ T ++
          ((segs.getD el []).drop ke ++ (segs.drop (el + 1)).flatten))) := by
  have hks' : ks ≤ (segs.getD sl []).length := le_trans hks (stripNl_length_le _)
  have hke' : ke ≤ (segs.getD el []).length := le_trans hke (stripNl_length_le _)
  have hstart : TextDocument.offset_at? ⟨segs.flatten, lineOffsetsOf segs⟩
      ⟨sl, utf16Len ((segs.getD sl []).take ks)⟩ =
      some (cumB segs sl + byteLen ((segs.getD sl []).take ks)) :=
    offset_at?_valid rfl rfl hsl hks' rfl
  have hend : TextDocument.offset_at? ⟨segs.flatten, lineOffsetsOf segs⟩
      ⟨el, utf16Len ((segs.getD el []).take ke)⟩ =
      some (cumB segs el + byteLen ((segs.getD el []).take ke)) :=
    offset_at?_valid rfl rfl hel hke' rfl
  have hflatlen : segs.flatten.length =
      (segs.take sl).flatten.length + ((segs.getD sl []).length +
        ((segs.drop (sl + 1)).flatten).length) := by
    conv_lhs => rw [flatten_decomp hsl]
    simp [List.length_append]
  have hflatlen' : segs.flatten.length =
      (segs.take el).flatten.length + ((segs.getD el []).length +
        ((segs.drop (el + 1)).flatten).length) := by
    conv_lhs => rw [flatten_decomp hel]
    simp [List.length_append]
  have htk : takeBytes? segs.flatten
      (cumB segs sl + byteLen ((segs.getD sl []).take ks)) =
      some ((segs.take sl).flatten ++ (segs.getD sl []).take ks) := by
    rw [← offset_byteLen hsl hks',
      takeBytes?_of_take segs.flatten (by omega),
      offset_take_chars hsl hks']
  have hdr : dropBytes? segs.flatten
      (cumB segs el + byteLen ((segs.getD el []).take ke)) =
      some ((segs.getD el []).drop ke ++ (segs.drop (el + 1)).flatten) := by
    rw [← offset_byteLen hel hke',
      dropBytes?_of_take segs.flatten (by omega),
      offset_drop_chars hel hke']
  have hsplice : spliceBytes? segs.flatten
      (cumB segs sl + byteLen ((segs.getD sl []).take ks))
      (cumB segs el + byteLen ((segs.getD el []).take ke)) T =
      some (((segs.take sl).flatten ++ (segs.getD sl []).take ks) ++ T ++
        ((segs.getD el []).drop ke ++ (segs.drop (el + 1)).flatten)) := by
    unfold spliceBytes?
    rw [if_pos hble, htk, Option.some_bind, hdr, Option.map_some']
  simp only [TextDocument.update?, hstart, hend, hsplice, Option.some_bind]
  rw [if_pos ⟨by omega, by rw [length_lineOffsetsOf]; omega⟩]
  unfold TextDocument.new
  simp only [Option.some.injEq, TextDocument.mk.injEq, true_and]
  rw [splice_offsets_simp (lineOffsetsOf segs) _ _
    (by omega) (by rw [length_lineOffsetsOf]; omega)]
  rw [take_offsets_eq_scan_P hok hcr hsl hks,
    drop_offsets_eq_scan_S hok hcr hel hke
      (cumB segs sl + byteLen ((segs.getD sl []).take ks)) (byteLen T) hble]
  have hcrP : CRFree ((segs.take sl).flatten ++ (segs.getD sl []).take ks) :=
    crFree_append (crFree_take_flatten hcr sl)
      (crFree_sub (crFree_seg hcr hsl) (fun x hx => List.mem_of_mem_take hx))
  have hlenP : byteLen ((segs.take sl).flatten ++ (segs.getD sl []).take ks) =
      cumB segs sl + byteLen ((segs.getD sl []).take ks) := by
    rw [byteLen_append]
    rfl
  rw [show ((segs.take sl).flatten ++ (segs.getD sl []).take ks) ++ T ++
      ((segs.getD el []).drop ke ++ (segs.drop (el + 1)).flatten) =
      ((segs.take sl).flatten ++ (segs.getD sl []).take ks) ++ (T ++
      ((segs.getD el []).drop ke ++ (segs.drop (el + 1)).flatten)) from by
    rw [List.append_assoc]]
  rw [show compute_line_offsets
      (((segs.take sl).flatten ++ (segs.getD sl []).take ks) ++ (T ++
        ((segs.getD el []).drop ke ++ (segs.drop (el + 1)).flatten))) true 0 =
      0 :: compute_line_offsets_scan
        (((segs.take sl).flatten ++ (segs.getD sl []).take ks) ++ (T ++
          ((segs.getD el []).drop ke ++ (segs.drop (el + 1)).flatten))) 0 from rfl]
  rw [scan_append _ _ 0 hcrP, scan_append _ _ _ hcrT, hlenP, Nat.zero_add]
  simp [compute_line_offsets, List.append_assoc]

/-- A content change whose range denotes valid positions of the current
buffer: each endpoint sits on a character boundary within its line's body
(`ks`/`ke` characters into line `sl`/`el`, not beyond the line's text before
its `\n` terminator), and the range is non-inverted. -/
def ValidChange (c : List Char) (ch : TextDocumentContentChangeEvent) : Prop :=
  match ch.range with
  | none => True
  | some r =>
    ∃ sl ks el ke : Nat,
      sl < (splitNl c).length ∧ el < (splitNl c).length ∧
      ks ≤ (stripNl ((splitNl c).getD sl [])).length ∧
      ke ≤ (stripNl ((splitNl c).getD el [])).length ∧
      sl ≤ el ∧
      cumB (splitNl c) sl + byteLen (((splitNl c).getD sl []).take ks) ≤
        cumB (splitNl c) el + byteLen (((splitNl c).getD el []).take ke) ∧
      r.start = ⟨sl, utf16Len (((splitNl c).getD sl []).take ks)⟩ ∧
      r.endPos = ⟨el, utf16Len (((splitNl c).getD el []).take ke)⟩

/-- A sequence of changes each of which is valid (and CR-free) for the
document it is applied to. -/
def ValidChanges (doc : TextDocument) : List TextDocumentContentChangeEvent → Prop
  | [] => True
  | ch :: rest => ValidChange doc.content ch ∧ CRFree ch.text ∧
      ∀ d', doc.update? ch = some d' → ValidChanges d' rest

theorem update?_new_step {c : List Char} (hcr : CRFree c)
    {ch : TextDocumentContentChangeEvent} (hv : ValidChange c ch)
    (hcrT : CRFree ch.text) :
    ∃ c', TextDocument.update? (TextDocument.new c) ch = some (TextDocument.new c') ∧
      CRFree c' := by
  rcases ch with ⟨r, T⟩
  rcases r with _ | r
  · exact ⟨T, rfl, hcrT⟩
  · obtain ⟨sl, ks, el, ke, hsl, hel, hks, hke, hsle, hble, hst, hen⟩ := hv
    have hflat : (splitNl c).flatten = c := flatten_splitNl c
    have hok := segsOk_splitNl c
    have hcr' : CRFree (splitNl c).flatten := by rw [hflat]; exact hcr
    have hdoc : TextDocument.new c =
        ⟨(splitNl c).flatten, lineOffsetsOf (splitNl c)⟩ := by
      unfold TextDocument.new
      rw [compute_eq_lineOffsetsOf_splitNl hcr, hflat]
    have hcore := update_core hok hcr' (T := T) hcrT hsl hel hks hke hsle hble
    refine ⟨((splitNl c).take sl).flatten ++ ((splitNl c).getD sl []).take ks ++ T ++
      (((splitNl c).getD el []).drop ke ++ ((splitNl c).drop (el + 1)).flatten), ?_, ?_⟩
    · rw [hdoc]
      have hch : r = ⟨⟨sl, utf16Len (((splitNl c).getD sl []).take ks)⟩,
                      ⟨el, utf16Len (((splitNl c).getD el []).take ke)⟩⟩ := by
        rcases r with ⟨s, e⟩
        simp only [LspRange.mk.injEq]
        exact ⟨hst, hen⟩
      rw [hch]
      exact hcore
    · exact crFree_append (crFree_append (crFree_append (crFree_take_flatten hcr' sl)
        (crFree_sub (crFree_seg hcr' hsl) fun x hx => List.mem_of_mem_take hx)) hcrT)
        (crFree_append (crFree_sub (crFree_seg hcr' hel) fun x hx => List.mem_of_mem_drop hx)
          (crFree_drop_flatten hcr' (el + 1)))

theorem applyChanges_refines {changes : List TextDocumentContentChangeEvent} :
    ∀ {c : List Char}, CRFree c → ValidChanges (TextDocument.new c) changes →
      ∃ c', (TextDocument.new c).applyChanges? changes = some (TextDocument.new c') := by
  induction changes with
  | nil => exact fun _ _ => ⟨_, rfl⟩
  | cons ch rest ih =>
    intro c hcr hv
    obtain ⟨hv1, hcrT, hv2⟩ := hv
    obtain ⟨c1, hstep, hcr1⟩ := update?_new_step hcr hv1 hcrT
    obtain ⟨c', hrest⟩ := ih hcr1 (hv2 _ hstep)
    refine ⟨c', ?_⟩
    simp only [TextDocument.applyChanges?, hstep, Option.some_bind]
    exact hrest

theorem position_at?_clamp (doc : TextDocument) (o : Nat) :
    doc.position_at? o = doc.position_at? (min o (byteLen doc.content)) := by
  unfold TextDocument.position_at?
  have h : min (min o (byteLen doc.content)) (byteLen doc.content) =
      min o (byteLen doc.content) := by omega
  rw [h]

/-- **C1** (corrected): for every CR-free initial buffer and every sequence of
`update` calls whose change ranges denote valid positions of the then-current
document (character boundaries within the line bodies) and whose inserted
texts are CR-free, the incrementally maintained `line_offsets` array equals
the array `TextDocument::new` recomputes from scratch on the resulting
content.  Without the CR-freeness amendment the claim is false: see the
counterexample, where an inserted `\n` joins with a preceding `\r` into a
single CRLF break and the incremental table diverges from recomputation. -/
theorem C1_update_line_offsets_refine_recompute (c : List Char) (hcr : CRFree c)
    (changes : List TextDocumentContentChangeEvent)
    (hv : ValidChanges (TextDocument.new c) changes) :
    ∃ d, (TextDocument.new c).applyChanges? changes = some d ∧
      d = TextDocument.new d.content := by
  obtain ⟨c', h⟩ := applyChanges_refines hcr hv
  exact ⟨TextDocument.new c', h, rfl⟩

/-- **C1** witness: replacing the range `(0,1)–(1,0)` of `"a\nb"` by `"X"`
(a valid, CR-free change) keeps `line_offsets` equal to recomputation. -/
theorem C1_update_line_offsets_refine_recompute_witness :
    ∃ d, (TextDocument.new ['a', '\n', 'b']).applyChanges?
        [⟨some ⟨⟨0, 1⟩, ⟨1, 0⟩⟩, ['X']⟩] = some d ∧
      d = TextDocument.new d.content :=
  C1_update_line_offsets_refine_recompute ['a', '\n', 'b'] (by decide) _
    ⟨⟨0, 1, 1, 0, by decide, by decide, by decide, by decide, by decide,
      by decide, by decide, by decide⟩, by decide, fun _ _ => trivial⟩

/-- **C1** counterexample: `(1,0)` is a valid position of `"a\rb"`
(`offset_at` resolves it to byte 2), yet inserting `"\n"` there leaves the
incremental table at `[0, 2, 3]` while recomputing on the new content
`"a\r\nb"` yields `[0, 3]` (the `\r\n` counts as one line break). -/
theorem C1_counterexample_crlf_join :
    (TextDocument.new ['a', '\r', 'b']).offset_at? ⟨1, 0⟩ = some 2 ∧
    ∃ d, (TextDocument.new ['a', '\r', 'b']).applyChanges?
        [⟨some ⟨⟨1, 0⟩, ⟨1, 0⟩⟩, ['\n']⟩] = some d ∧
      d.line_offsets ≠ (TextDocument.new d.content).line_offsets :=
  ⟨by decide, ⟨['a', '\r', '\n', 'b'], [0, 2, 3]⟩, by decide, by decide⟩

/-- **C2** (corrected): on a freshly constructed document, (a) for every
in-bounds byte offset that lies on a character boundary, `position_at`
followed by `offset_at` returns the original offset; (b) for every position
whose character index points at a character boundary within its line (or at
the end of the final line), `offset_at` followed by `position_at` returns the
original position.  Without the boundary restriction in (a) the claim is
false: see the counterexample, an in-bounds offset inside a multi-byte
character on which `position_at` panics. -/
theorem C2_offset_position_roundtrip (c : List Char) :
    (∀ o : Nat, o ≤ byteLen c → IsBoundary c o →
      ∃ p, (TextDocument.new c).position_at? o = some p ∧
        (TextDocument.new c).offset_at? p = some o) ∧
    (∀ (p : LspPosition) (seg : List Char) (k : Nat),
      p.line < (TextDocument.new c).line_offsets.length →
      sliceBytes? c ((TextDocument.new c).line_start p.line)
        ((TextDocument.new c).line_start (p.line + 1)) = some seg →
      k ≤ seg.length → p.character = utf16Len (seg.take k) →
      (k < seg.length ∨ p.line + 1 = (TextDocument.new c).line_offsets.length) →
      ∃ b, (TextDocument.new c).offset_at? p = some b ∧
        (TextDocument.new c).position_at? b = some p) := by
  constructor
  · intro o ho hb
    exact roundtrip_offset (TextDocument.wf_new c) ho hb
  · intro p seg k hline hseg hk hchar hlast
    exact roundtrip_position (TextDocument.wf_new c) hline hseg hk hchar hlast

/-- **C2** witness: in `"a\nb"`, offset 2 round-trips through `position_at`
and position `(1,1)` round-trips through `offset_at`. -/
theorem C2_offset_position_roundtrip_witness :
    (∃ p, (TextDocument.new ['a', '\n', 'b']).position_at? 2 = some p ∧
      (TextDocument.new ['a', '\n', 'b']).offset_at? p = some 2) ∧
    (∃ b, (TextDocument.new ['a', '\n', 'b']).offset_at? ⟨1, 1⟩ = some b ∧
      (TextDocument.new ['a', '\n', 'b']).position_at? b = some ⟨1, 1⟩) :=
  ⟨(C2_offset_position_roundtrip ['a', '\n', 'b']).1 2 (by decide) (by decide),
   (C2_offset_position_roundtrip ['a', '\n', 'b']).2 ⟨1, 1⟩ ['b'] 1 (by decide)
     (by decide) (by decide) (by decide) (Or.inr (by decide))⟩

/-- **C2** counterexample: in the buffer `"é"` the byte offset 1 is in bounds
(`1 ≤ 2`) but falls strictly inside the two-byte UTF-8 encoding of `é`, and
`position_at` panics (modelled as `none`), so `offset_at (position_at 1)`
does not return 1. -/
theorem C2_counterexample_midchar :
    1 ≤ byteLen ['é'] ∧ (TextDocument.new ['é']).position_at? 1 = none :=
  ⟨by decide, by decide⟩

/-- **C10** (confirmed): `position_at` succeeds on every offset that after
clamping to the buffer length lies on a UTF-8 character boundary, and it is
not total over arbitrary in-bounds offsets: at offset 1 of the buffer `"é"`
(strictly inside the character's two-byte encoding) the byte slice in
`position_at_line` panics (modelled as `none`). -/
theorem C10_position_at_boundary_totality (c : List Char) (o : Nat)
    (hb : IsBoundary c (min o (byteLen c))) :
    (∃ p, (TextDocument.new c).position_at? o = some p) ∧
    (1 ≤ byteLen ['é'] ∧ (TextDocument.new ['é']).position_at? 1 = none) := by
  constructor
  · obtain ⟨p, hp, _⟩ := roundtrip_offset (TextDocument.wf_new c)
      (min_le_right o (byteLen c)) hb
    rw [position_at?_clamp]
    exact ⟨p, hp⟩
  · exact ⟨by decide, by decide⟩

/-- **C10** witness: offset 3 of `"aé"` is a boundary after clamping and
`position_at` succeeds on it. -/
theorem C10_position_at_boundary_totality_witness :
    (∃ p, (TextDocument.new ['a', 'é']).position_at? 3 = some p) ∧
    (1 ≤ byteLen ['é'] ∧ (TextDocument.new ['é']).position_at? 1 = none) :=
  C10_position_at_boundary_totality ['a', 'é'] 3 (by decide)

/-! ## Lexer model — `sail_parser/src/lexer.rs`

The chumsky lexer is embedded as character-level matching functions.  Each
alternative of the token `choice` becomes a function
`List Char → Except Nat (Token × Nat)`: success returns the token and the
number of characters consumed (the consumed slice is the corresponding
`take`), failure returns the byte offset (relative to the alternative's
start) at which the alternative failed, which is where chumsky's `Rich`
error places its `expected_found` span.  The `choice` keeps the furthest
failure offset, as chumsky's error merging keeps the error latest in the
input.  The recursive scanning loops (`skipTrivia`, `lexLoop`) recurse on an
auxiliary fuel argument so that they are structurally recursive (hence
evaluable); `lexFull` passes `input.length + 1`, which the step bounds show
can never run out, and `lexLoop_fuel_stable` proves the result is the same
for every sufficient fuel. -/

theorem dropBytes?_byteLen {l r : List Char} {n : Nat} (h : dropBytes? l n = some r) :
    byteLen l = n + byteLen r := by
  induction l generalizing n with
  | nil =>
    cases n with
    | zero => injection h with h1; subst h1; omega
    | succ m => simp [dropBytes?] at h
  | cons c rest ih =>
    cases n with
    | zero => injection h with h1; subst h1; omega
    | succ m =>
      unfold dropBytes? at h
      split at h
      · have := ih h
        simp only [byteLen]
        omega
      · simp at h

def isHexDigitChar (c : Char) : Bool :=
  c.isDigit || ('a' ≤ c && c ≤ 'f') || ('A' ≤ c && c ≤ 'F')

def isBinDigitChar (c : Char) : Bool :=
  c = '0' || c = '1'

def identStart (c : Char) : Bool :=
  c.isAlpha || c = '_' || c = '?'

def identCont (c : Char) : Bool :=
  c.isAlphanum || c = '_' || c = '?' || c = '\''

def identLen : List Char → Option Nat
  | [] => none
  | c :: rest =>
    if identStart c then some (1 + (rest.takeWhile identCont).length)
    else if c = '~' then some 1
    else none

theorem identLen_bounds {cs : List Char} {n : Nat} (h : identLen cs = some n) :
    1 ≤ n ∧ n ≤ cs.length := by
  match cs with
  | [] => simp [identLen] at h
  | c :: rest =>
    simp only [identLen] at h
    split at h
    · injection h with h1
      subst h1
      have := congrArg List.length (List.takeWhile_append_dropWhile (p := identCont) (l := rest))
      rw [List.length_append] at this
      simp only [List.length_cons]
      omega
    · split at h
      · injection h with h1
        subst h1
        simp only [List.length_cons]
        omega
      · simp at h

def matchLit : List Char → List Char → Except Nat (List Char)
  | [], cs => .ok cs
  | _ :: _, [] => .error 0
  | l :: ls, c :: cs =>
    if c = l then
      match matchLit ls cs with
      | .ok rest => .ok rest
      | .error d => .error (c.utf8Size + d)
    else .error 0

theorem matchLit_ok_prefix {pat cs rest : List Char} (h : matchLit pat cs = .ok rest) :
    cs = pat ++ rest := by
  induction pat generalizing cs with
  | nil =>
    injection h with h1
    try subst h1
    try rfl
  | cons l ls ih =>
    match cs with
    | [] => simp [matchLit] at h
    | c :: cs' =>
      simp only [matchLit] at h
      split at h
      · rename_i hc
        subst hc
        match hm : matchLit ls cs' with
        | .ok r' =>
          rw [hm] at h
          injection h with h1
          subst h1
          rw [ih hm, List.cons_append]
        | .error d => rw [hm] at h; exact absurd h (by simp)
      · exact absurd h (by simp)

theorem matchLit_error_le {pat cs : List Char} {d : Nat} (h : matchLit pat cs = .error d) :
    d ≤ byteLen cs := by
  induction pat generalizing cs d with
  | nil => simp [matchLit] at h
  | cons l ls ih =>
    match cs with
    | [] =>
      simp only [matchLit] at h
      injection h with h1
      omega
    | c :: cs' =>
      simp only [matchLit] at h
      split at h
      · match hm : matchLit ls cs' with
        | .ok r' => rw [hm] at h; exact absurd h (by simp)
        | .error d' =>
          rw [hm] at h
          injection h with h1
          subst h1
          have := ih hm
          simp only [byteLen]
          omega
      · injection h with h1
        omega



inductive Token where
  | Id (s : List Char)
  | TyVal (s : List Char)
  | Bin (s : List Char)
  | Hex (s : List Char)
  | Num (s : List Char)
  | Real (s : List Char)
  | StringLit (s : List Char)
  | Kw (s : List Char)
  | Op (s : List Char)
deriving DecidableEq, Repr

def tyvar : List Char → Except Nat (Token × Nat)
  | [] => .error 0
  | c :: rest =>
    if c = '\'' then
      match identLen rest with
      | some m => .ok (.TyVal (c :: rest.take m), 1 + m)
      | none => .error 1
    else .error 0

theorem tyvar_ok_bounds {cs : List Char} {t : Token} {n : Nat}
    (h : tyvar cs = .ok (t, n)) : 1 ≤ n ∧ n ≤ cs.length := by
  match cs with
  | [] => simp [tyvar] at h
  | c :: rest =>
    simp only [tyvar] at h
    split at h
    · rcases hm : identLen rest with _ | m
      · rw [hm] at h; try simp only [] at h; exact absurd h (by simp)
      · rw [hm] at h
        try simp only [] at h
        injection h with h1
        injection h1 with h2 h3
        subst h3
        have := identLen_bounds hm
        simp only [List.length_cons]
        omega
    · exact absurd h (by simp)

theorem tyvar_error_le {cs : List Char} {d : Nat} (h : tyvar cs = .error d) :
    d ≤ byteLen cs := by
  match cs with
  | [] =>
    simp only [tyvar] at h
    injection h with h1
    omega
  | c :: rest =>
    simp only [tyvar] at h
    split at h
    · rcases hm : identLen rest with _ | m
      · rw [hm] at h
        try simp only [] at h
        injection h with h1
        subst h1
        have := c.utf8Size_pos
        simp only [byteLen]
        omega
      · rw [hm] at h; try simp only [] at h; exact absurd h (by simp)
    · injection h with h1
      omega

theorem takeWhile_length_le (p : Char → Bool) (l : List Char) :
    (l.takeWhile p).length ≤ l.length := by
  have := congrArg List.length (List.takeWhile_append_dropWhile (p := p) (l := l))
  rw [List.length_append] at this
  omega

theorem byteLen_takeWhile_le (p : Char → Bool) (l : List Char) :
    byteLen (l.takeWhile p) ≤ byteLen l := by
  have := congrArg byteLen (List.takeWhile_append_dropWhile (p := p) (l := l))
  rw [byteLen_append] at this
  omega

def hex : List Char → Except Nat (Token × Nat)
  | [] => .error 0
  | [c0] => if c0 = '0' then .error 1 else .error 0
  | c0 :: c1 :: rest =>
    if c0 = '0' then
      if c1 = 'x' then
        match rest.takeWhile isHexDigitChar with
        | [] => .error 2
        | ds => .ok (.Hex ('0' :: 'x' :: ds), 2 + ds.length)
      else .error 1
    else .error 0

def bin : List Char → Except Nat (Token × Nat)
  | [] => .error 0
  | [c0] => if c0 = '0' then .error 1 else .error 0
  | c0 :: c1 :: rest =>
    if c0 = '0' then
      if c1 = 'b' then
        match rest.takeWhile isBinDigitChar with
        | [] => .error 2
        | ds => .ok (.Bin ('0' :: 'b' :: ds), 2 + ds.length)
      else .error 1
    else .error 0

theorem hex_ok_bounds {cs : List Char} {t : Token} {n : Nat}
    (h : hex cs = .ok (t, n)) : 1 ≤ n ∧ n ≤ cs.length := by
  match cs with
  | [] => simp [hex] at h
  | [c0] =>
    simp only [hex] at h
    split at h <;> exact absurd h (by simp)
  | c0 :: c1 :: rest =>
    simp only [hex] at h
    split at h
    · split at h
      · rcases hds : rest.takeWhile isHexDigitChar with _ | ⟨d1, ds⟩
        · rw [hds] at h; try simp only [] at h; exact absurd h (by simp)
        · rw [hds] at h
          try simp only [] at h
          injection h with h1
          injection h1 with h2 h3
          subst h3
          have hle : (d1 :: ds).length ≤ rest.length := by
            rw [← hds]; exact takeWhile_length_le _ _
          simp only [List.length_cons] at hle ⊢
          omega
      · exact absurd h (by simp)
    · exact absurd h (by simp)

theorem hex_error_le {cs : List Char} {d : Nat} (h : hex cs = .error d) :
    d ≤ byteLen cs := by
  match cs with
  | [] =>
    simp only [hex] at h
    injection h with h1
    omega
  | [c0] =>
    simp only [hex] at h
    have := c0.utf8Size_pos
    split at h <;> (injection h with h1; subst h1; simp only [byteLen]; omega)
  | c0 :: c1 :: rest =>
    simp only [hex] at h
    have := c0.utf8Size_pos
    have := c1.utf8Size_pos
    split at h
    · split at h
      · rcases hds : rest.takeWhile isHexDigitChar with _ | ⟨d1, ds⟩
        · rw [hds] at h
          try simp only [] at h
          injection h with h1
          subst h1
          simp only [byteLen]
          omega
        · rw [hds] at h; try simp only [] at h; exact absurd h (by simp)
      · injection h with h1
        subst h1
        simp only [byteLen]
        omega
    · injection h with h1
      subst h1
      simp only [byteLen]
      omega

theorem bin_ok_bounds {cs : List Char} {t : Token} {n : Nat}
    (h : bin cs = .ok (t, n)) : 1 ≤ n ∧ n ≤ cs.length := by
  match cs with
  | [] => simp [bin] at h
  | [c0] =>
    simp only [bin] at h
    split at h <;> exact absurd h (by simp)
  | c0 :: c1 :: rest =>
    simp only [bin] at h
    split at h
    · split at h
      · rcases hds : rest.takeWhile isBinDigitChar with _ | ⟨d1, ds⟩
        · rw [hds] at h; try simp only [] at h; exact absurd h (by simp)
        · rw [hds] at h
          try simp only [] at h
          injection h with h1
          injection h1 with h2 h3
          subst h3
          have hle : (d1 :: ds).length ≤ rest.length := by
            rw [← hds]; exact takeWhile_length_le _ _
          simp only [List.length_cons] at hle ⊢
          omega
      · exact absurd h (by simp)
    · exact absurd h (by simp)

theorem bin_error_le {cs : List Char} {d : Nat} (h : bin cs = .error d) :
    d ≤ byteLen cs := by
  match cs with
  | [] =>
    simp only [bin] at h
    injection h with h1
    omega
  | [c0] =>
    simp only [bin] at h
    have := c0.utf8Size_pos
    split at h <;> (injection h with h1; subst h1; simp only [byteLen]; omega)
  | c0 :: c1 :: rest =>
    simp only [bin] at h
    have := c0.utf8Size_pos
    have := c1.utf8Size_pos
    split at h
    · split at h
      · rcases hds : rest.takeWhile isBinDigitChar with _ | ⟨d1, ds⟩
        · rw [hds] at h
          try simp only [] at h
          injection h with h1
          subst h1
          simp only [byteLen]
          omega
        · rw [hds] at h; try simp only [] at h; exact absurd h (by simp)
      · injection h with h1
        subst h1
        simp only [byteLen]
        omega
    · injection h with h1
      subst h1
      simp only [byteLen]
      omega

def realTail (sgn rest : List Char) : Except Nat (Token × Nat) :=
  match rest.takeWhile Char.isDigit with
  | [] => .error (byteLen sgn)
  | ds =>
    match rest.dropWhile Char.isDigit with
    | c2 :: rest2 =>
      if c2 = '.' then
        match rest2.takeWhile Char.isDigit with
        | [] => .error (byteLen sgn + byteLen ds + 1)
        | ds2 => .ok (.Real (sgn ++ ds ++ '.' :: ds2), sgn.length + ds.length + 1 + ds2.length)
      else .error (byteLen sgn + byteLen ds)
    | [] => .error (byteLen sgn + byteLen ds)

def real : List Char → Except Nat (Token × Nat)
  | '-' :: rest => realTail ['-'] rest
  | cs => realTail [] cs

def numTail (sgn rest : List Char) : Except Nat (Token × Nat) :=
  match rest.takeWhile Char.isDigit with
  | [] => .error (byteLen sgn)
  | ds => .ok (.Num (sgn ++ ds), sgn.length + ds.length)

def num : List Char → Except Nat (Token × Nat)
  | '-' :: rest => numTail ['-'] rest
  | cs => numTail [] cs

theorem realTail_ok_bounds {sgn rest : List Char} {t : Token} {n : Nat}
    (h : realTail sgn rest = .ok (t, n)) :
    1 ≤ n ∧ n ≤ sgn.length + rest.length := by
  unfold realTail at h
  rcases hds : rest.takeWhile Char.isDigit with _ | ⟨d1, ds⟩
  · rw [hds] at h; try simp only [] at h
    exact absurd h (by simp)
  · rw [hds] at h
    try simp only [] at h
    rcases hdrop : rest.dropWhile Char.isDigit with _ | ⟨c2, rest2⟩
    · rw [hdrop] at h; try simp only [] at h
      exact absurd h (by simp)
    · rw [hdrop] at h
      try simp only [] at h
      split at h
      · rcases hds2 : rest2.takeWhile Char.isDigit with _ | ⟨e2, ds2⟩
        · rw [hds2] at h; try simp only [] at h
          exact absurd h (by simp)
        · rw [hds2] at h
          try simp only [] at h
          injection h with h1
          injection h1 with h2 h3
          subst h3
          have e1 := congrArg List.length (List.takeWhile_append_dropWhile
            (p := Char.isDigit) (l := rest))
          rw [List.length_append, hds, hdrop] at e1
          have e2l : (e2 :: ds2).length ≤ rest2.length := by
            rw [← hds2]; exact takeWhile_length_le _ _
          simp only [List.length_cons] at e1 e2l ⊢
          omega
      · exact absurd h (by simp)

theorem realTail_error_le {sgn rest : List Char} {d : Nat}
    (h : realTail sgn rest = .error d) : d ≤ byteLen sgn + byteLen rest := by
  unfold realTail at h
  rcases hds : rest.takeWhile Char.isDigit with _ | ⟨d1, ds⟩
  · rw [hds] at h
    try simp only [] at h
    injection h with h1
    omega
  · rw [hds] at h
    try simp only [] at h
    have e1 := congrArg byteLen (List.takeWhile_append_dropWhile
      (p := Char.isDigit) (l := rest))
    rw [byteLen_append, hds] at e1
    rcases hdrop : rest.dropWhile Char.isDigit with _ | ⟨c2, rest2⟩
    · rw [hdrop] at h
      try simp only [] at h
      injection h with h1
      subst h1
      omega
    · rw [hdrop] at h
      try simp only [] at h
      rw [hdrop] at e1
      have hc2pos := c2.utf8Size_pos
      split at h
      · rcases hds2 : rest2.takeWhile Char.isDigit with _ | ⟨e2, ds2⟩
        · rw [hds2] at h
          try simp only [] at h
          injection h with h1
          subst h1
          simp only [byteLen] at e1 ⊢
          omega
        · rw [hds2] at h; try simp only [] at h
          exact absurd h (by simp)
      · injection h with h1
        subst h1
        simp only [byteLen] at e1 ⊢
        omega

theorem real_ok_bounds {cs : List Char} {t : Token} {n : Nat}
    (h : real cs = .ok (t, n)) : 1 ≤ n ∧ n ≤ cs.length := by
  unfold real at h
  split at h <;>
    (have hb := realTail_ok_bounds h
     simp only [List.length_nil, List.length_cons, List.length_singleton] at hb ⊢
     omega)

theorem real_error_le {cs : List Char} {d : Nat} (h : real cs = .error d) :
    d ≤ byteLen cs := by
  unfold real at h
  split at h <;>
    (have hb := realTail_error_le h
     simp only [byteLen] at hb ⊢
     omega)

theorem numTail_ok_bounds {sgn rest : List Char} {t : Token} {n : Nat}
    (h : numTail sgn rest = .ok (t, n)) :
    1 ≤ n ∧ n ≤ sgn.length + rest.length := by
  unfold numTail at h
  rcases hds : rest.takeWhile Char.isDigit with _ | ⟨d1, ds⟩
  · rw [hds] at h; try simp only [] at h; exact absurd h (by simp)
  · rw [hds] at h
    try simp only [] at h
    injection h with h1
    injection h1 with h2 h3
    subst h3
    have : (d1 :: ds).length ≤ rest.length := by
      rw [← hds]; exact takeWhile_length_le _ _
    simp only [List.length_cons] at this ⊢
    omega

theorem numTail_error_le {sgn rest : List Char} {d : Nat}
    (h : numTail sgn rest = .error d) : d ≤ byteLen sgn + byteLen rest := by
  unfold numTail at h
  rcases hds : rest.takeWhile Char.isDigit with _ | ⟨d1, ds⟩
  · rw [hds] at h
    try simp only [] at h
    injection h with h1
    omega
  · rw [hds] at h; try simp only [] at h; exact absurd h (by simp)

theorem num_ok_bounds {cs : List Char} {t : Token} {n : Nat}
    (h : num cs = .ok (t, n)) : 1 ≤ n ∧ n ≤ cs.length := by
  unfold num at h
  split at h <;>
    (have hb := numTail_ok_bounds h
     simp only [List.length_nil, List.length_cons, List.length_singleton] at hb ⊢
     omega)

theorem num_error_le {cs : List Char} {d : Nat} (h : num cs = .error d) :
    d ≤ byteLen cs := by
  unfold num at h
  split at h
  · have := numTail_error_le h
    have hb : byteLen ['-'] = 1 := by decide
    rw [hb] at this
    have hm : ('-').utf8Size = 1 := by decide
    simp only [byteLen, hm]
    omega
  · have := numTail_error_le h
    have hb : byteLen ([] : List Char) = 0 := rfl
    rw [hb] at this
    omega

/-- The `escape` parser after its leading backslash: `.ok m` consumes `m`
characters; `.error e` fails at byte offset `e` counted from the character
after the backslash.  The escape `choice` keeps the error that got furthest
(`Rich` errors), so a bad or missing digit of a `\d`/`\x` escape is reported
at that digit, not at the `d`/`x` itself; for any other bad escape character
every branch fails at offset 0.  The `try_map` over `char::from_u32` cannot
fail: three decimal digits give at most 999 and two hex digits at most 255,
both valid scalar values. -/
def escLen : List Char → Except Nat Nat
  | [] => .error 0
  | c :: rest =>
    if c = '\\' || c = '"' || c = '\'' || c = 'n' || c = 't' || c = 'b' || c = 'r' ||
        c = '\n' then
      .ok 1
    else if c = 'd' then
      match rest with
      | d1 :: d2 :: d3 :: _ =>
        if d1.isDigit then
          if d2.isDigit then
            if d3.isDigit then .ok 4 else .error 3
          else .error 2
        else .error 1
      | [d1, d2] =>
        if d1.isDigit then (if d2.isDigit then .error 3 else .error 2) else .error 1
      | [d1] => if d1.isDigit then .error 2 else .error 1
      | [] => .error 1
    else if c = 'x' then
      match rest with
      | h1 :: h2 :: _ =>
        if isHexDigitChar h1 then (if isHexDigitChar h2 then .ok 3 else .error 2)
        else .error 1
      | [h1] => if isHexDigitChar h1 then .error 2 else .error 1
      | [] => .error 1
    else .error 0

set_option maxHeartbeats 1600000 in
theorem escLen_bounds {cs : List Char} {m : Nat} (h : escLen cs = .ok m) :
    1 ≤ m ∧ m ≤ cs.length := by
  match cs with
  | [] => simp [escLen] at h
  | c :: rest =>
    simp only [escLen] at h
    split at h
    · injection h with h1
      subst h1
      simp only [List.length_cons]
      omega
    · split at h
      · match rest with
        | d1 :: d2 :: d3 :: r =>
          try simp only [] at h
          split at h
          · split at h
            · split at h
              · injection h with h1
                subst h1
                simp only [List.length_cons]
                omega
              · exact absurd h (by simp)
            · exact absurd h (by simp)
          · exact absurd h (by simp)
        | [] =>
          try simp only [] at h
          exact absurd h (by simp)
        | [d1] =>
          try simp only [] at h
          split at h <;> exact absurd h (by simp)
        | [d1, d2] =>
          try simp only [] at h
          split at h
          · split at h <;> exact absurd h (by simp)
          · exact absurd h (by simp)
      · split at h
        · match rest with
          | h1c :: h2c :: r =>
            try simp only [] at h
            split at h
            · split at h
              · injection h with h1
                subst h1
                simp only [List.length_cons]
                omega
              · exact absurd h (by simp)
            · exact absurd h (by simp)
          | [] =>
            try simp only [] at h
            exact absurd h (by simp)
          | [h1c] =>
            try simp only [] at h
            split at h <;> exact absurd h (by simp)
        · exact absurd h (by simp)

set_option maxHeartbeats 1600000 in
theorem escLen_error_le {cs : List Char} {e : Nat} (h : escLen cs = .error e) :
    e ≤ byteLen cs := by
  match cs with
  | [] =>
    simp only [escLen] at h
    injection h with h1
    omega
  | c :: rest =>
    have hc := c.utf8Size_pos
    simp only [escLen] at h
    split at h
    · exact absurd h (by simp)
    · split at h
      · match rest with
        | d1 :: d2 :: d3 :: r =>
          have h1p := d1.utf8Size_pos
          have h2p := d2.utf8Size_pos
          have h3p := d3.utf8Size_pos
          try simp only [] at h
          split at h
          · split at h
            · split at h
              · exact absurd h (by simp)
              · injection h with h1
                simp only [byteLen]
                omega
            · injection h with h1
              simp only [byteLen]
              omega
          · injection h with h1
            simp only [byteLen]
            omega
        | [] =>
          try simp only [] at h
          injection h with h1
          simp only [byteLen]
          omega
        | [d1] =>
          have h1p := d1.utf8Size_pos
          try simp only [] at h
          split at h <;> (injection h with h1; simp only [byteLen]; omega)
        | [d1, d2] =>
          have h1p := d1.utf8Size_pos
          have h2p := d2.utf8Size_pos
          try simp only [] at h
          split at h
          · split at h <;> (injection h with h1; simp only [byteLen]; omega)
          · injection h with h1
            simp only [byteLen]
            omega
      · split at h
        · match rest with
          | h1c :: h2c :: r =>
            have h1p := h1c.utf8Size_pos
            have h2p := h2c.utf8Size_pos
            try simp only [] at h
            split at h
            · split at h
              · exact absurd h (by simp)
              · injection h with h1
                simp only [byteLen]
                omega
            · injection h with h1
              simp only [byteLen]
              omega
          | [] =>
            try simp only [] at h
            injection h with h1
            simp only [byteLen]
            omega
          | [h1c] =>
            have h1p := h1c.utf8Size_pos
            try simp only [] at h
            split at h <;> (injection h with h1; simp only [byteLen]; omega)
        · injection h with h1
          omega

/-- Body of a string literal after the opening quote: `.ok n` consumes `n`
characters including the closing quote; `.error d` fails at byte offset `d`
(the furthest failure, as chumsky keeps for `Rich` errors: a bad escape is
reported inside the escape, past the point where `repeated` rewinds to expect
the closing quote).  The first argument is structural fuel — one unit per
parsed item; callers pass the remaining length, which suffices because every
item consumes at least one character. -/
def strBody : Nat → List Char → Except Nat Nat
  | 0, _ => .error 0
  | fuel + 1, cs =>
    match cs with
    | [] => .error 0
    | c :: rest =>
      if c = '"' then .ok 1
      else if c = '\\' then
        match escLen rest with
        | .ok m =>
          match strBody fuel (rest.drop m) with
          | .ok n => .ok (1 + m + n)
          | .error d => .error (1 + byteLen (rest.take m) + d)
        | .error e => .error (1 + e)
      else
        match strBody fuel rest with
        | .ok n => .ok (1 + n)
        | .error d => .error (c.utf8Size + d)

set_option maxHeartbeats 1600000 in
theorem strBody_bounds (N : Nat) : ∀ cs : List Char, cs.length ≤ N →
    (∀ n, strBody N cs = .ok n → 1 ≤ n ∧ n ≤ cs.length) ∧
    (∀ d, strBody N cs = .error d → d ≤ byteLen cs) := by
  induction N with
  | zero =>
    intro cs hlen
    constructor
    · intro n hn
      simp [strBody] at hn
    · intro d hd
      simp only [strBody] at hd
      injection hd with h1
      omega
  | succ N ih =>
    intro cs hlen
    match cs with
    | [] =>
      constructor
      · intro n hn
        simp [strBody] at hn
      · intro d hd
        simp only [strBody] at hd
        injection hd with h1
        omega
    | c :: rest =>
      have hcpos := c.utf8Size_pos
      constructor
      · intro n hn
        simp only [strBody] at hn
        split at hn
        · injection hn with h1
          subst h1
          simp only [List.length_cons]
          omega
        · split at hn
          · rcases hm : escLen rest with e | m
            · rw [hm] at hn; try simp only [] at hn; exact absurd hn (by simp)
            · rw [hm] at hn
              try simp only [] at hn
              have hmb := escLen_bounds hm
              rcases hs : strBody N (rest.drop m) with d' | n'
              · rw [hs] at hn; try simp only [] at hn; exact absurd hn (by simp)
              · rw [hs] at hn
                try simp only [] at hn
                injection hn with h1
                subst h1
                have hrec := ((ih (rest.drop m) (by
                  simp only [List.length_drop]
                  simp only [List.length_cons] at hlen
                  omega)).1 n' hs)
                simp only [List.length_drop] at hrec
                simp only [List.length_cons]
                omega
          · rcases hs : strBody N rest with d' | n'
            · rw [hs] at hn; try simp only [] at hn; exact absurd hn (by simp)
            · rw [hs] at hn
              try simp only [] at hn
              injection hn with h1
              subst h1
              have hrec := ((ih rest (by
                simp only [List.length_cons] at hlen
                omega)).1 n' hs)
              simp only [List.length_cons]
              omega
      · intro d hd
        simp only [strBody] at hd
        split at hd
        · exact absurd hd (by simp)
        · split at hd
          · rcases hm : escLen rest with e | m
            · rw [hm] at hd
              try simp only [] at hd
              injection hd with h1
              subst h1
              have := escLen_error_le hm
              simp only [byteLen]
              omega
            · rw [hm] at hd
              try simp only [] at hd
              rcases hs : strBody N (rest.drop m) with d' | n'
              · rw [hs] at hd
                try simp only [] at hd
                injection hd with h1
                subst h1
                have hrec := ((ih (rest.drop m) (by
                  simp only [List.length_drop]
                  simp only [List.length_cons] at hlen
                  omega)).2 d' hs)
                have hsplit := congrArg byteLen (List.take_append_drop m rest)
                rw [byteLen_append] at hsplit
                simp only [byteLen]
                omega
              · rw [hs] at hd; try simp only [] at hd; exact absurd hd (by simp)
          · rcases hs : strBody N rest with d' | n'
            · rw [hs] at hd
              try simp only [] at hd
              injection hd with h1
              subst h1
              have hrec := ((ih rest (by
                simp only [List.length_cons] at hlen
                omega)).2 d' hs)
              simp only [byteLen]
              omega
            · rw [hs] at hd; try simp only [] at hd; exact absurd hd (by simp)

def stringTok : List Char → Except Nat (Token × Nat)
  | [] => .error 0
  | c :: rest =>
    if c = '"' then
      match strBody rest.length rest with
      | .ok n => .ok (.StringLit (c :: rest.take n), 1 + n)
      | .error d => .error (1 + d)
    else .error 0

theorem stringTok_ok_bounds {cs : List Char} {t : Token} {n : Nat}
    (h : stringTok cs = .ok (t, n)) : 1 ≤ n ∧ n ≤ cs.length := by
  match cs with
  | [] => simp [stringTok] at h
  | c :: rest =>
    simp only [stringTok] at h
    split at h
    · rcases hs : strBody rest.length rest with d' | n'
      · rw [hs] at h; try simp only [] at h; exact absurd h (by simp)
      · rw [hs] at h
        try simp only [] at h
        injection h with h1
        injection h1 with h2 h3
        subst h3
        have := (strBody_bounds rest.length rest (le_refl _)).1 n' hs
        simp only [List.length_cons]
        omega
    · exact absurd h (by simp)

theorem stringTok_error_le {cs : List Char} {d : Nat} (h : stringTok cs = .error d) :
    d ≤ byteLen cs := by
  match cs with
  | [] =>
    simp only [stringTok] at h
    injection h with h1
    omega
  | c :: rest =>
    simp only [stringTok] at h
    have hcpos := c.utf8Size_pos
    split at h
    · rcases hs : strBody rest.length rest with d' | n'
      · rw [hs] at h
        try simp only [] at h
        injection h with h1
        subst h1
        have := (strBody_bounds rest.length rest (le_refl _)).2 d' hs
        simp only [byteLen]
        omega
      · rw [hs] at h; try simp only [] at h; exact absurd h (by simp)
    · injection h with h1
      omega

def keywords : List (List Char) :=
  [ "and", "as", "assert", "backwards", "barr", "bitfield", "bitone", "bitzero",
    "Bool", "by", "cast", "catch", "clause", "configuration", "constant",
    "constraint", "dec", "default", "depend", "do", "eamem", "effect", "else",
    "end", "enum", "escape", "exit", "exmem", "false", "forall", "foreach",
    "forwards", "function", "if", "impl", "in", "inc", "infix", "infixl",
    "infixr", "instantiation", "Int", "let", "mapping", "match", "monadic",
    "mutual", "mwv", "newtype", "nondet", "Order", "outcome", "overload",
    "pure", "ref", "register", "repeat", "return", "rmem", "rreg", "scattered",
    "sizeof", "struct", "termination_measure", "then", "throw", "true", "try",
    "type", "Type", "undef", "undefined", "union", "unspec", "until", "val",
    "var", "while", "with", "wmem", "wreg" ].map String.data

def identTok (cs : List Char) : Except Nat (Token × Nat) :=
  match identLen cs with
  | some n => .ok (if cs.take n ∈ keywords then .Kw (cs.take n) else .Id (cs.take n), n)
  | none => .error 0

theorem identTok_ok_bounds {cs : List Char} {t : Token} {n : Nat}
    (h : identTok cs = .ok (t, n)) : 1 ≤ n ∧ n ≤ cs.length := by
  unfold identTok at h
  rcases hm : identLen cs with _ | m
  · rw [hm] at h; try simp only [] at h; exact absurd h (by simp)
  · rw [hm] at h
    try simp only [] at h
    injection h with h1
    injection h1 with h2 h3
    subst h3
    exact identLen_bounds hm

theorem identTok_error_le {cs : List Char} {d : Nat} (h : identTok cs = .error d) :
    d ≤ byteLen cs := by
  unfold identTok at h
  rcases hm : identLen cs with _ | m
  · rw [hm] at h
    try simp only [] at h
    injection h with h1
    omega
  · rw [hm] at h; try simp only [] at h; exact absurd h (by simp)

def opTable : List (List Char) :=
  [ "|\x7d", "|]", ">=", "=>", "==", "<=", "<->", "<-", "\x7b|", "[|", "()",
    "!=", "::", "->",
    "$", "|", ">", "=", "<", "+", "^", "%", "&", "/", "*", "@", "\x7d",
    "\x7b", "]", "[", ")", "(", ".", ":", ";", ",", "-", "_" ].map String.data

def opGo : List (List Char) → List Char → Nat → Except Nat (Token × Nat)
  | [], _, d => .error d
  | s :: ss, cs, d =>
    match matchLit s cs with
    | .ok _ => .ok (.Op s, s.length)
    | .error d' => opGo ss cs (max d d')

def op (cs : List Char) : Except Nat (Token × Nat) :=
  opGo opTable cs 0

theorem opGo_ok_bounds {table : List (List Char)} {cs : List Char} {t : Token} {n d0 : Nat}
    (hne : ∀ s ∈ table, s ≠ []) (h : opGo table cs d0 = .ok (t, n)) :
    1 ≤ n ∧ n ≤ cs.length := by
  induction table generalizing d0 with
  | nil => simp [opGo] at h
  | cons s ss ih =>
    simp only [opGo] at h
    rcases hm : matchLit s cs with d' | rest
    · rw [hm] at h
      try simp only [] at h
      exact ih (fun x hx => hne x (List.mem_cons_of_mem _ hx)) h
    · rw [hm] at h
      try simp only [] at h
      injection h with h1
      injection h1 with h2 h3
      subst h3
      have hpre := matchLit_ok_prefix hm
      have hs : s ≠ [] := hne s (List.mem_cons_self _ _)
      have := List.length_pos.mpr hs
      rw [hpre, List.length_append]
      omega

theorem opGo_error_le {table : List (List Char)} {cs : List Char} {d d0 : Nat}
    (hd0 : d0 ≤ byteLen cs) (h : opGo table cs d0 = .error d) :
    d ≤ byteLen cs := by
  induction table generalizing d0 with
  | nil =>
    simp only [opGo] at h
    injection h with h1
    omega
  | cons s ss ih =>
    simp only [opGo] at h
    rcases hm : matchLit s cs with d' | rest
    · rw [hm] at h
      try simp only [] at h
      have := matchLit_error_le hm
      exact ih (by omega) h
    · rw [hm] at h; try simp only [] at h; exact absurd h (by simp)

theorem op_ok_bounds {cs : List Char} {t : Token} {n : Nat}
    (h : op cs = .ok (t, n)) : 1 ≤ n ∧ n ≤ cs.length :=
  opGo_ok_bounds (by decide) h

theorem op_error_le {cs : List Char} {d : Nat} (h : op cs = .error d) :
    d ≤ byteLen cs :=
  opGo_error_le (Nat.zero_le _) h

def choiceTok : List (List Char → Except Nat (Token × Nat)) → List Char → Nat →
    Except Nat (Token × Nat)
  | [], _, d => .error d
  | f :: fs, cs, d =>
    match f cs with
    | .ok r => .ok r
    | .error d' => choiceTok fs cs (max d d')

def matchToken (cs : List Char) : Except Nat (Token × Nat) :=
  choiceTok [tyvar, hex, bin, real, num, stringTok, identTok, op] cs 0

theorem choiceTok_ok_bounds {alts : List (List Char → Except Nat (Token × Nat))}
    {cs : List Char} {t : Token} {n d0 : Nat}
    (halts : ∀ f ∈ alts, ∀ t' n', f cs = .ok (t', n') → 1 ≤ n' ∧ n' ≤ cs.length)
    (h : choiceTok alts cs d0 = .ok (t, n)) : 1 ≤ n ∧ n ≤ cs.length := by
  induction alts generalizing d0 with
  | nil => simp [choiceTok] at h
  | cons f fs ih =>
    simp only [choiceTok] at h
    rcases hm : f cs with d' | r
    · rw [hm] at h
      try simp only [] at h
      exact ih (fun g hg => halts g (List.mem_cons_of_mem _ hg)) h
    · rw [hm] at h
      try simp only [] at h
      injection h with h1
      subst h1
      exact halts f (List.mem_cons_self _ _) t n hm

theorem choiceTok_error_le {alts : List (List Char → Except Nat (Token × Nat))}
    {cs : List Char} {d d0 : Nat}
    (halts : ∀ f ∈ alts, ∀ d', f cs = .error d' → d' ≤ byteLen cs)
    (hd0 : d0 ≤ byteLen cs)
    (h : choiceTok alts cs d0 = .error d) : d ≤ byteLen cs := by
  induction alts generalizing d0 with
  | nil =>
    simp only [choiceTok] at h
    injection h with h1
    omega
  | cons f fs ih =>
    simp only [choiceTok] at h
    rcases hm : f cs with d' | r
    · rw [hm] at h
      try simp only [] at h
      have := halts f (List.mem_cons_self _ _) d' hm
      exact ih (fun g hg => halts g (List.mem_cons_of_mem _ hg)) (by omega) h
    · rw [hm] at h; try simp only [] at h; exact absurd h (by simp)

theorem matchToken_ok_bounds {cs : List Char} {t : Token} {n : Nat}
    (h : matchToken cs = .ok (t, n)) : 1 ≤ n ∧ n ≤ cs.length := by
  refine choiceTok_ok_bounds ?_ h
  intro f hf t' n' hfok
  simp only [List.mem_cons, List.not_mem_nil, or_false] at hf
  rcases hf with rfl | rfl | rfl | rfl | rfl | rfl | rfl | rfl
  · exact tyvar_ok_bounds hfok
  · exact hex_ok_bounds hfok
  · exact bin_ok_bounds hfok
  · exact real_ok_bounds hfok
  · exact num_ok_bounds hfok
  · exact stringTok_ok_bounds hfok
  · exact identTok_ok_bounds hfok
  · exact op_ok_bounds hfok

theorem matchToken_error_le {cs : List Char} {d : Nat}
    (h : matchToken cs = .error d) : d ≤ byteLen cs := by
  refine choiceTok_error_le ?_ (Nat.zero_le _) h
  intro f hf d' hferr
  simp only [List.mem_cons, List.not_mem_nil, or_false] at hf
  rcases hf with rfl | rfl | rfl | rfl | rfl | rfl | rfl | rfl
  · exact tyvar_error_le hferr
  · exact hex_error_le hferr
  · exact bin_error_le hferr
  · exact real_error_le hferr
  · exact num_error_le hferr
  · exact stringTok_error_le hferr
  · exact identTok_error_le hferr
  · exact op_error_le hferr



def blockEnd : List Char → Option Nat
  | [] => none
  | c :: rest =>
    if c = '*' ∧ rest.head? = some '/' then some 2
    else (blockEnd rest).map (1 + ·)

theorem blockEnd_bounds {cs : List Char} {n : Nat} (h : blockEnd cs = some n) :
    2 ≤ n ∧ n ≤ cs.length := by
  induction cs generalizing n with
  | nil => simp [blockEnd] at h
  | cons c rest ih =>
    simp only [blockEnd] at h
    split at h
    · rename_i hcond
      injection h with h1
      subst h1
      match rest, hcond.2 with
      | r0 :: rs, _ => simp only [List.length_cons]; omega
    · rcases hb : blockEnd rest with _ | m
      · rw [hb] at h; try simp only [] at h
        exact absurd h (by simp)
      · rw [hb] at h
        try simp only [Option.map_some'] at h
        injection h with h1
        subst h1
        have := ih hb
        simp only [List.length_cons]
        omega

def skipComment : List Char → Option Nat
  | '/' :: '/' :: r => some (2 + (r.takeWhile (· != '\n')).length)
  | '/' :: '*' :: r => (blockEnd r).map (2 + ·)
  | _ => none

theorem skipComment_bounds {cs : List Char} {n : Nat} (h : skipComment cs = some n) :
    2 ≤ n ∧ n ≤ cs.length := by
  unfold skipComment at h
  split at h
  · rename_i r
    injection h with h1
    subst h1
    have := takeWhile_length_le (· != '\n') r
    simp only [List.length_cons]
    omega
  · rename_i r
    rcases hb : blockEnd r with _ | m
    · rw [hb] at h; try simp only [] at h
      exact absurd h (by simp)
    · rw [hb] at h
      try simp only [Option.map_some'] at h
      injection h with h1
      subst h1
      have := blockEnd_bounds hb
      simp only [List.length_cons]
      omega
  · exact absurd h (by simp)

theorem dropWhile_length_le (p : Char → Bool) (l : List Char) :
    (l.dropWhile p).length ≤ l.length := by
  have := congrArg List.length (List.takeWhile_append_dropWhile (p := p) (l := l))
  rw [List.length_append] at this
  omega

theorem byteLen_dropWhile_le (p : Char → Bool) (l : List Char) :
    byteLen (l.dropWhile p) ≤ byteLen l := by
  have := congrArg byteLen (List.takeWhile_append_dropWhile (p := p) (l := l))
  rw [byteLen_append] at this
  omega

theorem byteLen_drop_le' (l : List Char) (k : Nat) : byteLen (l.drop k) ≤ byteLen l := by
  conv_rhs => rw [← List.take_append_drop k l]
  rw [byteLen_append]; omega

/-- Rust `char::is_whitespace` (the Unicode `White_Space` property), used both
by chumsky's `padded()` and by `str::trim`.  Lean's own whitespace predicate
only covers the ASCII cases, so the full table is spelled out. -/
def isRustWhitespace (c : Char) : Bool :=
  c.toNat = 0x09 || c.toNat = 0x0A || c.toNat = 0x0B || c.toNat = 0x0C ||
  c.toNat = 0x0D || c.toNat = 0x20 || c.toNat = 0x85 || c.toNat = 0xA0 ||
  c.toNat = 0x1680 || (0x2000 ≤ c.toNat && c.toNat ≤ 0x200A) ||
  c.toNat = 0x2028 || c.toNat = 0x2029 || c.toNat = 0x202F ||
  c.toNat = 0x205F || c.toNat = 0x3000

def skipTrivia : Nat → List Char → List Char
  | 0, cs => cs
  | fuel + 1, cs =>
    match skipComment (cs.dropWhile isRustWhitespace) with
    | some n => skipTrivia fuel ((cs.dropWhile isRustWhitespace).drop n)
    | none => cs.dropWhile isRustWhitespace

theorem skipTrivia_le (fuel : Nat) : ∀ cs : List Char,
    (skipTrivia fuel cs).length ≤ cs.length ∧
    byteLen (skipTrivia fuel cs) ≤ byteLen cs := by
  induction fuel with
  | zero => intro cs; exact ⟨le_refl _, le_refl _⟩
  | succ fuel ih =>
    intro cs
    simp only [skipTrivia]
    rcases hc : skipComment (cs.dropWhile isRustWhitespace) with _ | n
    · exact ⟨dropWhile_length_le _ _, byteLen_dropWhile_le _ _⟩
    · have h1 := ih ((cs.dropWhile isRustWhitespace).drop n)
      have h2 : ((cs.dropWhile isRustWhitespace).drop n).length ≤ cs.length := by
        have := dropWhile_length_le isRustWhitespace cs
        simp only [List.length_drop]
        omega
      have h3 : byteLen ((cs.dropWhile isRustWhitespace).drop n) ≤ byteLen cs := by
        have := byteLen_drop_le' (cs.dropWhile isRustWhitespace) n
        have := byteLen_dropWhile_le isRustWhitespace cs
        omega
      exact ⟨le_trans h1.1 h2, le_trans h1.2 h3⟩

theorem skipTrivia_fuel_stable (fuel : Nat) : ∀ cs : List Char,
    cs.length < fuel → ∀ fuel', cs.length < fuel' →
    skipTrivia fuel cs = skipTrivia fuel' cs := by
  induction fuel with
  | zero => intro cs h; omega
  | succ fuel ih =>
    intro cs hcs fuel' hcs'
    match fuel', hcs' with
    | fuel'' + 1, _ =>
      simp only [skipTrivia]
      rcases hc : skipComment (cs.dropWhile isRustWhitespace) with _ | n
      · rfl
      · have hb := skipComment_bounds hc
        have hd := dropWhile_length_le isRustWhitespace cs
        have hlen : ((cs.dropWhile isRustWhitespace).drop n).length < fuel ∧
            ((cs.dropWhile isRustWhitespace).drop n).length < fuel'' := by
          simp only [List.length_drop]
          omega
        exact ih _ hlen.1 fuel'' hlen.2

def recoverGo : List Char → Option (Token × List Char)
  | [] => none
  | _ :: rest =>
    match matchToken rest with
    | .ok (tok, n) => some (tok, rest.drop n)
    | .error _ => recoverGo rest

theorem recoverGo_bounds {cs : List Char} {t : Token} {r : List Char}
    (h : recoverGo cs = some (t, r)) :
    r.length < cs.length ∧ byteLen r ≤ byteLen cs := by
  induction cs generalizing t r with
  | nil => simp [recoverGo] at h
  | cons c rest ih =>
    simp only [recoverGo] at h
    rcases hm : matchToken rest with d | ⟨tok, n⟩
    · rw [hm] at h
      try simp only [] at h
      have := ih h
      have hpos := c.utf8Size_pos
      simp only [List.length_cons, byteLen]
      omega
    · rw [hm] at h
      try simp only [] at h
      injection h with h1
      injection h1 with h2 h3
      subst h2 h3
      have hpos := c.utf8Size_pos
      have := byteLen_drop_le' rest n
      simp only [List.length_cons, List.length_drop, byteLen]
      omega

/-- The `repeated` loop of the lexer pipeline, called with the remainder that
follows the previous token.  In the source each iteration is
`token.map_with_span(..).padded_by(comment.repeated()).padded()`, so the
trivia following a token belongs to that token's (successful) iteration:
when what remains after a token is nothing but trivia, it is consumed as
trailing padding and the next iteration starts at the end of input, where
`then_ignore(end())` succeeds — hence the empty-after-trivia case here
returns a successful empty tail.  (The one case where trivia precedes no
token at all — a whole input of nothing but trivia — belongs to the *first*
iteration and fails instead; `lexFull` handles it.)  On a token-choice
failure, `skip_then_retry_until(any(), end())` skips characters until the
token parser succeeds again (`recoverGo`), emitting the error that triggered
the recovery; if it reaches the end of input the whole parse fails with that
same error — as in the source, where a failed recovery reports the error
that invoked it — and no token list is produced. -/
def lexLoop (total : Nat) : Nat → List Char → Option (List (Token × Nat × Nat)) × List (Nat × Nat)
  | 0, _ => (none, [])
  | fuel + 1, cs =>
    if (skipTrivia (cs.length + 1) cs) = [] then (some [], [])
    else
      match matchToken (skipTrivia (cs.length + 1) cs) with
      | .ok (tok, n) =>
        let cs1 := skipTrivia (cs.length + 1) cs
        let rest := cs1.drop n
        let r := lexLoop total fuel rest
        (r.1.map (fun ts => (tok, total - byteLen cs1, total - byteLen rest) :: ts), r.2)
      | .error d =>
        let cs1 := skipTrivia (cs.length + 1) cs
        let ep := total - byteLen cs1 + d
        let espan :=
          match dropBytes? cs1 d with
          | some (c :: _) => (ep, ep + c.utf8Size)
          | _ => (ep, ep)
        match recoverGo cs1 with
        | some (tok, rest) =>
          let r := lexLoop total fuel rest
          (r.1.map (fun ts => (tok, total - byteLen cs1, total - byteLen rest) :: ts),
            espan :: r.2)
        | none => (none, [espan])

/-- `lexer().parse(input)`.  A non-empty input consisting of nothing but
whitespace and comments is the one case where leading trivia belongs to an
iteration that finds no token: that first iteration's token parse fails at
the end of input, its recovery fails at once (`until` = `end()` matches), the
`repeated` rewinds the iteration and `then_ignore(end())` fails on the
unconsumed trivia; the reported error is the iteration's original failure at
the end of input, span `(len, len)`.  Every other input proceeds token by
token through `lexLoop`. -/
def lexFull (input : List Char) : Option (List (Token × Nat × Nat)) × List (Nat × Nat) :=
  if skipTrivia (input.length + 1) input = [] ∧ input ≠ [] then
    (none, [(byteLen input, byteLen input)])
  else lexLoop (byteLen input) (input.length + 1) input

theorem lexLoop_err_bounds (total : Nat) (fuel : Nat) : ∀ cs : List Char,
    byteLen cs ≤ total →
    ∀ ab ∈ (lexLoop total fuel cs).2, ab.1 ≤ ab.2 ∧ ab.2 ≤ total := by
  induction fuel with
  | zero => intro cs _ ab hab; simp [lexLoop] at hab
  | succ fuel ih =>
    intro cs hcs ab hab
    simp only [lexLoop] at hab
    have hb1 := (skipTrivia_le (cs.length + 1) cs).2
    split at hab
    · simp at hab
    · rename_i hne
      rcases hm : matchToken (skipTrivia (cs.length + 1) cs) with d | ⟨tok, n⟩
      · rw [hm] at hab
        try simp only [] at hab
        have hd := matchToken_error_le hm
        rcases hr : recoverGo (skipTrivia (cs.length + 1) cs) with _ | ⟨tok, rest⟩
        · rw [hr] at hab
          try simp only [] at hab
          simp only [List.mem_singleton] at hab
          subst hab
          rcases hdb : dropBytes? (skipTrivia (cs.length + 1) cs) d with _ | l
          · simp only []
            omega
          · match l with
            | [] =>
              simp only []
              omega
            | c :: l' =>
              have := dropBytes?_byteLen hdb
              simp only [byteLen] at this
              simp only []
              omega
        · rw [hr] at hab
          try simp only [] at hab
          have hrb := (recoverGo_bounds hr).2
          simp only [List.mem_cons] at hab
          rcases hab with rfl | hab
          · rcases hdb : dropBytes? (skipTrivia (cs.length + 1) cs) d with _ | l
            · simp only []
              omega
            · match l with
              | [] =>
                simp only []
                omega
              | c :: l' =>
                have := dropBytes?_byteLen hdb
                simp only [byteLen] at this
                simp only []
                omega
          · exact ih rest (by omega) ab hab
      · rw [hm] at hab
        try simp only [] at hab
        have hdrop := byteLen_drop_le' (skipTrivia (cs.length + 1) cs) n
        exact ih _ (by omega) ab hab

theorem lexLoop_fuel_stable (total : Nat) (fuel : Nat) : ∀ cs : List Char,
    cs.length < fuel → ∀ fuel', cs.length < fuel' →
    lexLoop total fuel cs = lexLoop total fuel' cs := by
  induction fuel with
  | zero => intro cs h; omega
  | succ fuel ih =>
    intro cs hcs fuel' hcs'
    match fuel', hcs' with
    | fuel'' + 1, _ =>
      simp only [lexLoop]
      have hle := (skipTrivia_le (cs.length + 1) cs).1
      split
      · rfl
      · rename_i hne
        have hpos : 0 < (skipTrivia (cs.length + 1) cs).length :=
          List.length_pos.mpr hne
        rcases hm : matchToken (skipTrivia (cs.length + 1) cs) with d | ⟨tok, n⟩
        · rcases hr : recoverGo (skipTrivia (cs.length + 1) cs) with _ | ⟨tok, rest⟩
          · rfl
          · have hrb := (recoverGo_bounds hr).1
            have h1 : rest.length < fuel := by omega
            have h2 : rest.length < fuel'' := by omega
            simp only []
            rw [ih rest h1 fuel'' h2]
        · have hn := matchToken_ok_bounds hm
          have hlt : ((skipTrivia (cs.length + 1) cs).drop n).length <
              (skipTrivia (cs.length + 1) cs).length := by
            simp only [List.length_drop]
            omega
          simp only []
          rw [ih _ (by omega) fuel'' (by omega)]


/-- **C3** (corrected): every lex-error span lies within `[0, byteLen input]`
(closed at the right — the end-of-input failure produces the empty span
`(len, len)`, so the claim's half-open `[0, len)` is already too strong).
The totality half of the claim is false — the pipeline's final
`then_ignore(end())` makes the whole parse fail when error recovery reaches
the end of input without finding another token, so for some inputs no token
list is produced at all — and the disjointness half is false as well: a
string literal with a bad `\d` escape makes the same span be emitted twice
(see the counterexample for both). -/
theorem C3_lex_error_spans_in_bounds (input : List Char) :
    ∀ ab ∈ (lexFull input).2, ab.1 ≤ ab.2 ∧ ab.2 ≤ byteLen input := by
  intro ab hab
  unfold lexFull at hab
  split at hab
  · simp only [List.mem_singleton] at hab
    subst hab
    exact ⟨le_refl _, le_refl _⟩
  · exact lexLoop_err_bounds (byteLen input) (input.length + 1) input (le_refl _) ab hab

/-- **C3** witness: the input `"#"` produces the error span `(0, 1)`, which
is within bounds. -/
theorem C3_lex_error_spans_in_bounds_witness :
    (0, 1) ∈ (lexFull ['#']).2 ∧ ((0 : Nat) ≤ 1 ∧ 1 ≤ byteLen ['#']) :=
  ⟨by decide, C3_lex_error_spans_in_bounds ['#'] (0, 1) (by decide)⟩

/-- **C3** counterexample: neither totality nor span disjointness holds.  On
the input `"#"` the unexpected character triggers recovery, recovery reaches
the end of input without finding another token, and the trailing `end()` of
the lexer fails: no token list is returned (`none`), only the error.  On the
seven-character input `"a\d12#` (opening quote, then `a\d12#`) the string
attempt fails inside the `\d` escape at the non-digit `#` (span `(6,7)`),
recovery then finds the identifiers `a` and `d12` *before* that span, and
the final failure at the free-standing `#` reports the same span `(6,7)`
again: the emitted spans are `[(6,7), (2,3), (6,7)]`, which contain a
duplicate, so they are not pairwise disjoint. -/
theorem C3_counterexample_totality_disjointness :
    ((lexFull ['#']).1 = none ∧ (lexFull ['#']).2 = [(0, 1)]) ∧
    ((lexFull ('"' :: "a\\d12#".data)).1 = none ∧
      (lexFull ('"' :: "a\\d12#".data)).2 = [(6, 7), (2, 3), (6, 7)]) := by
  exact ⟨⟨by decide, by decide⟩, ⟨by decide, by decide⟩⟩

/-- **C4**: contrary to the claim (and to the `Token` enum's own doc
comments), `map_slice` captures the whole matched slice, so the stored text
of `Hex`/`Bin`/`TyVal` tokens *includes* the `0x`/`0b`/`'` prefix. -/
theorem C4_literal_prefixes_are_included :
    lexFull ['0', 'x', '1', 'F'] = (some [(.Hex ['0', 'x', '1', 'F'], 0, 4)], []) ∧
    lexFull ['0', 'b', '0', '1'] = (some [(.Bin ['0', 'b', '0', '1'], 0, 4)], []) ∧
    lexFull ['\'', 'a'] = (some [(.TyVal ['\'', 'a'], 0, 2)], []) := by
  refine ⟨by decide, by decide, by decide⟩

/-! ## Parser model — `sail_parser/src/parser.rs`, `sail_parser/src/cst.rs`

The token-level chumsky parser is embedded as recursive descent over the
spanned token list.  A failure carries the span of the offending token (or
the end-of-input span); `or` keeps the failure furthest into the input, as
chumsky's error merging does.  Only the `OverloadDef` variant of `DefAux` is
ever produced by the parser (all other alternatives of `parse_def` are
commented out in the source), so the other variants are omitted here; the
`_ => {}` arm of `find_definitions` is correspondingly dead. -/

/-- `Spanned<T> = (T, Span)`; spans are byte ranges. -/
abbrev Spanned (α : Type) := α × Nat × Nat

/-- `Identifier = Spanned<()>`. -/
abbrev Identifier := Spanned Unit

/-- `OverloadDef { id, overload }`. -/
structure OverloadDef where
  id : Identifier
  overload : List Identifier
deriving DecidableEq, Repr

/-- The produced subset of `DefAux`. -/
inductive DefAux where
  | OverloadDef (d : SailVscode.OverloadDef)
deriving DecidableEq, Repr

/-- Span of the token at the head of the stream, or the end-of-input span. -/
def curSpan (eoi : Nat × Nat) : List (Token × Nat × Nat) → Nat × Nat
  | [] => eoi
  | (_, s, e) :: _ => (s, e)

/-- `parse_identifier`: `select! (Token::Id(_))` mapped to `((), span)`. -/
def parse_identifier (eoi : Nat × Nat) :
    List (Token × Nat × Nat) → Except (Nat × Nat) (Identifier × List (Token × Nat × Nat))
  | (Token.Id _, s, e) :: rest => .ok (((), s, e), rest)
  | ts => .error (curSpan eoi ts)

/-- Continuation of `separated_by`: consume `sep ident` pairs as long as they
are present (a trailing separator is not consumed, as chumsky backtracks it).
Returns the collected identifiers, the end of the last one, and the rest. -/
def sepGo (sepTok : Token) : List (Token × Nat × Nat) → List Identifier → Nat →
    List Identifier × Nat × List (Token × Nat × Nat)
  | (t1, s1, e1) :: (Token.Id x, s2, e2) :: rest, acc, lastEnd =>
    if t1 = sepTok then sepGo sepTok rest (acc ++ [((), s2, e2)]) e2
    else (acc, lastEnd, (t1, s1, e1) :: (Token.Id x, s2, e2) :: rest)
  | ts, acc, lastEnd => (acc, lastEnd, ts)

/-- `parse_identifier().separated_by(just(sep)).at_least(1)`. -/
def sepBy1 (sepTok : Token) (eoi : Nat × Nat) :
    List (Token × Nat × Nat) →
      Except (Nat × Nat) (List Identifier × Nat × List (Token × Nat × Nat))
  | (Token.Id _, s, e) :: rest => .ok (sepGo sepTok rest [((), s, e)] e)
  | ts => .error (curSpan eoi ts)

/-- `id_list_comma`: `just(LeftCurlyBracket)` then the comma-separated
identifier list then `just(RightCurlyBracket)`. -/
def commaBody (eoi : Nat × Nat) :
    List (Token × Nat × Nat) →
      Except (Nat × Nat) (List Identifier × Nat × List (Token × Nat × Nat))
  | (t, s, e) :: rest =>
    if t = Token.Op ['\x7b'] then
      match sepBy1 (Token.Op [',']) eoi rest with
      | .ok (ids, _, rest') =>
        match rest' with
        | (t2, s2, e2) :: rest'' =>
          if t2 = Token.Op ['\x7d'] then .ok (ids, e2, rest'')
          else .error (s2, e2)
        | [] => .error eoi
      | .error err => .error err
    else .error (s, e)
  | [] => .error eoi

/-- `id_list_comma.or(id_list_pipe)`: the brace-comma body, falling back to
the pipe-separated body from the same position on failure. -/
def overloadBody (eoi : Nat × Nat) (ts : List (Token × Nat × Nat)) :
    Except (Nat × Nat) (List Identifier × Nat × List (Token × Nat × Nat)) :=
  match commaBody eoi ts with
  | .ok r => .ok r
  | .error e1 =>
    match sepBy1 (Token.Op ['|']) eoi ts with
    | .ok r => .ok r
    | .error e2 => .error (if e1.1 ≥ e2.1 then e1 else e2)

/-- `parse_overload`. -/
def parse_overload (eoi : Nat × Nat) (ts : List (Token × Nat × Nat)) :
    Except (Nat × Nat) (Spanned DefAux × List (Token × Nat × Nat)) :=
  match ts with
  | (Token.Kw k, s0, e0) :: rest =>
    if k = "overload".data then
      match parse_identifier eoi rest with
      | .ok (ident, rest1) =>
        match rest1 with
        | (t2, s2, e2) :: rest2 =>
          if t2 = Token.Op ['='] then
            match overloadBody eoi rest2 with
            | .ok (ids, lastEnd, rest3) =>
              .ok ((DefAux.OverloadDef ⟨ident, ids⟩, s0, lastEnd), rest3)
            | .error err => .error err
          else .error (s2, e2)
        | [] => .error eoi
      | .error err => .error err
    else .error (s0, e0)
  | ts => .error (curSpan eoi ts)

/-- `parse_def = choice((parse_overload,))`. -/
def parse_def (eoi : Nat × Nat) (ts : List (Token × Nat × Nat)) :
    Except (Nat × Nat) (Spanned DefAux × List (Token × Nat × Nat)) :=
  parse_overload eoi ts

/-- `parse_file() = parse_def().repeated().collect()`, followed by the
end-of-input check `Parser::parse` performs; on leftover input the reported
error is the furthest `parse_def` failure.  The loop recurses on a fuel
argument for structural recursion; `fileParse` passes `tokens.length + 1`,
which cannot run out since `parse_def` consumes at least one token
(`parse_overload_ok_length`); `parse_file_fuel_stable` proves the result is
independent of the fuel once it exceeds the token count. -/
def parse_file (eoi : Nat × Nat) : Nat → List (Token × Nat × Nat) →
    List (Spanned DefAux) → Except (Nat × Nat) (List (Spanned DefAux))
  | 0, ts, acc => if ts = [] then .ok acc else .error eoi
  | fuel + 1, ts, acc =>
    match parse_def eoi ts with
    | .ok (d, rest) => parse_file eoi fuel rest (acc ++ [d])
    | .error err => if ts = [] then .ok acc else .error err

theorem sepGo_suffix (sepTok : Token) (N : Nat) : ∀ (ts : List (Token × Nat × Nat)),
    ts.length ≤ N → ∀ (acc : List Identifier) (le : Nat),
    (sepGo sepTok ts acc le).2.2.length ≤ ts.length := by
  induction N with
  | zero =>
    intro ts hts acc le
    have : ts = [] := List.length_eq_zero.mp (by omega)
    subst this
    simp [sepGo]
  | succ N ih =>
    intro ts hts acc le
    match ts with
    | [] => simp [sepGo]
    | [p] =>
      rcases p with ⟨t1, s1, e1⟩
      simp [sepGo]
    | (t1, s1, e1) :: (t2, s2, e2) :: rest' =>
      match t2 with
      | Token.Id x =>
        simp only [sepGo]
        split
        · have hrec := ih rest' (by simp only [List.length_cons] at hts ⊢; omega)
            (acc ++ [((), s2, e2)]) e2
          simp only [List.length_cons]
          omega
        · simp
      | Token.TyVal x => simp [sepGo]
      | Token.Bin x => simp [sepGo]
      | Token.Hex x => simp [sepGo]
      | Token.Num x => simp [sepGo]
      | Token.Real x => simp [sepGo]
      | Token.StringLit x => simp [sepGo]
      | Token.Kw x => simp [sepGo]
      | Token.Op x => simp [sepGo]

theorem sepBy1_ok_length {sepTok : Token} {eoi : Nat × Nat}
    {ts : List (Token × Nat × Nat)} {ids : List Identifier} {le : Nat}
    {rest : List (Token × Nat × Nat)}
    (h : sepBy1 sepTok eoi ts = .ok (ids, le, rest)) : rest.length < ts.length := by
  match ts with
  | [] => simp [sepBy1, curSpan] at h
  | (t, s, e) :: rest0 =>
    match t with
    | Token.Id x =>
      simp only [sepBy1] at h
      injection h with h1
      have hg := sepGo_suffix sepTok rest0.length rest0 (le_refl _) [((), s, e)] e
      rw [h1] at hg
      simp only [] at hg
      simp only [List.length_cons]
      omega
    | Token.TyVal x => simp [sepBy1, curSpan] at h
    | Token.Bin x => simp [sepBy1, curSpan] at h
    | Token.Hex x => simp [sepBy1, curSpan] at h
    | Token.Num x => simp [sepBy1, curSpan] at h
    | Token.Real x => simp [sepBy1, curSpan] at h
    | Token.StringLit x => simp [sepBy1, curSpan] at h
    | Token.Kw x => simp [sepBy1, curSpan] at h
    | Token.Op x => simp [sepBy1, curSpan] at h

theorem commaBody_ok_length {eoi : Nat × Nat} {ts : List (Token × Nat × Nat)}
    {ids : List Identifier} {le : Nat} {rest : List (Token × Nat × Nat)}
    (h : commaBody eoi ts = .ok (ids, le, rest)) : rest.length < ts.length := by
  match ts with
  | [] => simp [commaBody] at h
  | (t, s, e) :: rest0 =>
    simp only [commaBody] at h
    split at h
    · rcases hs : sepBy1 (Token.Op [',']) eoi rest0 with err | ⟨ids1, le1, rest1⟩
      · rw [hs] at h; try simp only [] at h
        exact absurd h (by simp)
      · rw [hs] at h
        try simp only [] at h
        have hlen1 := sepBy1_ok_length hs
        match rest1, hlen1, h with
        | (t2, s2, e2) :: rest2, hlen1, h => ?_
        | [], _, h => exact absurd h (by simp)
        try simp only [] at h
        split at h
        · injection h with h1
          injection h1 with h2 h3
          injection h3 with h4 h5
          rw [← h5]
          simp only [List.length_cons] at hlen1 ⊢
          omega
        · exact absurd h (by simp)
    · exact absurd h (by simp)

theorem overloadBody_ok_length {eoi : Nat × Nat} {ts : List (Token × Nat × Nat)}
    {ids : List Identifier} {le : Nat} {rest : List (Token × Nat × Nat)}
    (h : overloadBody eoi ts = .ok (ids, le, rest)) : rest.length < ts.length := by
  unfold overloadBody at h
  rcases hc : commaBody eoi ts with e1 | r
  · rw [hc] at h
    try simp only [] at h
    rcases hs : sepBy1 (Token.Op ['|']) eoi ts with err | ⟨ids1, le1, rest1⟩
    · rw [hs] at h; try simp only [] at h
      exact absurd h (by simp)
    · rw [hs] at h
      try simp only [] at h
      injection h with h1
      injection h1 with h2 h3
      injection h3 with h4 h5
      rw [← h5]
      exact sepBy1_ok_length hs
  · rw [hc] at h
    try simp only [] at h
    injection h with h1
    rw [h1] at hc
    exact commaBody_ok_length hc

theorem parse_identifier_ok_length {eoi : Nat × Nat} {ts : List (Token × Nat × Nat)}
    {ident : Identifier} {rest : List (Token × Nat × Nat)}
    (h : parse_identifier eoi ts = .ok (ident, rest)) : rest.length < ts.length := by
  match ts with
  | [] => simp [parse_identifier, curSpan] at h
  | (t, s, e) :: rest0 =>
    match t with
    | Token.Id x =>
      simp only [parse_identifier] at h
      injection h with h1
      injection h1 with h2 h3
      rw [← h3]
      simp
    | Token.TyVal x => simp [parse_identifier, curSpan] at h
    | Token.Bin x => simp [parse_identifier, curSpan] at h
    | Token.Hex x => simp [parse_identifier, curSpan] at h
    | Token.Num x => simp [parse_identifier, curSpan] at h
    | Token.Real x => simp [parse_identifier, curSpan] at h
    | Token.StringLit x => simp [parse_identifier, curSpan] at h
    | Token.Kw x => simp [parse_identifier, curSpan] at h
    | Token.Op x => simp [parse_identifier, curSpan] at h

theorem parse_overload_ok_length {eoi : Nat × Nat} {ts : List (Token × Nat × Nat)}
    {d : Spanned DefAux} {rest : List (Token × Nat × Nat)}
    (h : parse_overload eoi ts = .ok (d, rest)) : rest.length < ts.length := by
  match ts with
  | [] => simp [parse_overload, curSpan] at h
  | (t, s0, e0) :: rest0 =>
    match t with
    | Token.Kw k =>
      simp only [parse_overload] at h
      split at h
      · rcases hi : parse_identifier eoi rest0 with err | ⟨ident, rest1⟩
        · rw [hi] at h; try simp only [] at h
          exact absurd h (by simp)
        · rw [hi] at h
          try simp only [] at h
          have hlen1 : rest1.length < rest0.length := parse_identifier_ok_length hi
          match rest1, hlen1, h with
          | (t2, s2, e2) :: rest2, hlen1, h => ?_
          | [], _, h => exact absurd h (by simp)
          try simp only [] at h
          split at h
          · rcases hb : overloadBody eoi rest2 with err | ⟨ids, le, rest3⟩
            · rw [hb] at h
              try simp only [] at h
              exact absurd h (by simp)
            · rw [hb] at h
              try simp only [] at h
              injection h with h1
              injection h1 with h2 h3
              rw [← h3]
              have := overloadBody_ok_length hb
              simp only [List.length_cons] at hlen1 ⊢
              omega
          · exact absurd h (by simp)
      · exact absurd h (by simp)
    | Token.Id x => simp [parse_overload, curSpan] at h
    | Token.TyVal x => simp [parse_overload, curSpan] at h
    | Token.Bin x => simp [parse_overload, curSpan] at h
    | Token.Hex x => simp [parse_overload, curSpan] at h
    | Token.Num x => simp [parse_overload, curSpan] at h
    | Token.Real x => simp [parse_overload, curSpan] at h
    | Token.StringLit x => simp [parse_overload, curSpan] at h
    | Token.Op x => simp [parse_overload, curSpan] at h

theorem parse_file_fuel_stable (eoi : Nat × Nat) (fuel : Nat) :
    ∀ (ts : List (Token × Nat × Nat)), ts.length < fuel →
    ∀ fuel', ts.length < fuel' → ∀ acc,
    parse_file eoi fuel ts acc = parse_file eoi fuel' ts acc := by
  induction fuel with
  | zero => intro ts h; omega
  | succ fuel ih =>
    intro ts hts fuel' hts' acc
    match fuel', hts' with
    | fuel'' + 1, _ =>
      simp only [parse_file]
      rcases hd : parse_def eoi ts with err | ⟨d, rest⟩
      · rfl
      · have hlen := parse_overload_ok_length hd
        exact ih rest (by omega) fuel'' (by omega) (acc ++ [d])

/-! ## Definition analysis — `sail_server/src/analyser.rs` — and
`File::parse` — `sail_server/src/file.rs`

The `HashMap<String, usize>` is modelled as an association list where
`insert` conses (so `List.lookup`, which returns the first match, sees the
latest insertion — `HashMap` overwrite semantics). -/

/-- `find_definitions`: for each `OverloadDef`, slice the source at the id's
span (`str::get`, which returns `None` out of bounds or off character
boundaries) and record the id text at the span's start. -/
def find_definitions (cst : List (Spanned DefAux)) (source : List Char) :
    List (List Char × Nat) :=
  cst.foldl (fun defs d =>
    match d.1 with
    | DefAux.OverloadDef od =>
      match sliceBytes? source od.id.2.1 od.id.2.2 with
      | some idText => (idText, od.id.2.1) :: defs
      | none => defs) []

/-- The modelled fields of `tower_lsp::lsp_types::Diagnostic` as `File::parse`
fills them: the range, severity `ERROR` (numeric value 1) and source
`"Sail"`.  The message (the error's display string) is not modelled. -/
structure Diagnostic where
  range : LspRange
  severity : Nat
  source : List Char
deriving DecidableEq, Repr

/-- `File::parse`, as a function of the source text: returns the `cst`,
`definitions` and `diagnostics` fields.  The diagnostics are `none` when
`position_at` panics on one of the error spans. -/
def fileParse (src : List Char) :
    Option (List (Spanned DefAux)) × List (List Char × Nat) × Option (List Diagnostic) :=
  let lexRes := lexFull src
  let pr : Option (List (Spanned DefAux)) × List (Nat × Nat) :=
    match lexRes.1 with
    | some toks =>
      match parse_file (byteLen src, byteLen src) (toks.length + 1) toks [] with
      | .ok cst => (some cst, [])
      | .error err => (none, [err])
    | none => (none, [])
  let errs := lexRes.2 ++ pr.2
  let diagnostics := errs.mapM (fun se =>
    ((TextDocument.new src).position_at? se.1).bind fun ps =>
      ((TextDocument.new src).position_at? se.2).map fun pe =>
        ({ range := ⟨ps, pe⟩, severity := 1, source := "Sail".data } : Diagnostic))
  let defs := match pr.1 with
    | some cst => find_definitions cst src
    | none => []
  (pr.1, defs, diagnostics)

/-- **C5** (confirmed): parsing `overload foo = \x7b bar, baz \x7d` yields an
`OverloadDef` whose id span 9..12 slices to `foo` and whose members span
17..20 and 22..25; `find_definitions` maps `"foo"` to byte offset 9; and the
pipe form `overload foo = bar | baz` is accepted as well. -/
theorem C5_overload_cst_and_definitions :
    (fileParse "overload foo = \x7b bar, baz \x7d".data).1 =
      some [(DefAux.OverloadDef ⟨((), 9, 12), [((), 17, 20), ((), 22, 25)]⟩, 0, 27)] ∧
    sliceBytes? "overload foo = \x7b bar, baz \x7d".data 9 12 = some "foo".data ∧
    ((fileParse "overload foo = \x7b bar, baz \x7d".data).2.1.lookup "foo".data = some 9) ∧
    (fileParse "overload foo = bar | baz".data).1 =
      some [(DefAux.OverloadDef ⟨((), 9, 12), [((), 15, 18), ((), 21, 24)]⟩, 0, 24)] := by
  refine ⟨by decide, by decide, by decide, by decide⟩

/-- **C7** (corrected): analysing `0xGG` produces exactly one diagnostic with
severity `Error` and source `"Sail"`, but its range covers bytes 0..1 (the
`Num "0"` token at which the parse fails), not bytes 0..4 as claimed: `0xGG`
lexes without error as `Num "0"` followed by `Id "xGG"`, so the diagnostic
comes from the parser, anchored at the first token. -/
theorem C7_analysing_0xGG_diagnostic :
    (fileParse "0xGG".data).2.2 =
      some [⟨⟨⟨0, 0⟩, ⟨0, 1⟩⟩, 1, "Sail".data⟩] := by
  decide

/-- **C7** counterexample: the lexer accepts `0xGG` (two tokens, no lex
error), and the single diagnostic's range ends at character 1, not at the
position of byte 4. -/
theorem C7_counterexample_not_full_span :
    lexFull "0xGG".data =
      (some [(.Num ['0'], 0, 1), (.Id ['x', 'G', 'G'], 1, 4)], []) ∧
    (fileParse "0xGG".data).2.2 =
      some [⟨⟨⟨0, 0⟩, ⟨0, 1⟩⟩, 1, "Sail".data⟩] ∧
    (⟨⟨0, 0⟩, ⟨0, 1⟩⟩ : LspRange) ≠
      ⟨⟨0, 0⟩, ((TextDocument.new "0xGG".data).position_at? 4).getD ⟨0, 0⟩⟩ := by
  refine ⟨by decide, by decide, by decide⟩

/-! ## Token-sliding definitions — `sail_server/src/definitions.rs`

`add_definitions` first scans adjacent token pairs (`tuple_windows`) for
`Kw… Id` definition heads, then runs a second pass whose shared iterator is
modelled as the state machine `enumScan`: each state transition consumes one
token, exactly like the chain of `token_iter.next()` calls in
`add_enum_definition` (a token consumed by a failed `if let` is not
re-examined by the outer loop). -/

/-- The insertion a single `tuple_windows` pair triggers. -/
def pairInsert (t0 t1 : Token) (s1 : Nat) (defs : List (List Char × Nat)) :
    List (List Char × Nat) :=
  match t0, t1 with
  | Token.Kw k, Token.Id ident =>
    if k = "function".data ∨ k = "register".data ∨ k = "mapping".data ∨
        k = "union".data ∨ k = "struct".data ∨ k = "type".data ∨
        k = "overload".data then
      (ident, s1) :: defs
    else if k = "bitfield".data then
      ("Mk_".data ++ ident, s1) :: (ident, s1) :: defs
    else defs
  | _, _ => defs

/-- The `tuple_windows` loop of `add_definitions`. -/
def addPairDefs : List (Token × Nat × Nat) → List (List Char × Nat) →
    List (List Char × Nat)
  | (t0, _, _) :: (t1, s1, e1) :: rest, defs =>
    addPairDefs ((t1, s1, e1) :: rest) (pairInsert t0 t1 s1 defs)
  | _, defs => defs

/-- State of the `while let` loop over the shared token iterator: scanning for
`enum`/`overload`, or inside `add_enum_definition` after the keyword, after
the name, after `=`, inside the member list, or after a member. -/
inductive EMode where
  | scan
  | afterKw
  | afterId
  | afterEq
  | inList
  | afterMember
deriving DecidableEq, Repr

/-- The `while let` loop of `add_definitions` with `add_enum_definition`
inlined as a token-consuming state machine. -/
def enumScan : EMode → List (Token × Nat × Nat) → List (List Char × Nat) →
    List (List Char × Nat)
  | _, [], defs => defs
  | .scan, (t, _, _) :: rest, defs =>
    if t = Token.Kw "enum".data ∨ t = Token.Kw "overload".data then
      enumScan .afterKw rest defs
    else enumScan .scan rest defs
  | .afterKw, (t, s, _) :: rest, defs =>
    match t with
    | Token.Id ident => enumScan .afterId rest ((ident, s) :: defs)
    | _ => enumScan .scan rest defs
  | .afterId, (t, _, _) :: rest, defs =>
    if t = Token.Op ['='] then enumScan .afterEq rest defs
    else enumScan .scan rest defs
  | .afterEq, (t, _, _) :: rest, defs =>
    if t = Token.Op ['\x7b'] then enumScan .inList rest defs
    else enumScan .scan rest defs
  | .inList, (t, s, _) :: rest, defs =>
    match t with
    | Token.Id ident => enumScan .afterMember rest ((ident, s) :: defs)
    | _ => enumScan .scan rest defs
  | .afterMember, (t, _, _) :: rest, defs =>
    if t = Token.Op [','] then enumScan .inList rest defs
    else enumScan .scan rest defs

/-- `add_definitions` (the `_text` argument of the source is unused). -/
def add_definitions (tokens : List (Token × Nat × Nat))
    (definitions : List (List Char × Nat)) : List (List Char × Nat) :=
  enumScan .scan tokens (addPairDefs tokens definitions)

/-- The token sequence of a brace-form member list `m1 , m2 , … , mk`
(commas between members; comma spans are irrelevant to the analyser). -/
def memberSeq : List (List Char × Nat × Nat) → List (Token × Nat × Nat)
  | [] => []
  | [(m, s, e)] => [(Token.Id m, s, e)]
  | (m, s, e) :: rest => (Token.Id m, s, e) :: (Token.Op [','], 0, 0) :: memberSeq rest

theorem memberSeq_no_kw {ms : List (List Char × Nat × Nat)} :
    ∀ x ∈ memberSeq ms, ∀ k, x.1 ≠ Token.Kw k := by
  induction ms with
  | nil => simp [memberSeq]
  | cons p rest ih =>
    rcases p with ⟨m, s, e⟩
    cases rest with
    | nil => simp [memberSeq]
    | cons q rest' =>
      intro x hx k
      simp only [memberSeq, List.mem_cons] at hx
      rcases hx with rfl | rfl | hx
      · simp
      · simp
      · exact ih x hx k

theorem addPairDefs_no_kw : ∀ (ts : List (Token × Nat × Nat))
    (defs : List (List Char × Nat)),
    (∀ x ∈ ts, ∀ k, x.1 ≠ Token.Kw k) → addPairDefs ts defs = defs := by
  intro ts
  induction ts with
  | nil => intro defs _; rfl
  | cons p rest ih =>
    intro defs hno
    rcases p with ⟨t0, s0, e0⟩
    cases rest with
    | nil => rfl
    | cons q rest' =>
      rcases q with ⟨t1, s1, e1⟩
      simp only [addPairDefs]
      have hp : pairInsert t0 t1 s1 defs = defs := by
        have h0 : ∀ k, t0 ≠ Token.Kw k := by
          intro k
          exact hno (t0, s0, e0) (List.mem_cons_self _ _) k
        unfold pairInsert
        match t0, h0 with
        | Token.Kw k, h0 => exact absurd rfl (h0 k)
        | Token.Id _, _ => rfl
        | Token.TyVal _, _ => rfl
        | Token.Bin _, _ => rfl
        | Token.Hex _, _ => rfl
        | Token.Num _, _ => rfl
        | Token.Real _, _ => rfl
        | Token.StringLit _, _ => rfl
        | Token.Op _, _ => rfl
      rw [hp]
      exact ih defs (fun x hx k => hno x (List.mem_cons_of_mem _ hx) k)

/-- The loop state reached after a list of tokens.  The insertions never
influence the control flow, so the state is a function of the tokens alone;
this mirrors `enumScan` step by step. -/
def enumState : EMode → List (Token × Nat × Nat) → EMode
  | st, [] => st
  | .scan, (t, _, _) :: rest =>
    if t = Token.Kw "enum".data ∨ t = Token.Kw "overload".data then
      enumState .afterKw rest
    else enumState .scan rest
  | .afterKw, (t, _, _) :: rest =>
    match t with
    | Token.Id _ => enumState .afterId rest
    | _ => enumState .scan rest
  | .afterId, (t, _, _) :: rest =>
    if t = Token.Op ['='] then enumState .afterEq rest
    else enumState .scan rest
  | .afterEq, (t, _, _) :: rest =>
    if t = Token.Op ['\x7b'] then enumState .inList rest
    else enumState .scan rest
  | .inList, (t, _, _) :: rest =>
    match t with
    | Token.Id _ => enumState .afterMember rest
    | _ => enumState .scan rest
  | .afterMember, (t, _, _) :: rest =>
    if t = Token.Op [','] then enumState .inList rest
    else enumState .scan rest

/-- Splitting an `enumScan` run at an arbitrary point of the token stream:
the suffix is processed from the state the prefix ends in, over the map the
prefix accumulated. -/
theorem enumScan_append :
    ∀ (l1 : List (Token × Nat × Nat)) (l2 : List (Token × Nat × Nat)) (st : EMode)
      (defs : List (List Char × Nat)),
    enumScan st (l1 ++ l2) defs = enumScan (enumState st l1) l2 (enumScan st l1 defs) := by
  intro l1
  induction l1 with
  | nil => intro l2 st defs; cases st <;> rfl
  | cons p rest ih =>
    intro l2 st defs
    rcases p with ⟨t, s, e⟩
    cases st with
    | scan =>
      simp only [List.cons_append, enumScan, enumState]
      split
      · exact ih l2 _ defs
      · exact ih l2 _ defs
    | afterKw =>
      simp only [List.cons_append, enumScan, enumState]
      cases t <;> exact ih l2 _ _
    | afterId =>
      simp only [List.cons_append, enumScan, enumState]
      split
      · exact ih l2 _ defs
      · exact ih l2 _ defs
    | afterEq =>
      simp only [List.cons_append, enumScan, enumState]
      split
      · exact ih l2 _ defs
      · exact ih l2 _ defs
    | inList =>
      simp only [List.cons_append, enumScan, enumState]
      cases t <;> exact ih l2 _ _
    | afterMember =>
      simp only [List.cons_append, enumScan, enumState]
      split
      · exact ih l2 _ defs
      · exact ih l2 _ defs

/-- `enumScan` only conses onto the accumulated map, so the map argument can
be split off. -/
theorem enumScan_defs_decomp :
    ∀ (ts : List (Token × Nat × Nat)) (st : EMode) (defs : List (List Char × Nat)),
    enumScan st ts defs = enumScan st ts [] ++ defs := by
  intro ts
  induction ts with
  | nil => intro st defs; cases st <;> rfl
  | cons p rest ih =>
    intro st defs
    rcases p with ⟨t, s, e⟩
    cases st with
    | scan =>
      simp only [enumScan]
      split
      · exact ih _ defs
      · exact ih _ defs
    | afterKw =>
      simp only [enumScan]
      cases t with
      | Id i =>
        simp only []
        rw [ih .afterId ((i, s) :: defs), ih .afterId [(i, s)], List.append_assoc,
          List.singleton_append]
      | TyVal x => exact ih _ defs
      | Bin x => exact ih _ defs
      | Hex x => exact ih _ defs
      | Num x => exact ih _ defs
      | Real x => exact ih _ defs
      | StringLit x => exact ih _ defs
      | Kw x => exact ih _ defs
      | Op x => exact ih _ defs
    | afterId =>
      simp only [enumScan]
      split
      · exact ih _ defs
      · exact ih _ defs
    | afterEq =>
      simp only [enumScan]
      split
      · exact ih _ defs
      · exact ih _ defs
    | inList =>
      simp only [enumScan]
      cases t with
      | Id i =>
        simp only []
        rw [ih .afterMember ((i, s) :: defs), ih .afterMember [(i, s)], List.append_assoc,
          List.singleton_append]
      | TyVal x => exact ih _ defs
      | Bin x => exact ih _ defs
      | Hex x => exact ih _ defs
      | Num x => exact ih _ defs
      | Real x => exact ih _ defs
      | StringLit x => exact ih _ defs
      | Kw x => exact ih _ defs
      | Op x => exact ih _ defs
    | afterMember =>
      simp only [enumScan]
      split
      · exact ih _ defs
      · exact ih _ defs

theorem lookup_append_none {m : List Char} :
    ∀ {A B : List (List Char × Nat)}, A.lookup m = none →
    (A ++ B).lookup m = B.lookup m := by
  intro A
  induction A with
  | nil => intro B _; rfl
  | cons p rest ih =>
    intro B h
    rcases p with ⟨k, v⟩
    simp only [List.lookup, List.cons_append] at h ⊢
    cases hpk : (m == k) with
    | true =>
      rw [hpk] at h
      simp only [] at h
      exact absurd h (by simp)
    | false =>
      rw [hpk] at h
      simp only [] at h ⊢
      exact ih h

theorem enumScan_inList_members :
    ∀ (ms : List (List Char × Nat × Nat)) (defs : List (List Char × Nat)) (x y : Nat)
      (post : List (Token × Nat × Nat)),
    enumScan .inList (memberSeq ms ++ (Token.Op ['\x7d'], x, y) :: post) defs =
      enumScan .scan post (ms.foldl (fun d p => (p.1, p.2.1) :: d) defs) := by
  intro ms
  induction ms with
  | nil =>
    intro defs x y post
    simp [memberSeq, enumScan]
  | cons p rest ih =>
    intro defs x y post
    rcases p with ⟨m, s, e⟩
    cases rest with
    | nil =>
      simp [memberSeq, enumScan]
    | cons q rest' =>
      simp only [memberSeq, List.cons_append, enumScan, List.foldl_cons, if_true]
      exact ih _ x y post

theorem lookup_foldl_cons_skip :
    ∀ (l2 : List (List Char × Nat × Nat)) (d : List (List Char × Nat)) (m : List Char),
    m ∉ l2.map (fun p => p.1) →
    (l2.foldl (fun d p => (p.1, p.2.1) :: d) d).lookup m = d.lookup m := by
  intro l2
  induction l2 with
  | nil => intro d m _; rfl
  | cons p rest ih =>
    intro d m hm
    simp only [List.map_cons, List.mem_cons] at hm
    push_neg at hm
    simp only [List.foldl_cons]
    rw [ih _ m hm.2]
    have hb : (m == p.1) = false := beq_eq_false_iff_ne.mpr hm.1
    simp only [List.lookup, hb]

/-- **C6** (corrected): wherever a token stream contains a brace-comma
definition `kw name = \x7b m1, …, mk \x7d` with `kw` either `enum` or
`overload`, `add_definitions` inserts every member at that member's own span
start, provided (i) the shared token iterator reaches the keyword while
scanning (the prefix leaves the `while let` loop in its scanning state —
e.g. in `enum overload E = \x7b A \x7d` it does not, the inner `overload` is
swallowed by `add_enum_definition` and no member is inserted), (ii) no later
member of the same definition has the same name, and (iii) scanning the rest
of the stream inserts nothing under that name (a later `overload m = …`
re-inserts `m` at the later offset).  The pipe-form half of the claim is
false outright: `add_enum_definition` only proceeds past `=` when the next
token is a left curly bracket, so pipe-separated members are never inserted
(see the counterexample). -/
theorem C6_brace_form_members_inserted (pre post : List (Token × Nat × Nat))
    (kw : List Char) (hkw : kw = "enum".data ∨ kw = "overload".data)
    (name : List Char) (ks ke ns ne es ee bs be rs re : Nat)
    (members : List (List Char × Nat × Nat))
    (l1 l2 : List (List Char × Nat × Nat)) (m : List Char) (s e : Nat)
    (defs0 : List (List Char × Nat))
    (hsplit : members = l1 ++ (m, s, e) :: l2)
    (hlater : m ∉ l2.map (fun p => p.1))
    (hpre : enumState .scan pre = .scan)
    (hpost : (enumScan .scan post []).lookup m = none) :
    (add_definitions
        (pre ++ (Token.Kw kw, ks, ke) :: (Token.Id name, ns, ne) ::
          (Token.Op ['='], es, ee) :: (Token.Op ['\x7b'], bs, be) ::
          (memberSeq members ++ (Token.Op ['\x7d'], rs, re) :: post))
        defs0).lookup m = some s := by
  unfold add_definitions
  rw [enumScan_append, hpre]
  have hstep : ∀ D : List (List Char × Nat),
      enumScan .scan
        ((Token.Kw kw, ks, ke) :: (Token.Id name, ns, ne) :: (Token.Op ['='], es, ee) ::
          (Token.Op ['\x7b'], bs, be) ::
          (memberSeq members ++ (Token.Op ['\x7d'], rs, re) :: post)) D =
      enumScan .inList (memberSeq members ++ (Token.Op ['\x7d'], rs, re) :: post)
        ((name, ns) :: D) := by
    intro D
    simp only [enumScan, Token.Kw.injEq, if_true]
    rw [if_pos hkw]
  rw [hstep, enumScan_inList_members, enumScan_defs_decomp, lookup_append_none hpost,
    hsplit, List.foldl_append, List.foldl_cons, lookup_foldl_cons_skip l2 _ m hlater]
  simp only [List.lookup, beq_self_eq_true]

/-- **C6** witness: in `x enum E = \x7b A, B \x7d function` (an identifier
before, a lone keyword after) both members are recorded at their own
offsets; the witness checks member `B`. -/
theorem C6_brace_form_members_inserted_witness :
    (add_definitions
        ((Token.Id ['x'], 0, 1) :: (Token.Kw "enum".data, 2, 6) :: (Token.Id ['E'], 7, 8) ::
          (Token.Op ['='], 9, 10) :: (Token.Op ['\x7b'], 11, 12) ::
          (memberSeq [(['A'], 13, 14), (['B'], 16, 17)] ++
            (Token.Op ['\x7d'], 18, 19) :: [(Token.Kw "function".data, 20, 28)]))
        []).lookup ['B'] = some 16 :=
  C6_brace_form_members_inserted [(Token.Id ['x'], 0, 1)]
    [(Token.Kw "function".data, 20, 28)] "enum".data (Or.inl rfl) ['E'] 2 6 7 8 9 10 11 12
    18 19 [(['A'], 13, 14), (['B'], 16, 17)] [(['A'], 13, 14)] [] ['B'] 16 17 []
    rfl (by simp) (by decide) (by decide)

/-- **C6** counterexample: three failures of the unconditional claim.
(1) In the pipe form `enum E = A | B` the members `A` and `B` are never
inserted (the name `E` still is).  (2) In `enum overload E = \x7b A \x7d`
the inner `overload` keyword is consumed by `add_enum_definition` while it
expects the definition name, so the brace-form member `A` is not inserted
either.  (3) In `enum E = \x7b m \x7d overload m = \x7b x \x7d` the member
`m` (span start 11) is shadowed by the later overload *name* `m`, so the map
sends `m` to 24 even though no later *member* is named `m`. -/
theorem C6_counterexample_pipe_form_members_missing :
    ((add_definitions [(Token.Kw "enum".data, 0, 4), (Token.Id ['E'], 5, 6),
        (Token.Op ['='], 7, 8), (Token.Id ['A'], 9, 10), (Token.Op ['|'], 11, 12),
        (Token.Id ['B'], 13, 14)] []).lookup ['A'] = none ∧
      (add_definitions [(Token.Kw "enum".data, 0, 4), (Token.Id ['E'], 5, 6),
        (Token.Op ['='], 7, 8), (Token.Id ['A'], 9, 10), (Token.Op ['|'], 11, 12),
        (Token.Id ['B'], 13, 14)] []).lookup ['B'] = none ∧
      (add_definitions [(Token.Kw "enum".data, 0, 4), (Token.Id ['E'], 5, 6),
        (Token.Op ['='], 7, 8), (Token.Id ['A'], 9, 10), (Token.Op ['|'], 11, 12),
        (Token.Id ['B'], 13, 14)] []).lookup ['E'] = some 5) ∧
    (add_definitions [(Token.Kw "enum".data, 0, 4), (Token.Kw "overload".data, 5, 13),
        (Token.Id ['E'], 14, 15), (Token.Op ['='], 16, 17), (Token.Op ['\x7b'], 18, 19),
        (Token.Id ['A'], 20, 21), (Token.Op ['\x7d'], 22, 23)] []).lookup ['A'] = none ∧
    (add_definitions [(Token.Kw "enum".data, 0, 4), (Token.Id ['E'], 5, 6),
        (Token.Op ['='], 7, 8), (Token.Op ['\x7b'], 9, 10), (Token.Id ['m'], 11, 12),
        (Token.Op ['\x7d'], 13, 14), (Token.Kw "overload".data, 15, 23),
        (Token.Id ['m'], 24, 25), (Token.Op ['='], 26, 27), (Token.Op ['\x7b'], 28, 29),
        (Token.Id ['x'], 30, 31), (Token.Op ['\x7d'], 32, 33)] []).lookup ['m'] =
      some 24 := by
  exact ⟨⟨by decide, by decide, by decide⟩, by decide, by decide⟩

/-! ## JSON-RPC framing — `sail_server/src/lsp.rs` — and the request loop
dispatch — `sail_server/src/main.rs`

`receive_request` is modelled on the already-line-split header section (the
`lines()` iterator: header lines without their terminators, ending at the
first empty line or end of stream — both make the `for` loop proceed
identically) plus the remaining stream as a character list.  `anyhow` errors
carry only messages, so failures are `Except.error ()`.  JSON parsing
(`serde_json::from_slice`) is an opaque parameter `parseJson`; reading
`content_length` bytes that end inside a multi-byte character (which no
`List Char` represents) is folded into the parse failure it would become
(such a body is invalid UTF-8 and hence invalid JSON).  Integer overflow of
`usize` parsing is not modelled (`Nat` is unbounded). -/

/-- The modelled fields of `lsp::Request` (the `params` JSON value is not
modelled). -/
structure Request where
  jsonrpc : List Char
  id : Nat
  method : List Char
deriving DecidableEq, Repr

/-- Rust `str::split_once(':')`. -/
def splitOnce : List Char → Char → Option (List Char × List Char)
  | [], _ => none
  | c :: rest, sep =>
    if c = sep then some ([], rest)
    else (splitOnce rest sep).map (fun p => (c :: p.1, p.2))

/-- Rust `str::trim` (both ends). -/
def trimChars (s : List Char) : List Char :=
  ((s.dropWhile isRustWhitespace).reverse.dropWhile isRustWhitespace).reverse

/-- Rust `str::parse::<usize>`: an optional `+` sign then one or more ASCII
digits. -/
def parseUsize? (s : List Char) : Option Nat :=
  let t := match s with
    | '+' :: r => r
    | _ => s
  if t ≠ [] ∧ t.all Char.isDigit then
    some (t.foldl (fun a c => a * 10 + (c.toNat - '0'.toNat)) 0)
  else none

/-- The header `for` loop of `receive_request`: accumulates `content_length`
and `content_type`, failing on a colon-less line, an unrecognised header or a
duplicate. -/
def readHeaders : List (List Char) → Option Nat → Option (List Char) →
    Except Unit (Option Nat × Option (List Char))
  | [], cl, ct => .ok (cl, ct)
  | line :: rest, cl, ct =>
    if line = [] then .ok (cl, ct)
    else
      match splitOnce line ':' with
      | none => .error ()
      | some (header, value) =>
        if header.map Char.toLower = "content-length".data then
          match cl with
          | some _ => .error ()
          | none =>
            match parseUsize? (trimChars value) with
            | some n => readHeaders rest (some n) ct
            | none => .error ()
        else if header.map Char.toLower = "content-type".data then
          match ct with
          | some _ => .error ()
          | none => readHeaders rest cl (some (trimChars value))
        else .error ()

/-- `receive_request`: read the headers, check the Content-Type value,
require Content-Length, read that many bytes and parse them. -/
def receive_request (lines : List (List Char)) (body : List Char)
    (parseJson : List Char → Option Request) : Except Unit Request :=
  match readHeaders lines none none with
  | .error () => .error ()
  | .ok (cl, ct) =>
    if ct.any (fun v => v ≠ "application/vscode-jsonrpc; charset=utf-8".data) then
      .error ()
    else
      match cl with
      | some n =>
        match takeBytes? body n with
        | some content =>
          match parseJson content with
          | some req => .ok req
          | none => .error ()
        | none => .error ()
      | none => .error ()

/-- The request-loop dispatch of `main.rs`: only `"initialize"` is handled;
every other method is answered with `ERROR_METHOD_NOT_FOUND` (-32601).
`none` means the request was dispatched to a handler, `some code` the error
response sent instead. -/
def dispatch (method : List Char) : Option Int :=
  if method = "initialize".data then none
  else some (-32601)

theorem splitOnce_colon (h v : List Char) (hh : ':' ∉ h) :
    splitOnce (h ++ ':' :: v) ':' = some (h, v) := by
  induction h with
  | nil => simp [splitOnce]
  | cons c hs ih =>
    show splitOnce (c :: (hs ++ ':' :: v)) ':' = some (c :: hs, v)
    simp only [splitOnce]
    rw [if_neg (by intro hc; exact hh (by rw [hc]; exact List.mem_cons_self _ _))]
    rw [ih (fun hm => hh (List.mem_cons_of_mem _ hm))]
    rfl

theorem readHeaders_step_cl {v : List Char} {rest : List (List Char)}
    {ct : Option (List Char)} {n : Nat} (hv : parseUsize? (trimChars v) = some n) :
    readHeaders (("Content-Length".data ++ ':' :: v) :: rest) none ct =
      readHeaders rest (some n) ct := by
  conv_lhs => unfold readHeaders
  rw [if_neg (by simp), splitOnce_colon _ _ (by decide)]
  try simp only []
  rw [if_pos (by decide)]
  try simp only []
  rw [hv]

theorem readHeaders_dup_cl {v : List Char} {rest : List (List Char)}
    {ct : Option (List Char)} {n : Nat} :
    readHeaders (("Content-Length".data ++ ':' :: v) :: rest) (some n) ct = .error () := by
  conv_lhs => unfold readHeaders
  rw [if_neg (by simp), splitOnce_colon _ _ (by decide)]
  try simp only []
  rw [if_pos (by decide)]

theorem readHeaders_step_ct {v : List Char} {rest : List (List Char)}
    {cl : Option Nat} :
    readHeaders (("Content-Type".data ++ ':' :: v) :: rest) cl none =
      readHeaders rest cl (some (trimChars v)) := by
  conv_lhs => unfold readHeaders
  rw [if_neg (by simp), splitOnce_colon _ _ (by decide)]
  try simp only []
  rw [if_neg (by decide), if_pos (by decide)]

theorem readHeaders_dup_ct {v : List Char} {rest : List (List Char)}
    {cl : Option Nat} {u : List Char} :
    readHeaders (("Content-Type".data ++ ':' :: v) :: rest) cl (some u) = .error () := by
  conv_lhs => unfold readHeaders
  rw [if_neg (by simp), splitOnce_colon _ _ (by decide)]
  try simp only []
  rw [if_neg (by decide), if_pos (by decide)]

theorem readHeaders_unknown {h v : List Char} {rest : List (List Char)}
    {cl : Option Nat} {ct : Option (List Char)} (hcolon : ':' ∉ h)
    (h1 : h.map Char.toLower ≠ "content-length".data)
    (h2 : h.map Char.toLower ≠ "content-type".data) :
    readHeaders ((h ++ ':' :: v) :: rest) cl ct = .error () := by
  conv_lhs => unfold readHeaders
  rw [if_neg (by simp), splitOnce_colon _ _ hcolon]
  try simp only []
  rw [if_neg h1, if_neg h2]

/-- **C9** (corrected): `receive_request` fails on each of the enumerated
framing conditions — a missing `Content-Length`, a duplicate
`Content-Length` or `Content-Type`, an unrecognised header, and a
`Content-Type` whose value is not the expected one — and on well-formed
framing it reads exactly `Content-Length` bytes and parses them; but the
"exactly" of the claim is false: it also fails on a malformed
`Content-Length` value, on a colon-less header line, on a too-short body and
on invalid JSON (see the counterexample). -/
theorem C9_receive_request_framing (pj : List Char → Option Request)
    (body : List Char) :
    receive_request [] body pj = .error () ∧
    (∀ v w rest n, parseUsize? (trimChars v) = some n →
      receive_request (("Content-Length".data ++ ':' :: v) ::
          ("Content-Length".data ++ ':' :: w) :: rest) body pj = .error ()) ∧
    (∀ v w rest, receive_request (("Content-Type".data ++ ':' :: v) ::
        ("Content-Type".data ++ ':' :: w) :: rest) body pj = .error ()) ∧
    (∀ h v rest, ':' ∉ h → h.map Char.toLower ≠ "content-length".data →
      h.map Char.toLower ≠ "content-type".data →
      receive_request ((h ++ ':' :: v) :: rest) body pj = .error ()) ∧
    (∀ v vt n, parseUsize? (trimChars v) = some n →
      trimChars vt ≠ "application/vscode-jsonrpc; charset=utf-8".data →
      receive_request [("Content-Length".data ++ ':' :: v),
        ("Content-Type".data ++ ':' :: vt)] body pj = .error ()) ∧
    (∀ v n, parseUsize? (trimChars v) = some n →
      receive_request [("Content-Length".data ++ ':' :: v)] body pj =
        (match takeBytes? body n with
         | some content =>
           (match pj content with
            | some req => Except.ok req
            | none => Except.error ())
         | none => Except.error ())) := by
  refine ⟨rfl, ?_, ?_, ?_, ?_, ?_⟩
  · intro v w rest n hv
    unfold receive_request
    rw [readHeaders_step_cl hv, readHeaders_dup_cl]
  · intro v w rest
    unfold receive_request
    rw [readHeaders_step_ct, readHeaders_dup_ct]
  · intro h v rest hc h1 h2
    unfold receive_request
    rw [readHeaders_unknown hc h1 h2]
  · intro v vt n hv hct
    unfold receive_request
    rw [readHeaders_step_cl hv, readHeaders_step_ct]
    conv_lhs => unfold readHeaders
    try simp only []
    simp only [Option.any_some]
    rw [if_pos (decide_eq_true hct)]
  · intro v n hv
    unfold receive_request
    rw [readHeaders_step_cl hv]
    conv_lhs => unfold readHeaders
    try simp only []
    try rfl

/-- **C9** witness: the six framing facts at concrete headers and a concrete
parser. -/
theorem C9_receive_request_framing_witness :
    receive_request [("Content-Length".data ++ ':' :: " 1".data)] ['x']
      (fun c => some ⟨"2.0".data, 0, c⟩) = .ok ⟨"2.0".data, 0, ['x']⟩ := by
  have h := (C9_receive_request_framing (fun c => some ⟨"2.0".data, 0, c⟩) ['x']).2.2.2.2.2
    " 1".data 1 (by decide)
  rw [h]
  rfl

/-- **C9** counterexample: a single `Content-Length` header whose value is
not a number makes `receive_request` fail, although none of the claim's
enumerated conditions holds for this input (the header is present exactly
once, no other header occurs, no `Content-Type` is present), and the claim
would have it read the body. -/
theorem C9_counterexample_malformed_length :
    receive_request ["Content-Length: abc".data] ['x']
      (fun c => some ⟨"2.0".data, 0, c⟩) = .error () := by
  rfl

/-- **C8** (corrected): the request loop handles only `"initialize"`; every
other method of the claim's list — including `initialized`, `shutdown` and
all the `textDocument/…` and `workspace/…` notifications — is answered with
`ERROR_METHOD_NOT_FOUND` (-32601), contradicting the claim that they are
dispatched to handlers. -/
theorem C8_only_initialize_dispatched :
    dispatch "initialize".data = none ∧
    ∀ m ∈ ["initialized", "shutdown", "textDocument/didOpen",
        "textDocument/didChange", "textDocument/didSave", "textDocument/didClose",
        "textDocument/definition", "workspace/didChangeConfiguration",
        "workspace/didChangeWorkspaceFolders",
        "workspace/didChangeWatchedFiles"].map String.data,
      dispatch m = some (-32601) := by
  constructor
  · decide
  · intro m hm
    simp only [List.map_cons, List.map_nil, List.mem_cons, List.not_mem_nil,
      or_false] at hm
    rcases hm with rfl | rfl | rfl | rfl | rfl | rfl | rfl | rfl | rfl | rfl <;> decide

/-- **C8** witness: `shutdown` gets `-32601`. -/
theorem C8_only_initialize_dispatched_witness :
    dispatch "shutdown".data = some (-32601) :=
  C8_only_initialize_dispatched.2 "shutdown".data (by simp)

/-- **C8** counterexample: `initialized` — listed by the claim as dispatched
to a handler — is answered with `MethodNotFound`. -/
theorem C8_counterexample_initialized :
    dispatch "initialized".data = some (-32601) := by
  decide

end SailVscode
